import Mathlib

/-!
# Depth-first search, cycle search and transitive closure over a small graph store

A shallow embedding of `src/vertex/Vertex.go`, `src/graph/Graph.go` and of the checks of
`src/main/Driver.go` that do not touch the file system.

Conventions of the embedding:

* Go `int` values (vertex IDs, loop counters) are `Int`; positions inside a slice are `Nat`.
* A slice is a `List`; `xs[i]` with an `int` index is `index xs i`, which faults when the index
  is negative or not below the length, the way the Go runtime panics.
* A `*Vertex` stored in `AdjList` always points into the backing array of `VertexList`
  (`&g.VertexList[dest]`), so it is kept as the position it points at; reading `e.ID` or
  `e.Color` through it reads the current element of `VertexList`.
* Methods with a value receiver (`DepthFirstSearch`, `CycleSearch`) still write through the
  shared backing array of `VertexList`; the embedding therefore returns the vertex list after
  the call next to the Go return values.
* The two `for len(stack.stack) > 0` loops are iterated by `iterate` with a bound on the number
  of iterations computed from the number of vertices; running past the bound is the separate
  fault `outOfFuel`, which the theorems show never happens on a well-formed graph.
-/

namespace DFS

/-! ## Vertex.go -/

/-- Colour constant `UNVISITED` of package vertex. -/
def UNVISITED : String := "Black"
/-- Colour constant `VISITED` of package vertex. -/
def VISITED : String := "Gray"
/-- Colour constant `FINISHED` of package vertex. -/
def FINISHED : String := "White"

/-- Struct `Vertex`: an ID and a colour. -/
structure Vertex where
  ID : Int
  Color : String
deriving DecidableEq, Repr

/-- Ways a run can leave the normal control flow: a Go runtime panic on a slice index or slice
bound, and exhaustion of the iteration bound of the embedding. -/
inductive Fault where
  | indexOutOfRange
  | outOfFuel
deriving DecidableEq, Repr

/-- Error values returned by the Go functions (`error` interface): the custom `InvalidVertex`,
the `errors.New` value of `FindSourceDest`, and the `errors.New` value with which `readFile`
reports a vertex that maps to nowhere. -/
inductive GoError where
  | InvalidVertex
  | verticesNotInGraph
  | vertexMapsToNowhere
deriving DecidableEq, Repr

deriving instance DecidableEq for Except

/-- Slice read `xs[i]` with a Go `int` index. -/
def index {α : Type} (xs : List α) (i : Int) : Except Fault α :=
  if 0 ≤ i then
    match xs[i.toNat]? with
    | some x => .ok x
    | none => .error .indexOutOfRange
  else .error .indexOutOfRange

/-- Slice write `xs[i] = f xs[i]` with a Go `int` index. -/
def modifyAt {α : Type} (xs : List α) (i : Int) (f : α → α) : Except Fault (List α) :=
  if 0 ≤ i then
    match xs[i.toNat]? with
    | some x => .ok (xs.set i.toNat (f x))
    | none => .error .indexOutOfRange
  else .error .indexOutOfRange

/-- Pointer read `*p` for a pointer into `VertexList`, kept as a position. -/
def deref (VL : List Vertex) (p : Nat) : Except Fault Vertex :=
  match VL[p]? with
  | some v => .ok v
  | none => .error .indexOutOfRange

/-- Assignment `VL[i].Color = c`. -/
def setColor (VL : List Vertex) (i : Int) (c : String) : Except Fault (List Vertex) :=
  modifyAt VL i (fun v => { v with Color := c })

/-- Constant `math.MaxInt32`. -/
def MaxInt32 : Int := 2147483647

/-! ## Graph.go: types -/

/-- Struct `vertexStack`. -/
structure vertexStack where
  stack : List Vertex
deriving DecidableEq, Repr

/-- Struct `Graph`. `AdjList` holds pointers into `VertexList` as positions. -/
structure Graph where
  VertexList : List Vertex
  AdjList : List (List Nat)
  AdjMatrix : List (List Bool)
deriving DecidableEq, Repr

/-- Method `add` of `vertexStack`. -/
def vertexStack.add (s : vertexStack) (element : Vertex) : vertexStack :=
  { stack := s.stack ++ [element] }

/-- Method `pop` of `vertexStack`. -/
def vertexStack.pop (s : vertexStack) : vertexStack :=
  if s.stack.length > 0 then { stack := s.stack.take (s.stack.length - 1) } else s

/-- Method `peek` of `vertexStack`: the zero-value vertex on an empty stack. -/
def vertexStack.peek (s : vertexStack) : Vertex :=
  if s.stack.length > 0 then
    match s.stack[s.stack.length - 1]? with
    | some v => v
    | none => { ID := 0, Color := "" }
  else { ID := 0, Color := "" }

/-- Method `ContainsVertexID`. -/
def ContainsVertexID (VertexList : List Vertex) (id : Int) : Bool :=
  match VertexList with
  | [] => false
  | e :: rest => if e.ID = id then true else ContainsVertexID rest id

/-- Method `ResetColors`: every element of `VertexList` gets the colour `UNVISITED`. -/
def ResetColors (VertexList : List Vertex) : List Vertex :=
  VertexList.map (fun v => { v with Color := UNVISITED })

/-- Bounded iteration of a loop body: the body yields the next state (`Sum.inl`) or the value
the enclosing function leaves with (`Sum.inr`). -/
def iterate {σ ρ : Type} (body : σ → Except Fault (σ ⊕ ρ)) : Nat → σ → Except Fault ρ
  | 0, _ => .error .outOfFuel
  | fuel + 1, s =>
    match body s with
    | .error e => .error e
    | .ok (.inl s') => iterate body fuel s'
    | .ok (.inr r) => .ok r

/-! ## Graph.go: depth-first search -/

/-- Slice expression `path[:len(path)-1]`; it panics on an empty slice. -/
def dropLastElem {α : Type} (xs : List α) : Except Fault (List α) :=
  if xs.length > 0 then .ok (xs.take (xs.length - 1)) else .error .indexOutOfRange

/-- The `for _, e := range g.AdjList[...]` loop of `DepthFirstSearch`: the running value of
`lowestID` after the entries of the adjacency row have been looked at in order. -/
def lowestUnvisited (VL : List Vertex) : List Nat → Int → Except Fault Int
  | [], lowestID => .ok lowestID
  | p :: rest, lowestID => do
    let e ← deref VL p
    if e.ID < lowestID ∧ e.Color = UNVISITED then lowestUnvisited VL rest e.ID
    else lowestUnvisited VL rest lowestID

/-- Local variables of `DepthFirstSearch` that live across iterations of its loop, together
with the vertex list the colours are written to. -/
structure DfsState where
  VL : List Vertex
  stack : vertexStack
  discoveredVertex : List Vertex
  path : List Vertex
deriving DecidableEq, Repr

/-- What `DepthFirstSearch` leaves behind: the vertex list with the colours it wrote, and the
two returned slices. -/
structure DfsResult where
  VL : List Vertex
  discoveredVertex : List Vertex
  path : List Vertex
deriving DecidableEq, Repr

/-- One pass through `for len(stack.stack) > 0 { ... }` of `DepthFirstSearch`, the loop test
included; `Sum.inr` is a `return`. -/
def dfsBody (AdjList : List (List Nat)) (dest : Int) (s : DfsState) :
    Except Fault (DfsState ⊕ DfsResult) :=
  if s.stack.stack.length > 0 then do
    let row ← index AdjList s.stack.peek.ID
    let lowestID ← lowestUnvisited s.VL row MaxInt32
    if lowestID = MaxInt32 then do
      let VL ← setColor s.VL s.stack.peek.ID FINISHED
      let path ← dropLastElem s.path
      .ok (.inl { VL := VL, stack := s.stack.pop,
                  discoveredVertex := s.discoveredVertex, path := path })
    else do
      let VL ← setColor s.VL lowestID VISITED
      let v ← index VL lowestID
      let stack := s.stack.add v
      let discoveredVertex := s.discoveredVertex ++ [v]
      let path := s.path ++ [v]
      let d ← index VL dest
      if v.ID = d.ID then
        .ok (.inr { VL := VL, discoveredVertex := discoveredVertex, path := path })
      else
        .ok (.inl { VL := VL, stack := stack, discoveredVertex := discoveredVertex,
                    path := path })
  else
    .ok (.inr { VL := s.VL, discoveredVertex := s.discoveredVertex, path := [] })

/-- Iteration bound handed to `iterate` for a traversal over `n` vertices. -/
def loopBound (n : Nat) : Nat := 2 * n + 1

/-- Method `DepthFirstSearch`. -/
def DepthFirstSearch (g : Graph) (src dest : Int) : Except Fault DfsResult := do
  let VL ← setColor g.VertexList src VISITED
  let v ← index VL src
  let stack := (vertexStack.mk []).add v
  let discoveredVertex := [v]
  let path := [v]
  if src = dest then
    .ok { VL := VL, discoveredVertex := discoveredVertex, path := path }
  else
    iterate (dfsBody g.AdjList dest) (loopBound VL.length)
      { VL := VL, stack := stack, discoveredVertex := discoveredVertex, path := path }

/-! ## Graph.go: cycle search -/

/-- The `for _, e := range g.AdjList[...]` loop of `CycleSearch`: `none` when an entry coloured
`VISITED` makes the function return true, otherwise the final `lowestID`. -/
def cycleScan (VL : List Vertex) : List Nat → Int → Except Fault (Option Int)
  | [], lowestID => .ok (some lowestID)
  | p :: rest, lowestID => do
    let e ← deref VL p
    if e.Color = VISITED then .ok none
    else if e.ID < lowestID ∧ e.Color = UNVISITED then cycleScan VL rest e.ID
    else cycleScan VL rest lowestID

/-- Local state of `CycleSearch` across iterations: the vertex list and the stack. -/
structure CycleState where
  VL : List Vertex
  stack : vertexStack
deriving DecidableEq, Repr

/-- One pass through the inner `for len(stack.stack) > 0 { ... }` of `CycleSearch`. The loop is
left with the state and a flag: `true` for `return true`, `false` when the test fails. -/
def cycleBody (AdjList : List (List Nat)) (s : CycleState) :
    Except Fault (CycleState ⊕ (CycleState × Bool)) :=
  if s.stack.stack.length > 0 then do
    let row ← index AdjList s.stack.peek.ID
    let scanned ← cycleScan s.VL row MaxInt32
    match scanned with
    | none => .ok (.inr (s, true))
    | some lowestID =>
      if lowestID = MaxInt32 then do
        let VL ← setColor s.VL s.stack.peek.ID FINISHED
        .ok (.inl { VL := VL, stack := s.stack.pop })
      else do
        let VL ← setColor s.VL lowestID VISITED
        let v ← index VL lowestID
        .ok (.inl { VL := VL, stack := s.stack.add v })
  else
    .ok (.inr (s, false))

/-- The `for _, v := range VL` loop of `CycleSearch` over the remaining positions. -/
def cycleRoots (AdjList : List (List Nat)) : List Nat → CycleState →
    Except Fault (List Vertex × Bool)
  | [], s => .ok (s.VL, false)
  | i :: rest, s => do
    let v ← deref s.VL i
    let VL ← setColor (ResetColors s.VL) v.ID VISITED
    let x ← index VL v.ID
    let r ← iterate (cycleBody AdjList) (loopBound VL.length)
      { VL := VL, stack := s.stack.add x }
    if r.2 then .ok (r.1.VL, true) else cycleRoots AdjList rest r.1

/-- Method `CycleSearch`: the vertex list after the call and the returned boolean. -/
def CycleSearch (g : Graph) : Except Fault (List Vertex × Bool) :=
  cycleRoots g.AdjList (List.range g.VertexList.length)
    { VL := g.VertexList, stack := { stack := [] } }

/-! ## Graph.go: transitive closure -/

/-- Matrix read `adj[row][col]`. -/
def matGet (adj : List (List Bool)) (row col : Int) : Except Fault Bool := do
  let r ← index adj row
  index r col

/-- Matrix write `adj[row][col] = b`. -/
def matSet (adj : List (List Bool)) (row col : Int) (b : Bool) :
    Except Fault (List (List Bool)) := do
  let r ← index adj row
  let r' ← modifyAt r col (fun _ => b)
  modifyAt adj row (fun _ => r')

/-- State of `TransitiveClosure` across its loops: the matrix (`adj` and `g.AdjMatrix` are the
same slice) and `newEdges`. -/
structure TcState where
  AdjMatrix : List (List Bool)
  newEdges : List Int
deriving DecidableEq, Repr

/-- Body of the innermost `for col` loop of `TransitiveClosure`. -/
def tcCol (diag row : Nat) (rowVal : Bool) (s : TcState) (col : Nat) : Except Fault TcState := do
  let colVal ← matGet s.AdjMatrix diag col
  if rowVal && colVal then do
    let cur ← matGet s.AdjMatrix row col
    if !cur then do
      let m ← matSet s.AdjMatrix row col true
      .ok { AdjMatrix := m, newEdges := s.newEdges ++ [(row : Int), (col : Int)] }
    else .ok s
  else .ok s

/-- Body of the `for row` loop: `rowVal` is read once, then the `col` loop runs. -/
def tcRow (diag : Nat) (s : TcState) (row : Nat) : Except Fault TcState := do
  let rowVal ← matGet s.AdjMatrix row diag
  (List.range s.AdjMatrix.length).foldlM (tcCol diag row rowVal) s

/-- Body of the outermost `for diag` loop. -/
def tcDiag (s : TcState) (diag : Nat) : Except Fault TcState :=
  (List.range s.AdjMatrix.length).foldlM (tcRow diag) s

/-- The three nested loops of `TransitiveClosure` on a matrix, from an empty `newEdges`. -/
def closureLoops (adj : List (List Bool)) : Except Fault TcState :=
  (List.range adj.length).foldlM tcDiag { AdjMatrix := adj, newEdges := [] }

/-- Method `TransitiveClosure`: the graph after the call and the returned `newEdges`. -/
def TransitiveClosure (g : Graph) : Except Fault (Graph × List Int) := do
  let s ← closureLoops g.AdjMatrix
  .ok ({ g with AdjMatrix := s.AdjMatrix }, s.newEdges)

/-! ## Graph.go: construction -/

/-- Value of a decimal digit. -/
def digitVal (c : Char) : Option Nat :=
  if '0' ≤ c ∧ c ≤ '9' then some (c.toNat - '0'.toNat) else none

/-- Value of a run of decimal digits, most significant first. -/
def parseDigits : List Char → Nat → Option Nat
  | [], acc => some acc
  | c :: cs, acc =>
    match digitVal c with
    | some d => parseDigits cs (10 * acc + d)
    | none => none

/-- Magnitude of a non-empty run of decimal digits. -/
def parseMagnitude (cs : List Char) : Option Nat :=
  if cs = [] then none else parseDigits cs 0

/-- Library function `strconv.Atoi` on a 64-bit platform: an optional sign followed by at least
one decimal digit, the value within the range of `int`; `none` stands for a non-nil error. -/
def Atoi (s : String) : Option Int :=
  match s.data with
  | '-' :: cs =>
    (parseMagnitude cs).bind fun n => if n ≤ 2 ^ 63 then some (-(n : Int)) else none
  | '+' :: cs =>
    (parseMagnitude cs).bind fun n => if n < 2 ^ 63 then some (n : Int) else none
  | cs =>
    (parseMagnitude cs).bind fun n => if n < 2 ^ 63 then some (n : Int) else none

/-- The `for _, element := range result` loop of `SetUpVertices`: the vertex list reached and
the error it stopped with, if any. -/
def addVertices : List String → List Vertex → List Vertex × Option GoError
  | [], VL => (VL, none)
  | element :: rest, VL =>
    match Atoi element with
    | none => (VL, some .InvalidVertex)
    | some val =>
      if !ContainsVertexID VL val then
        addVertices rest (VL ++ [{ ID := val, Color := UNVISITED }])
      else addVertices rest VL

/-- Call `sort.Slice(g.VertexList, less)` with `less` comparing IDs. The library sort is not
stable; on IDs that are pairwise distinct every sorting procedure gives this same result. -/
def sortByID (VL : List Vertex) : List Vertex :=
  VL.insertionSort (fun a b => a.ID ≤ b.ID)

/-- Method `SetUpVertices`: the graph after the call and the returned error. -/
def SetUpVertices (g : Graph) (result : List String) : Graph × Option GoError :=
  match addVertices result g.VertexList with
  | (VL, some e) => ({ g with VertexList := VL }, some e)
  | (VL, none) => ({ g with VertexList := sortByID VL }, none)

/-- Address expression `&g.VertexList[dest]`, as a position. -/
def addressOf (VL : List Vertex) (dest : Int) : Except Fault Nat :=
  if 0 ≤ dest ∧ dest.toNat < VL.length then .ok dest.toNat else .error .indexOutOfRange

/-- The `for i := 0; i < len(result); { ... }` loop of `SetUpAdjacencyList` over the tokens
from position `i` on; a single remaining token is read as a source and the read of its
destination `result[i]` is then out of range. -/
def addPairs (VL : List Vertex) : List String → List (List Nat) →
    Except Fault (List (List Nat) × Option GoError)
  | [], AdjList => .ok (AdjList, none)
  | [a], AdjList =>
    match Atoi a with
    | none => .ok (AdjList, some .InvalidVertex)
    | some _ => .error .indexOutOfRange
  | a :: b :: rest, AdjList =>
    match Atoi a with
    | none => .ok (AdjList, some .InvalidVertex)
    | some src =>
      match Atoi b with
      | none => .ok (AdjList, some .InvalidVertex)
      | some dest => do
        let p ← addressOf VL dest
        let AdjList ← modifyAt AdjList src (fun row => row ++ [p])
        addPairs VL rest AdjList

/-- Method `SetUpAdjacencyList`: the graph after the call and the returned error. -/
def SetUpAdjacencyList (g : Graph) (result : List String) :
    Except Fault (Graph × Option GoError) := do
  let r ← addPairs g.VertexList result (List.replicate g.VertexList.length [])
  .ok ({ g with AdjList := r.1 }, r.2)

/-- The `for col` loop of `SetUpAdjacencyMatrix` over one adjacency row. -/
def markRow (VL : List Vertex) (row : Nat) (ptrs : List Nat) (m : List (List Bool)) :
    Except Fault (List (List Bool)) :=
  ptrs.foldlM (fun m p => do
    let e ← deref VL p
    matSet m row e.ID true) m

/-- Method `SetUpAdjacencyMatrix`. -/
def SetUpAdjacencyMatrix (g : Graph) : Except Fault Graph := do
  let n := g.VertexList.length
  let m ← (List.range g.AdjList.length).foldlM (fun m (row : Nat) => do
    let ptrs ← index g.AdjList row
    markRow g.VertexList row ptrs m) (List.replicate n (List.replicate n false))
  .ok { g with AdjMatrix := m }

/-- The three construction calls at the start of `Run`, each one made only when the one before
returned a nil error. -/
def construct (g : Graph) (result : List String) : Except Fault (Graph × Option GoError) :=
  match SetUpVertices g result with
  | (g1, some e) => .ok (g1, some e)
  | (g1, none) => do
    let r ← SetUpAdjacencyList g1 result
    match r with
    | (g2, some e) => .ok (g2, some e)
    | (g2, none) => do
      let g3 ← SetUpAdjacencyMatrix g2
      .ok (g3, none)

/-- Method `FindSourceDest` once the two numbers have been read from standard input: the check
that both are vertex IDs of the graph. -/
def FindSourceDest (g : Graph) (src dest : Int) : Int × Int × Option GoError :=
  if !ContainsVertexID g.VertexList src || !ContainsVertexID g.VertexList dest then
    (src, dest, some .verticesNotInGraph)
  else (src, dest, none)

/-- Values handed to `PrintGraphStats` at the end of `Run`. -/
structure GraphStats where
  disc : List Vertex
  path : List Vertex
  newEdges : List Int
  cycle : Bool
deriving DecidableEq, Repr

/-- Method `Run`, with the pair of numbers the user types as arguments: the graph after the
call, the returned error, and the values printed when the run got that far. -/
def Run (g : Graph) (result : List String) (src dest : Int) :
    Except Fault (Graph × Option GoError × Option GraphStats) :=
  match SetUpVertices g result with
  | (g1, some e) => .ok (g1, some e, none)
  | (g1, none) => do
    let r ← SetUpAdjacencyList g1 result
    match r with
    | (g2, some e) => .ok (g2, some e, none)
    | (g2, none) => do
      let g3 ← SetUpAdjacencyMatrix g2
      match FindSourceDest g3 src dest with
      | (_, _, some e) => .ok (g3, some e, none)
      | (src, dest, none) => do
        let d ← DepthFirstSearch g3 src dest
        let g4 := { g3 with VertexList := d.VL }
        let t ← TransitiveClosure g4
        let c ← CycleSearch t.1
        .ok ({ t.1 with VertexList := c.1 }, none,
             some { disc := d.discoveredVertex, path := d.path, newEdges := t.2, cycle := c.2 })

/-! ## Driver.go -/

/-- Function `readFile` once the file has been opened and scanned into words: the check that
the number of words is even, so that every source has a destination. The words are returned
together with the error. -/
def readFile (words : List String) : List String × Option GoError :=
  if words.length % 2 ≠ 0 then (words, some .vertexMapsToNowhere) else (words, none)

/-- Function `main` from the scanned words of the input file on, with the pair of numbers the
user types: a non-nil error of `readFile` or of `Run` is printed and ends the process. The
result is the graph as `Run` left it (the new `Graph{}` when `Run` is not called), the error
that ended the process, and the values printed. -/
def main (words : List String) (src dest : Int) :
    Except Fault (Graph × Option GoError × Option GraphStats) :=
  match readFile words with
  | (_, some e) => .ok ({ VertexList := [], AdjList := [], AdjMatrix := [] }, some e, none)
  | (result, none) => Run { VertexList := [], AdjList := [], AdjMatrix := [] } result src dest

/-! ## Graphs the algorithms are meant for -/

/-- A graph is well formed when `VertexList[i].ID == i` for every position, `AdjList` has one
row per vertex, every adjacency entry points at an element of `VertexList`, and there are
fewer than `2^31 - 1` vertices. -/
def WellFormed (g : Graph) : Prop :=
  (∀ i : Nat, i < g.VertexList.length →
    (g.VertexList[i]?).map Vertex.ID = some (i : Int)) ∧
  g.AdjList.length = g.VertexList.length ∧
  (∀ row ∈ g.AdjList, ∀ p ∈ row, p < g.VertexList.length) ∧
  g.VertexList.length < 2 ^ 31 - 1

instance (g : Graph) : Decidable (WellFormed g) := by
  unfold WellFormed; infer_instance

/-- All vertices carry the colour `UNVISITED`. -/
def AllUnvisited (VL : List Vertex) : Prop := ∀ v ∈ VL, v.Color = UNVISITED

instance (VL : List Vertex) : Decidable (AllUnvisited VL) := by
  unfold AllUnvisited; infer_instance

/-- Edge `u -> v` of the adjacency list: row `u` holds a pointer to vertex `v`. -/
def Edge (AdjList : List (List Nat)) (u v : Nat) : Prop :=
  ∃ row, AdjList[u]? = some row ∧ v ∈ row

/-- The adjacency list has a directed cycle: a non-empty edge path from a vertex to itself. -/
def HasCycle (AdjList : List (List Nat)) : Prop :=
  ∃ v, Relation.TransGen (Edge AdjList) v v

/-- Vertex `v` is reachable from `u` by zero or more edges. -/
def Reachable (AdjList : List (List Nat)) (u v : Nat) : Prop :=
  Relation.ReflTransGen (Edge AdjList) u v


/-! ## Notions used to state and to prove the results -/

/-- Colour stored at position `i` of a vertex list (the empty string past its end). -/
def colorAt (VL : List Vertex) (i : Nat) : String :=
  ((VL[i]?).map Vertex.Color).getD ""

/-- Every vertex of the list carries its own position as ID. -/
def IdsOk (VL : List Vertex) : Prop :=
  ∀ (i : Nat) (v : Vertex), VL[i]? = some v → v.ID = (i : Int)

/-- The copy of vertex `k` that the traversals push: its ID and the colour `VISITED`. -/
def grayV (k : Nat) : Vertex := { ID := (k : Int), Color := VISITED }


/-- Number of positions of a vertex list coloured `UNVISITED`. -/
def numUnvisited (VL : List Vertex) : Nat :=
  ((Finset.range VL.length).filter (fun i => colorAt VL i = UNVISITED)).card

/-- What holds between two iterations of the inner loop of `CycleSearch` started at `root`,
with `ks` the IDs on the stack from bottom to top: the stack is an edge path of distinct
vertices starting at `root`, exactly its vertices are coloured `VISITED`, and the vertices
that were left behind (not `UNVISITED`, not on the stack) have all their successors left
behind too. -/
structure CycleInv (AdjList : List (List Nat)) (N root : Nat) (s : CycleState)
    (ks : List Nat) : Prop where
  stack_eq : s.stack = { stack := ks.map grayV }
  len : s.VL.length = N
  ids : IdsOk s.VL
  gray_of_mem : ∀ k ∈ ks, colorAt s.VL k = VISITED
  mem_of_gray : ∀ i, colorAt s.VL i = VISITED → i ∈ ks
  nodup : ks.Nodup
  chain : List.Chain' (Edge AdjList) ks
  bound : ∀ k ∈ ks, k < N
  closed : ∀ w, w ∉ ks → colorAt s.VL w ≠ UNVISITED → ∀ e, Edge AdjList w e →
    e ∉ ks ∧ colorAt s.VL e ≠ UNVISITED
  head : ks ≠ [] → ks.head? = some root
  done : ks = [] → ¬ Relation.TransGen (Edge AdjList) root root

/-- Measure that every iteration of a traversal loop lowers. -/
def loopMeasure (VL : List Vertex) (stack : vertexStack) : Nat :=
  2 * numUnvisited VL + stack.stack.length


/-- What the inner loop of `CycleSearch` started at `root` is left with: a cycle exists when it
makes the function return true; otherwise `root` lies on no cycle and the stack is empty. -/
def CyclePost (AdjList : List (List Nat)) (N root : Nat) (r : CycleState × Bool) : Prop :=
  (r.2 = true → HasCycle AdjList) ∧
  (r.2 = false → ¬ Relation.TransGen (Edge AdjList) root root) ∧
  (r.2 = false → r.1.stack = { stack := [] }) ∧
  r.1.VL.length = N ∧ IdsOk r.1.VL


/-- What holds between two iterations of the loop of `DepthFirstSearch` from `src` towards
`dest` on a graph that was entered with every vertex `UNVISITED`. `ks` are the IDs on the stack
(and in `path`) from bottom to top, `ds` the IDs in `discoveredVertex`. -/
structure DfsInv (AdjList : List (List Nat)) (N src dest : Nat) (s : DfsState)
    (ks ds : List Nat) : Prop where
  stack_eq : s.stack = { stack := ks.map grayV }
  path_eq : s.path = ks.map grayV
  disc_eq : s.discoveredVertex = ds.map grayV
  len : s.VL.length = N
  ids : IdsOk s.VL
  nodup : ks.Nodup
  chain : List.Chain' (Edge AdjList) ks
  closed : ∀ w, w ∉ ks → colorAt s.VL w ≠ UNVISITED → ∀ e, Edge AdjList w e →
    colorAt s.VL e ≠ UNVISITED
  head : ks ≠ [] → ks.head? = some src
  dest_unseen : colorAt s.VL dest = UNVISITED
  disc_head : ds.head? = some src
  disc_nodup : ds.Nodup
  disc_iff : ∀ i, i ∈ ds ↔ (i < N ∧ colorAt s.VL i ≠ UNVISITED)
  disc_reach : ∀ i ∈ ds, Reachable AdjList src i
  sub : ks.Sublist ds

/-- What `DepthFirstSearch` returns with, in terms of the IDs `ks` of the returned path and
`ds` of the returned discovered vertices: either the path is an edge path of distinct vertices
from `src` to `dest`, or it is empty, `dest` is unreachable and `ds` holds every vertex
reachable from `src`. -/
def DfsPost (AdjList : List (List Nat)) (N src dest : Nat) (r : DfsResult) : Prop :=
  ∃ ks ds, r.path = ks.map grayV ∧ r.discoveredVertex = ds.map grayV ∧
    ds.head? = some src ∧ ds.Nodup ∧ (∀ i ∈ ds, Reachable AdjList src i) ∧ ks.Sublist ds ∧
    ((ks.head? = some src ∧ ks.getLast? = some dest ∧ List.Chain' (Edge AdjList) ks ∧
        ks.Nodup) ∨
      (ks = [] ∧ ¬ Reachable AdjList src dest ∧ ∀ i, Reachable AdjList src i → i ∈ ds)) ∧
    r.VL.length = N ∧ IdsOk r.VL

/-- Vertex `b` occurs in the adjacency row of vertex `a`: the row `AdjList[a.ID]` holds a
pointer to a vertex with the ID of `b`. -/
def IsEdge (g : Graph) (a b : Vertex) : Prop :=
  ∃ row, index g.AdjList a.ID = .ok row ∧
    ∃ p ∈ row, (g.VertexList[p]?).map Vertex.ID = some b.ID


/-- The chain `0 -> 1 -> 2`, every vertex `UNVISITED`. -/
def chainGraph : Graph :=
  { VertexList := [⟨0, UNVISITED⟩, ⟨1, UNVISITED⟩, ⟨2, UNVISITED⟩],
    AdjList := [[1], [2], []],
    AdjMatrix := [[false, true, false], [false, false, true], [false, false, false]] }

/-- The triangle `0 -> 1`, `1 -> 2`, `2 -> 0`, every vertex `UNVISITED`. -/
def triangleGraph : Graph :=
  { VertexList := [⟨0, UNVISITED⟩, ⟨1, UNVISITED⟩, ⟨2, UNVISITED⟩],
    AdjList := [[1], [2], [0]],
    AdjMatrix := [[false, true, false], [false, false, true], [true, false, false]] }


/-- The matrix is `N x N`: `N` rows of `N` entries each. -/
def Square (m : List (List Bool)) (N : Nat) : Prop :=
  m.length = N ∧ ∀ row ∈ m, row.length = N

instance (m : List (List Bool)) (N : Nat) : Decidable (Square m N) := by
  unfold Square; infer_instance

/-- Entry of a matrix at a position, false outside of it. -/
def entry (m : List (List Bool)) (r c : Nat) : Bool :=
  ((m[r]?).bind (fun row => row[c]?)).getD false

/-- Edge `a -> b` of the adjacency matrix: the read `adj[a][b]` gives true. -/
def MatEdge (m : List (List Bool)) (a b : Nat) : Prop :=
  matGet m (a : Int) (b : Int) = .ok true

/-- Pairs joined by an edge path whose inner vertices are all below `K`, by recursion on `K`:
a path through inner vertices below `K + 1` avoids `K` or passes through it. -/
def viaBelow (m : List (List Bool)) : Nat → Nat → Nat → Bool
  | 0, i, c => entry m i c
  | K + 1, i, c => viaBelow m K i c || (viaBelow m K i K && viaBelow m K K c)

/-- The outermost loop of `TransitiveClosure` stopped after its first `K` iterations. -/
def closurePrefix (adj : List (List Bool)) (K : Nat) : Except Fault TcState :=
  (List.range K).foldlM tcDiag { AdjMatrix := adj, newEdges := [] }

/-- Entry `p` of the matrix is false before iteration `K` of the outermost loop of
`TransitiveClosure` and true after it. -/
def SetAt (adj : List (List Bool)) (K : Nat) (p : Nat × Nat) : Prop :=
  ∃ s s', closurePrefix adj K = .ok s ∧ closurePrefix adj (K + 1) = .ok s' ∧
    matGet s.AdjMatrix (p.1 : Int) (p.2 : Int) = .ok false ∧
    matGet s'.AdjMatrix (p.1 : Int) (p.2 : Int) = .ok true

/-- Position `(K, row, col)` of the triple loop comes before position `(K', row', col')`. -/
def LoopBefore (K : Nat) (p : Nat × Nat) (K' : Nat) (q : Nat × Nat) : Prop :=
  K < K' ∨ (K = K' ∧ (p.1 < q.1 ∨ (p.1 = q.1 ∧ p.2 < q.2)))

/-- The flat slice `row, col, row, col, ...` for a list of pairs. -/
def flatPairs (ps : List (Nat × Nat)) : List Int :=
  ps.flatMap (fun p => [(p.1 : Int), (p.2 : Int)])


/-- Pairs that iteration `k` of the outermost loop of `TransitiveClosure` turns true on an
`N x N` matrix, in the order of the `row` and `col` loops. -/
def newPairsAt (m : List (List Bool)) (N k : Nat) : List (Nat × Nat) :=
  (List.range N).flatMap (fun row =>
    ((List.range N).filter (fun c =>
      viaBelow m k row k && viaBelow m k k c && !viaBelow m k row c)).map (fun c => (row, c)))

/-- Pairs turned true by the first `K` iterations of the outermost loop, in loop order. -/
def newPairs (m : List (List Bool)) (N K : Nat) : List (Nat × Nat) :=
  (List.range K).flatMap (newPairsAt m N)


/-- The `(source, destination)` pairs of a flat list read two at a time. -/
def pairsOf : List Int → List (Int × Int)
  | a :: b :: rest => (a, b) :: pairsOf rest
  | _ => []

/-- The token sequence has even length, every token parses as an integer (`vals` are the parsed
values in order), and the distinct integers are exactly `0 .. N-1`. -/
def ValidTokens (tokens : List String) (vals : List Int) (N : Nat) : Prop :=
  tokens.length % 2 = 0 ∧ tokens.map Atoi = vals.map some ∧
  (∀ v ∈ vals, 0 ≤ v ∧ v < (N : Int)) ∧ (∀ i : Nat, i < N → (i : Int) ∈ vals)

instance (tokens : List String) (vals : List Int) (N : Nat) :
    Decidable (ValidTokens tokens vals N) := by
  unfold ValidTokens; infer_instance

/-- The vertex list with IDs `0 .. N-1` in order, every vertex `UNVISITED`. -/
def freshVertices (N : Nat) : List Vertex :=
  (List.range N).map (fun (i : Nat) => { ID := (i : Int), Color := UNVISITED })

/-- A `Graph{}` value as the driver creates it. -/
def emptyGraph : Graph := { VertexList := [], AdjList := [], AdjMatrix := [] }

/-- What holds between two iterations of the loop of `DepthFirstSearch` whatever the colours on
entry: the IDs of the vertex list are positions, and `path` holds the same vertices as the
stack, all of them vertices of the graph (`ks` are their IDs from bottom to top). -/
structure DfsShape (N : Nat) (s : DfsState) (ks : List Nat) : Prop where
  stack_eq : s.stack = { stack := ks.map grayV }
  path_eq : s.path = ks.map grayV
  len : s.VL.length = N
  ids : IdsOk s.VL
  bound : ∀ k ∈ ks, k < N

instance (AdjList : List (List Nat)) (u v : Nat) : Decidable (Edge AdjList u v) :=
  decidable_of_iff (∃ row ∈ AdjList[u]?, v ∈ row) (by simp [Edge])

instance (m : List (List Bool)) (a b : Nat) : Decidable (MatEdge m a b) := by
  unfold MatEdge; infer_instance

/-- Matrix and list agree on the edges: for all vertices `u`, `v` the entry `AdjMatrix[u][v]`
is true if and only if row `u` of `AdjList` points at vertex `v`. -/
def Agree (g : Graph) : Prop :=
  ∀ u : Nat, u < g.VertexList.length → ∀ v : Nat, v < g.VertexList.length →
    (MatEdge g.AdjMatrix u v ↔ Edge g.AdjList u v)

instance (g : Graph) : Decidable (Agree g) := by
  unfold Agree; infer_instance

/-! ## Slice reads and writes on vertex lists -/

theorem index_natCast {α : Type} {xs : List α} {k : Nat} {x : α} (h : xs[k]? = some x) :
    index xs (k : Int) = .ok x := by
  simp [index, h]

theorem modifyAt_natCast {α : Type} {xs : List α} {k : Nat} {x : α} (f : α → α)
    (h : xs[k]? = some x) : modifyAt xs (k : Int) f = .ok (xs.set k (f x)) := by
  simp [modifyAt, h]

theorem colorAt_set (VL : List Vertex) (k : Nat) (v : Vertex) (hk : k < VL.length) (i : Nat) :
    colorAt (VL.set k v) i = if i = k then v.Color else colorAt VL i := by
  unfold colorAt
  by_cases h : i = k
  · subst h; simp [List.getElem?_set_self, hk]
  · have h' : k ≠ i := fun e => h e.symm
    simp [List.getElem?_set_ne h', h]

theorem IdsOk_set {VL : List Vertex} (h : IdsOk VL) (k : Nat) (c : String) (x : Vertex)
    (hx : VL[k]? = some x) : IdsOk (VL.set k { x with Color := c }) := by
  intro i v hv
  by_cases e : k = i
  · subst e
    have hk : k < VL.length := by
      rcases List.getElem?_eq_some.1 hx with ⟨hk, _⟩; exact hk
    rw [List.getElem?_set_self hk] at hv
    cases hv
    exact h k x hx
  · rw [List.getElem?_set_ne e] at hv
    exact h i v hv

/-- Writing a colour at a valid position of a vertex list whose IDs are positions. -/
theorem setColor_spec {VL : List Vertex} (hid : IdsOk VL) {k : Nat} (hk : k < VL.length)
    (c : String) :
    ∃ VL', setColor VL (k : Int) c = .ok VL' ∧ VL'.length = VL.length ∧ IdsOk VL' ∧
      ∀ i, colorAt VL' i = if i = k then c else colorAt VL i := by
  have hx : VL[k]? = some VL[k] := List.getElem?_eq_getElem hk
  refine ⟨VL.set k { VL[k] with Color := c }, ?_, by simp, IdsOk_set hid k c _ hx, ?_⟩
  · unfold setColor; rw [modifyAt_natCast _ hx]
  · intro i; rw [colorAt_set _ _ _ hk]

theorem getElem?_spec {VL : List Vertex} (hid : IdsOk VL) {k : Nat} (hk : k < VL.length) :
    VL[k]? = some { ID := (k : Int), Color := colorAt VL k } := by
  have hx : VL[k]? = some VL[k] := List.getElem?_eq_getElem hk
  have := hid k _ hx
  rw [hx]
  congr 1
  cases hv : VL[k] with
  | mk a b =>
    rw [hv] at this hx
    simp at this
    simp [colorAt, hx, this]

theorem index_spec {VL : List Vertex} (hid : IdsOk VL) {k : Nat} (hk : k < VL.length) :
    index VL (k : Int) = .ok { ID := (k : Int), Color := colorAt VL k } :=
  index_natCast (getElem?_spec hid hk)

theorem deref_spec {VL : List Vertex} (hid : IdsOk VL) {k : Nat} (hk : k < VL.length) :
    deref VL k = .ok { ID := (k : Int), Color := colorAt VL k } := by
  unfold deref
  rw [getElem?_spec hid hk]

/-! ## Adjacency scans, bounded iteration and the stack -/

theorem UNVISITED_ne_VISITED : UNVISITED ≠ VISITED := by decide
theorem VISITED_ne_UNVISITED : VISITED ≠ UNVISITED := by decide
theorem FINISHED_ne_UNVISITED : FINISHED ≠ UNVISITED := by decide
theorem FINISHED_ne_VISITED : FINISHED ≠ VISITED := by decide

theorem lowestUnvisited_spec {VL : List Vertex} (hid : IdsOk VL) :
    ∀ (row : List Nat) (init : Int), (∀ p ∈ row, p < VL.length) →
    ∃ x, lowestUnvisited VL row init = .ok x ∧ x ≤ init ∧
      (x = init ∨ ∃ p ∈ row, x = (p : Int) ∧ colorAt VL p = UNVISITED) ∧
      (∀ p ∈ row, colorAt VL p = UNVISITED → x ≤ (p : Int)) := by
  intro row
  induction row with
  | nil => intro init _; exact ⟨init, rfl, le_refl _, Or.inl rfl, by simp⟩
  | cons p rest ih =>
    intro init hrow
    have hp : p < VL.length := hrow p (by simp)
    have hrest : ∀ q ∈ rest, q < VL.length := fun q hq => hrow q (by simp [hq])
    by_cases hc : (p : Int) < init ∧ colorAt VL p = UNVISITED
    · obtain ⟨x, hx, hle, hor, hmin⟩ := ih (p : Int) hrest
      refine ⟨x, ?_, ?_, ?_, ?_⟩
      · simp [lowestUnvisited, deref_spec hid hp, bind, Except.bind, hc, hx]
      · omega
      · rcases hor with h | ⟨q, hq, h1, h2⟩
        · exact Or.inr ⟨p, by simp, h, hc.2⟩
        · exact Or.inr ⟨q, by simp [hq], h1, h2⟩
      · intro q hq hcol
        rcases List.mem_cons.1 hq with h | h
        · subst h; exact hle
        · exact hmin q h hcol
    · obtain ⟨x, hx, hle, hor, hmin⟩ := ih init hrest
      refine ⟨x, ?_, hle, ?_, ?_⟩
      · simp [lowestUnvisited, deref_spec hid hp, bind, Except.bind, hc, hx]
      · rcases hor with h | ⟨q, hq, h1, h2⟩
        · exact Or.inl h
        · exact Or.inr ⟨q, by simp [hq], h1, h2⟩
      · intro q hq hcol
        rcases List.mem_cons.1 hq with h | h
        · subst h
          have : ¬ ((q : Int) < init) := fun h' => hc ⟨h', hcol⟩
          omega
        · exact hmin q h hcol

theorem cycleScan_spec {VL : List Vertex} (hid : IdsOk VL) :
    ∀ (row : List Nat) (init : Int), (∀ p ∈ row, p < VL.length) →
    ∃ r, cycleScan VL row init = .ok r ∧
      (r = none → ∃ p ∈ row, colorAt VL p = VISITED) ∧
      (∀ x, r = some x → (∀ p ∈ row, colorAt VL p ≠ VISITED) ∧ x ≤ init ∧
        (x = init ∨ ∃ p ∈ row, x = (p : Int) ∧ colorAt VL p = UNVISITED) ∧
        (∀ p ∈ row, colorAt VL p = UNVISITED → x ≤ (p : Int))) := by
  intro row
  induction row with
  | nil =>
    intro init _
    refine ⟨some init, rfl, by simp, ?_⟩
    intro x hx; cases hx
    exact ⟨by simp, le_refl _, Or.inl rfl, by simp⟩
  | cons p rest ih =>
    intro init hrow
    have hp : p < VL.length := hrow p (by simp)
    have hrest : ∀ q ∈ rest, q < VL.length := fun q hq => hrow q (by simp [hq])
    by_cases hg : colorAt VL p = VISITED
    · refine ⟨none, ?_, fun _ => ⟨p, by simp, hg⟩, by simp⟩
      simp [cycleScan, deref_spec hid hp, bind, Except.bind, hg]
    by_cases hc : (p : Int) < init ∧ colorAt VL p = UNVISITED
    · obtain ⟨r, hr, hnone, hsome⟩ := ih (p : Int) hrest
      refine ⟨r, ?_, ?_, ?_⟩
      · simp [cycleScan, deref_spec hid hp, bind, Except.bind, hg, hc, hr, UNVISITED_ne_VISITED]
      · intro h; obtain ⟨q, hq, hq'⟩ := hnone h; exact ⟨q, by simp [hq], hq'⟩
      · intro x hx
        obtain ⟨h1, hle, hor, hmin⟩ := hsome x hx
        refine ⟨?_, by omega, ?_, ?_⟩
        · intro q hq
          rcases List.mem_cons.1 hq with h | h
          · subst h; exact hg
          · exact h1 q h
        · rcases hor with h | ⟨q, hq, h1, h2⟩
          · exact Or.inr ⟨p, by simp, h, hc.2⟩
          · exact Or.inr ⟨q, by simp [hq], h1, h2⟩
        · intro q hq hcol
          rcases List.mem_cons.1 hq with h | h
          · subst h; exact hle
          · exact hmin q h hcol
    · obtain ⟨r, hr, hnone, hsome⟩ := ih init hrest
      refine ⟨r, ?_, ?_, ?_⟩
      · simp [cycleScan, deref_spec hid hp, bind, Except.bind, hg, hc, hr, UNVISITED_ne_VISITED]
      · intro h; obtain ⟨q, hq, hq'⟩ := hnone h; exact ⟨q, by simp [hq], hq'⟩
      · intro x hx
        obtain ⟨h1, hle, hor, hmin⟩ := hsome x hx
        refine ⟨?_, hle, ?_, ?_⟩
        · intro q hq
          rcases List.mem_cons.1 hq with h | h
          · subst h; exact hg
          · exact h1 q h
        · rcases hor with h | ⟨q, hq, h1, h2⟩
          · exact Or.inl h
          · exact Or.inr ⟨q, by simp [hq], h1, h2⟩
        · intro q hq hcol
          rcases List.mem_cons.1 hq with h | h
          · subst h
            have : ¬ ((q : Int) < init) := fun h' => hc ⟨h', hcol⟩
            omega
          · exact hmin q h hcol

/-- A loop whose body keeps an invariant and lowers a measure ends within any bound above the
measure, with a value the body left with. -/
theorem iterate_spec {σ ρ : Type} (body : σ → Except Fault (σ ⊕ ρ)) (I : σ → Prop)
    (Q : ρ → Prop) (μ : σ → Nat)
    (hstep : ∀ s, I s → (∃ s', body s = .ok (.inl s') ∧ I s' ∧ μ s' < μ s) ∨
      (∃ r, body s = .ok (.inr r) ∧ Q r)) :
    ∀ (fuel : Nat) (s : σ), I s → μ s < fuel → ∃ r, iterate body fuel s = .ok r ∧ Q r := by
  intro fuel
  induction fuel with
  | zero => intro s _ h; omega
  | succ n ih =>
    intro s hI hμ
    rcases hstep s hI with ⟨s', hb, hI', hlt⟩ | ⟨r, hb, hQ⟩
    · obtain ⟨r, hr, hQ⟩ := ih s' hI' (by omega)
      exact ⟨r, by simp [iterate, hb, hr], hQ⟩
    · exact ⟨r, by simp [iterate, hb], hQ⟩

theorem stack_peek (ks : List Nat) (t : Nat) :
    (vertexStack.mk ((ks ++ [t]).map grayV)).peek = grayV t := by
  simp [vertexStack.peek]

theorem stack_pop (ks : List Nat) (t : Nat) :
    (vertexStack.mk ((ks ++ [t]).map grayV)).pop = vertexStack.mk (ks.map grayV) := by
  simp [vertexStack.pop]

theorem stack_add (ks : List Nat) (t : Nat) :
    (vertexStack.mk (ks.map grayV)).add (grayV t) = vertexStack.mk ((ks ++ [t]).map grayV) := by
  simp [vertexStack.add]

theorem dropLastElem_concat (ks : List Nat) (t : Nat) :
    dropLastElem ((ks ++ [t]).map grayV) = .ok (ks.map grayV) := by
  simp [dropLastElem]

/-! ## Counting unvisited vertices; edge paths -/

theorem numUnvisited_same {VL VL' : List Vertex} {k : Nat} {c : String}
    (hlen : VL'.length = VL.length)
    (hcol : ∀ i, colorAt VL' i = if i = k then c else colorAt VL i)
    (hc : c ≠ UNVISITED) (hk : colorAt VL k ≠ UNVISITED) :
    numUnvisited VL' = numUnvisited VL := by
  unfold numUnvisited
  rw [hlen]
  congr 1
  apply Finset.filter_congr
  intro i _
  rw [hcol i]
  by_cases h : i = k
  · subst h; simp [hc, hk]
  · simp [h]

theorem numUnvisited_drop {VL VL' : List Vertex} {k : Nat} {c : String}
    (hlen : VL'.length = VL.length)
    (hcol : ∀ i, colorAt VL' i = if i = k then c else colorAt VL i)
    (hc : c ≠ UNVISITED) (hk : colorAt VL k = UNVISITED) (hkN : k < VL.length) :
    numUnvisited VL' + 1 = numUnvisited VL := by
  unfold numUnvisited
  rw [hlen]
  have hmem : k ∈ (Finset.range VL.length).filter (fun i => colorAt VL i = UNVISITED) := by
    simp [hkN, hk]
  have heq : (Finset.range VL.length).filter (fun i => colorAt VL' i = UNVISITED) =
      ((Finset.range VL.length).filter (fun i => colorAt VL i = UNVISITED)).erase k := by
    ext i
    simp only [Finset.mem_filter, Finset.mem_range, Finset.mem_erase]
    rw [hcol i]
    by_cases h : i = k
    · subst h; simp [hc]
    · simp [h]
  rw [heq, Finset.card_erase_of_mem hmem]
  have : 0 < ((Finset.range VL.length).filter (fun i => colorAt VL i = UNVISITED)).card :=
    Finset.card_pos.2 ⟨k, hmem⟩
  omega

theorem chain_reach {R : Nat → Nat → Prop} (t : Nat) :
    ∀ (init : List Nat) (p : Nat), List.Chain' R (init ++ [t]) → p ∈ init ++ [t] →
      Relation.ReflTransGen R p t := by
  intro init
  induction init with
  | nil =>
    intro p _ hp
    simp at hp; subst hp; exact Relation.ReflTransGen.refl
  | cons a rest ih =>
    intro p hch hp
    rw [List.cons_append, List.chain'_cons'] at hch
    rcases List.mem_cons.1 hp with h | h
    · subst h
      cases rest with
      | nil =>
        have : R p t := hch.1 t (by simp)
        exact Relation.ReflTransGen.single this
      | cons b rest' =>
        have hb : R p b := hch.1 b (by simp)
        exact Relation.ReflTransGen.head hb (ih b hch.2 (by simp))
    · exact ih p hch.2 h

theorem chain_concat {R : Nat → Nat → Prop} (init : List Nat) (t p : Nat)
    (h : List.Chain' R (init ++ [t])) (hr : R t p) : List.Chain' R ((init ++ [t]) ++ [p]) := by
  rw [List.chain'_append]
  refine ⟨h, by simp, ?_⟩
  intro x hx y hy
  simp at hx hy
  subst hx; subst hy; exact hr

theorem chain_init {R : Nat → Nat → Prop} (init : List Nat) (t : Nat)
    (h : List.Chain' R (init ++ [t])) : List.Chain' R init :=
  (List.chain'_append.1 h).1

/-- The set of vertices left behind is closed under reachability. -/
theorem closed_reach {AdjList : List (List Nat)} {VL : List Vertex} {ks : List Nat}
    (hcl : ∀ w, w ∉ ks → colorAt VL w ≠ UNVISITED → ∀ e, Edge AdjList w e →
      e ∉ ks ∧ colorAt VL e ≠ UNVISITED)
    {w z : Nat} (hw : w ∉ ks ∧ colorAt VL w ≠ UNVISITED)
    (hr : Relation.ReflTransGen (Edge AdjList) w z) :
    z ∉ ks ∧ colorAt VL z ≠ UNVISITED := by
  induction hr with
  | refl => exact hw
  | tail _ hbc ih => exact hcl _ ih.1 ih.2 _ hbc

theorem edge_of_mem {AdjList : List (List Nat)} {t : Nat} {row : List Nat}
    (h : AdjList[t]? = some row) {p : Nat} (hp : p ∈ row) : Edge AdjList t p :=
  ⟨row, h, hp⟩

theorem row_bound {AdjList : List (List Nat)} {N : Nat}
    (hadj : ∀ row ∈ AdjList, ∀ p ∈ row, p < N) {t : Nat} {row : List Nat}
    (h : AdjList[t]? = some row) : ∀ p ∈ row, p < N :=
  hadj row (List.getElem?_mem h)

/-! ## The inner loop of the cycle search -/

theorem cycleBody_step {AdjList : List (List Nat)} {N : Nat}
    (hlen : AdjList.length = N) (hadj : ∀ row ∈ AdjList, ∀ p ∈ row, p < N)
    (hN : (N : Int) < MaxInt32) {root : Nat} {s : CycleState} {ks : List Nat}
    (h : CycleInv AdjList N root s ks) :
    (∃ s', cycleBody AdjList s = .ok (.inl s') ∧ (∃ ks', CycleInv AdjList N root s' ks') ∧
        loopMeasure s'.VL s'.stack < loopMeasure s.VL s.stack) ∨
    (∃ r, cycleBody AdjList s = .ok (.inr r) ∧ CyclePost AdjList N root r) := by
  rcases List.eq_nil_or_concat ks with hnil | ⟨init, t, hks⟩
  · right
    subst hnil
    refine ⟨(s, false), ?_, ?_⟩
    · have := h.stack_eq
      simp [cycleBody, this]
    · exact ⟨by simp, fun _ => h.done rfl, fun _ => by simpa using h.stack_eq, h.len, h.ids⟩
  · rw [List.concat_eq_append] at hks
    subst hks
    have htN : t < N := h.bound t (by simp)
    obtain ⟨row, hrow⟩ : ∃ row, AdjList[t]? = some row := by
      have ht : t < AdjList.length := by rw [hlen]; exact htN
      exact ⟨AdjList[t], List.getElem?_eq_getElem ht⟩
    have hrowb : ∀ p ∈ row, p < N := row_bound hadj hrow
    have hpeek : s.stack.peek = grayV t := by rw [h.stack_eq, stack_peek]
    have hpos : s.stack.stack.length > 0 := by rw [h.stack_eq]; simp
    have hidx : index AdjList s.stack.peek.ID = .ok row := by
      rw [hpeek]; exact index_natCast hrow
    obtain ⟨r, hscan, hnone, hsome⟩ :=
      cycleScan_spec h.ids row MaxInt32 (by rw [h.len]; exact hrowb)
    cases r with
    | none =>
      right
      refine ⟨(s, true), ?_, ?_⟩
      · simp [cycleBody, hpos, hidx, hscan, bind, Except.bind]
      · refine ⟨fun _ => ?_, by simp, by simp, h.len, h.ids⟩
        obtain ⟨p, hp, hgray⟩ := hnone rfl
        have hpk := h.mem_of_gray p hgray
        have hreach := chain_reach t init p h.chain hpk
        exact ⟨p, Relation.TransGen.tail' hreach (edge_of_mem hrow hp)⟩
    | some x =>
      obtain ⟨hng, hle, hor, hmin⟩ := hsome x rfl
      left
      by_cases hx : x = MaxInt32
      · -- no unvisited neighbour: the top is finished and popped
        obtain ⟨VL', hset, hlen', hids', hcol'⟩ :=
          setColor_spec h.ids (k := t) (by rw [h.len]; exact htN) FINISHED
        have hset' : setColor s.VL s.stack.peek.ID FINISHED = .ok VL' := by
          rw [hpeek]; exact hset
        have hnd := h.nodup
        rw [List.nodup_append] at hnd
        have htinit : t ∉ init := fun hm => hnd.2.2 hm (by simp) 
        have hnb : ∀ e ∈ row, e ∉ init ++ [t] ∧ colorAt s.VL e ≠ UNVISITED := by
          intro e he
          refine ⟨fun hm => hng e he (h.gray_of_mem e hm), fun hb => ?_⟩
          have h1 := hmin e he hb
          have h2 := hrowb e he
          rw [hx] at h1
          omega
        refine ⟨{ VL := VL', stack := s.stack.pop }, ?_, ⟨init, ?_⟩, ?_⟩
        · simp [cycleBody, hpos, hidx, hscan, bind, Except.bind, hx, hset']
        · constructor
          · show s.stack.pop = _
            rw [h.stack_eq, stack_pop]
          · show VL'.length = N
            rw [hlen', h.len]
          · exact hids'
          · intro k hk
            show colorAt VL' k = VISITED
            rw [hcol' k]
            have : k ≠ t := fun e => htinit (e ▸ hk)
            simp [this, h.gray_of_mem k (by simp [hk])]
          · intro i hi
            have hi' : colorAt VL' i = VISITED := hi
            rw [hcol' i] at hi'
            by_cases e : i = t
            · simp [e, FINISHED_ne_VISITED] at hi'
            · simp [e] at hi'
              have := h.mem_of_gray i hi'
              simpa [e] using this
          · exact hnd.1
          · exact chain_init init t h.chain
          · intro k hk; exact h.bound k (by simp [hk])
          · intro w hw hwc e he
            have hwc' : colorAt VL' w ≠ UNVISITED := hwc
            show e ∉ init ∧ colorAt VL' e ≠ UNVISITED
            have hcole : colorAt s.VL e ≠ UNVISITED → colorAt VL' e ≠ UNVISITED := by
              intro hh
              rw [hcol' e]
              by_cases e' : e = t
              · simp [e', FINISHED_ne_UNVISITED]
              · simpa [e'] using hh
            by_cases hwt : w = t
            · subst hwt
              obtain ⟨row', hrow', hmem⟩ := he
              rw [hrow] at hrow'
              cases hrow'
              have := hnb e hmem
              exact ⟨fun hm => this.1 (by simp [hm]), hcole this.2⟩
            · have hw' : w ∉ init ++ [t] := by simp [hw, hwt]
              have hwc2 : colorAt s.VL w ≠ UNVISITED := by
                rw [hcol' w] at hwc'; simpa [hwt] using hwc'
              have := h.closed w hw' hwc2 e he
              exact ⟨fun hm => this.1 (by simp [hm]), hcole this.2⟩
          · intro hne
            have := h.head (by simp)
            cases init with
            | nil => exact absurd rfl hne
            | cons a rest => simpa using this
          · intro hinit
            subst hinit
            have hroot := h.head (by simp)
            simp at hroot
            subst hroot
            intro htg
            obtain ⟨b, hb, hreach⟩ := Relation.TransGen.head'_iff.1 htg
            obtain ⟨row', hrow', hmem⟩ := hb
            rw [hrow] at hrow'
            cases hrow'
            have := closed_reach h.closed (hnb b hmem) hreach
            exact this.1 (by simp)
        · show loopMeasure VL' s.stack.pop < loopMeasure s.VL s.stack
          have hgt : colorAt s.VL t ≠ UNVISITED := by
            rw [h.gray_of_mem t (by simp)]; exact VISITED_ne_UNVISITED
          unfold loopMeasure
          rw [numUnvisited_same hlen' hcol' FINISHED_ne_UNVISITED hgt, h.stack_eq, stack_pop]
          simp
      · -- the lowest unvisited neighbour is coloured and pushed
        obtain ⟨p, hp, hxp, hpb⟩ : ∃ p ∈ row, x = (p : Int) ∧ colorAt s.VL p = UNVISITED := by
          rcases hor with h1 | h1
          · exact absurd h1 hx
          · exact h1
        subst hxp
        have hpN : p < N := hrowb p hp
        obtain ⟨VL', hset, hlen', hids', hcol'⟩ :=
          setColor_spec h.ids (k := p) (by rw [h.len]; exact hpN) VISITED
        have hidx' : index VL' (p : Int) = .ok (grayV p) := by
          rw [index_spec hids' (by rw [hlen', h.len]; exact hpN), hcol' p]
          simp [grayV]
        have hpks : p ∉ init ++ [t] := by
          intro hm
          have := h.gray_of_mem p hm
          rw [hpb] at this
          exact UNVISITED_ne_VISITED this
        refine ⟨{ VL := VL', stack := s.stack.add (grayV p) }, ?_, ⟨(init ++ [t]) ++ [p], ?_⟩, ?_⟩
        · simp [cycleBody, hpos, hidx, hscan, bind, Except.bind, hx, hset, hidx']
        · constructor
          · show s.stack.add (grayV p) = _
            rw [h.stack_eq, stack_add]
          · show VL'.length = N
            rw [hlen', h.len]
          · exact hids'
          · intro k hk
            show colorAt VL' k = VISITED
            rw [hcol' k]
            by_cases e : k = p
            · simp [e]
            · have : k ∈ init ++ [t] := by
                rcases List.mem_append.1 hk with h1 | h1
                · exact h1
                · simp at h1; exact absurd h1 e
              simp [e, h.gray_of_mem k this]
          · intro i hi
            have hi' : colorAt VL' i = VISITED := hi
            rw [hcol' i] at hi'
            by_cases e : i = p
            · simp [e]
            · simp [e] at hi'
              have := h.mem_of_gray i hi'
              exact List.mem_append_left _ this
          · rw [List.nodup_append]
            refine ⟨h.nodup, by simp, ?_⟩
            intro a ha hb
            simp at hb
            subst hb
            exact hpks ha
          · exact chain_concat init t p h.chain (edge_of_mem hrow hp)
          · intro k hk
            rcases List.mem_append.1 hk with h1 | h1
            · exact h.bound k h1
            · simp at h1; subst h1; exact hpN
          · intro w hw hwc e he
            have hwc' : colorAt VL' w ≠ UNVISITED := hwc
            show e ∉ (init ++ [t]) ++ [p] ∧ colorAt VL' e ≠ UNVISITED
            have hwp : w ≠ p := fun e' => hw (by simp [e'])
            have hw' : w ∉ init ++ [t] := fun hm => hw (List.mem_append_left _ hm)
            have hwc2 : colorAt s.VL w ≠ UNVISITED := by
              rw [hcol' w] at hwc'; simpa [hwp] using hwc'
            have := h.closed w hw' hwc2 e he
            have hep : e ≠ p := fun e' => this.2 (e' ▸ hpb)
            refine ⟨?_, ?_⟩
            · intro hm
              rcases List.mem_append.1 hm with h1 | h1
              · exact this.1 h1
              · simp at h1; exact hep h1
            · rw [hcol' e]; simpa [hep] using this.2
          · intro _
            have := h.head (by simp)
            cases init with
            | nil => simpa using this
            | cons a rest => simpa using this
          · intro hnil
            simp at hnil
        · show loopMeasure VL' (s.stack.add (grayV p)) < loopMeasure s.VL s.stack
          have := numUnvisited_drop hlen' hcol' VISITED_ne_UNVISITED hpb
            (by rw [h.len]; exact hpN)
          unfold loopMeasure
          rw [h.stack_eq, stack_add]
          simp
          omega

/-! ## The loop over roots of the cycle search -/

theorem ResetColors_length (VL : List Vertex) : (ResetColors VL).length = VL.length := by
  simp [ResetColors]

theorem ResetColors_ids {VL : List Vertex} (h : IdsOk VL) : IdsOk (ResetColors VL) := by
  intro i v hv
  simp [ResetColors] at hv
  obtain ⟨a, ha, rfl⟩ := hv
  exact h i a ha

theorem ResetColors_color (VL : List Vertex) {i : Nat} (hi : i < VL.length) :
    colorAt (ResetColors VL) i = UNVISITED := by
  simp [colorAt, ResetColors, List.getElem?_eq_getElem hi]

theorem colorAt_of_le (VL : List Vertex) {i : Nat} (hi : VL.length ≤ i) : colorAt VL i = "" := by
  simp [colorAt, List.getElem?_eq_none hi]

theorem numUnvisited_le (VL : List Vertex) : numUnvisited VL ≤ VL.length := by
  unfold numUnvisited
  calc _ ≤ (Finset.range VL.length).card := Finset.card_filter_le _ _
    _ = VL.length := Finset.card_range _

theorem WellFormed.idsOk {g : Graph} (h : WellFormed g) : IdsOk g.VertexList := by
  intro i v hv
  have hi : i < g.VertexList.length := (List.getElem?_eq_some.1 hv).1
  have := h.1 i hi
  rw [hv] at this
  simpa using this

theorem WellFormed.lt_max {g : Graph} (h : WellFormed g) :
    (g.VertexList.length : Int) < MaxInt32 := by
  have := h.2.2.2
  unfold MaxInt32
  norm_num at this
  omega

theorem edge_lt {AdjList : List (List Nat)} {u v : Nat} (h : Edge AdjList u v) :
    u < AdjList.length := by
  obtain ⟨row, hrow, _⟩ := h
  exact (List.getElem?_eq_some.1 hrow).1

/-- The state a root is started from satisfies the loop invariant. -/
theorem cycleInv_init {AdjList : List (List Nat)} {N : Nat} (hlen : AdjList.length = N)
    {VL VL1 : List Vertex} (hVL : VL.length = N) (hids1 : IdsOk VL1)
    (hlen1 : VL1.length = VL.length) {i : Nat} (_hi : i < N)
    (hcol : ∀ j, colorAt VL1 j = if j = i then VISITED else colorAt (ResetColors VL) j) :
    CycleInv AdjList N i { VL := VL1, stack := (vertexStack.mk []).add (grayV i) } [i] := by
  have hblack : ∀ w, w ≠ i → colorAt VL1 w ≠ UNVISITED → N ≤ w := by
    intro w hw hc
    by_contra hlt
    rw [hcol w] at hc
    simp [hw] at hc
    exact hc (ResetColors_color VL (by omega))
  constructor
  · simp [vertexStack.add]
  · show VL1.length = N
    rw [hlen1, hVL]
  · exact hids1
  · intro k hk
    simp at hk
    show colorAt VL1 k = VISITED
    rw [hcol k]; simp [hk]
  · intro j hj
    have hj' : colorAt VL1 j = VISITED := hj
    by_contra hne
    simp at hne
    rw [hcol j] at hj'
    simp [hne] at hj'
    by_cases hlt : j < VL.length
    · rw [ResetColors_color VL hlt] at hj'
      exact UNVISITED_ne_VISITED hj'
    · rw [colorAt_of_le _ (by rw [ResetColors_length]; omega)] at hj'
      revert hj'; decide
  · simp
  · simp
  · intro k hk; simp at hk; omega
  · intro w hw hwc e he
    have hw' : w ≠ i := by simpa using hw
    have := hblack w hw' hwc
    have := edge_lt he
    omega
  · intro _; simp
  · intro h; simp at h

theorem cycleRoots_spec {AdjList : List (List Nat)} {N : Nat}
    (hlen : AdjList.length = N) (hadj : ∀ row ∈ AdjList, ∀ p ∈ row, p < N)
    (hN : (N : Int) < MaxInt32) :
    ∀ (roots : List Nat) (s : CycleState), (∀ r ∈ roots, r < N) →
      s.stack = { stack := [] } → s.VL.length = N → IdsOk s.VL →
      ∃ VL' b, cycleRoots AdjList roots s = .ok (VL', b) ∧
        (b = true → HasCycle AdjList) ∧
        (b = false → ∀ r ∈ roots, ¬ Relation.TransGen (Edge AdjList) r r) ∧
        VL'.length = N ∧ IdsOk VL' := by
  intro roots
  induction roots with
  | nil =>
    intro s _ _ hl hi
    exact ⟨s.VL, false, rfl, by simp, by simp, hl, hi⟩
  | cons i rest ih =>
    intro s hroots hst hl hids
    have hiN : i < N := hroots i (by simp)
    have hderef := deref_spec hids (k := i) (by omega)
    obtain ⟨VL1, hset, hlen1, hids1, hcol1⟩ :=
      setColor_spec (ResetColors_ids hids) (k := i)
        (by rw [ResetColors_length]; omega) VISITED
    rw [ResetColors_length] at hlen1
    have hidx : index VL1 (i : Int) = .ok (grayV i) := by
      rw [index_spec hids1 (by omega), hcol1 i]; simp [grayV]
    have hinv := cycleInv_init hlen hl hids1 hlen1 hiN hcol1
    have hμ : loopMeasure VL1 ((vertexStack.mk []).add (grayV i)) < loopBound VL1.length := by
      have h1 : numUnvisited VL1 + 1 = numUnvisited (ResetColors s.VL) :=
        numUnvisited_drop (by rw [ResetColors_length]; exact hlen1) hcol1 VISITED_ne_UNVISITED
          (ResetColors_color _ (by omega)) (by rw [ResetColors_length]; omega)
      have h2 := numUnvisited_le (ResetColors s.VL)
      rw [ResetColors_length] at h2
      unfold loopMeasure loopBound
      simp [vertexStack.add]
      omega
    obtain ⟨r, hr, hpost⟩ := iterate_spec (cycleBody AdjList)
      (fun s => ∃ ks, CycleInv AdjList N i s ks) (CyclePost AdjList N i)
      (fun s => loopMeasure s.VL s.stack)
      (fun s ⟨ks, hks⟩ => cycleBody_step hlen hadj hN hks)
      (loopBound VL1.length) _ ⟨[i], hinv⟩ hμ
    obtain ⟨htrue, hfalse, hstk, hrl, hrids⟩ := hpost
    have hrun : cycleRoots AdjList (i :: rest) s =
        if r.2 then .ok (r.1.VL, true) else cycleRoots AdjList rest r.1 := by
      simp only [cycleRoots, hderef, bind, Except.bind, hset, hidx, hst]
      rw [hr]
    cases hb : r.2 with
    | true =>
      refine ⟨r.1.VL, true, ?_, fun _ => htrue hb, by simp, hrl, hrids⟩
      rw [hrun, hb]; rfl
    | false =>
      obtain ⟨VL', b, hrec, h1, h2, h3, h4⟩ :=
        ih r.1 (fun q hq => hroots q (by simp [hq])) (hstk hb) hrl hrids
      refine ⟨VL', b, ?_, h1, ?_, h3, h4⟩
      · rw [hrun, hb]; simpa using hrec
      · intro hbf q hq
        rcases List.mem_cons.1 hq with e | e
        · subst e; exact hfalse hb
        · exact h2 hbf q e

/-! ## The loop of the depth-first search -/

theorem reach_lt {AdjList : List (List Nat)} {N : Nat}
    (hadj : ∀ row ∈ AdjList, ∀ p ∈ row, p < N) {u v : Nat} (hu : u < N)
    (h : Reachable AdjList u v) : v < N := by
  induction h with
  | refl => exact hu
  | tail _ hbc _ =>
    obtain ⟨row, hrow, hmem⟩ := hbc
    exact row_bound hadj hrow _ hmem

theorem nonblack_reach {AdjList : List (List Nat)} {VL : List Vertex}
    (hcl : ∀ w, colorAt VL w ≠ UNVISITED → ∀ e, Edge AdjList w e → colorAt VL e ≠ UNVISITED)
    {w z : Nat} (hw : colorAt VL w ≠ UNVISITED) (hr : Reachable AdjList w z) :
    colorAt VL z ≠ UNVISITED := by
  induction hr with
  | refl => exact hw
  | tail _ hbc ih => exact hcl _ ih _ hbc

theorem chain_reach_head {R : Nat → Nat → Prop} :
    ∀ (ks : List Nat) (a k : Nat), List.Chain' R (a :: ks) → k ∈ a :: ks →
      Relation.ReflTransGen R a k := by
  intro ks
  induction ks with
  | nil => intro a k _ hk; simp at hk; subst hk; exact Relation.ReflTransGen.refl
  | cons b rest ih =>
    intro a k hch hk
    rw [List.chain'_cons] at hch
    rcases List.mem_cons.1 hk with h | h
    · subst h; exact Relation.ReflTransGen.refl
    · exact Relation.ReflTransGen.head hch.1 (ih b k hch.2 h)

theorem dfsBody_step {AdjList : List (List Nat)} {N : Nat}
    (hlen : AdjList.length = N) (hadj : ∀ row ∈ AdjList, ∀ p ∈ row, p < N)
    (hN : (N : Int) < MaxInt32) {src dest : Nat} (hsrc : src < N) (hdest : dest < N)
    {s : DfsState} {ks ds : List Nat} (h : DfsInv AdjList N src dest s ks ds) :
    (∃ s', dfsBody AdjList (dest : Int) s = .ok (.inl s') ∧
        (∃ ks' ds', DfsInv AdjList N src dest s' ks' ds') ∧
        loopMeasure s'.VL s'.stack < loopMeasure s.VL s.stack) ∨
    (∃ r, dfsBody AdjList (dest : Int) s = .ok (.inr r) ∧ DfsPost AdjList N src dest r) := by
  have hsrcds : src ∈ ds := by
    have := h.disc_head
    cases ds with
    | nil => simp at this
    | cons a rest => simp at this; simp [this]
  rcases List.eq_nil_or_concat ks with hnil | ⟨init, t, hks⟩
  · right
    subst hnil
    refine ⟨{ VL := s.VL, discoveredVertex := s.discoveredVertex, path := [] }, ?_, ?_⟩
    · have := h.stack_eq
      simp [dfsBody, this]
    · have hcl : ∀ w, colorAt s.VL w ≠ UNVISITED → ∀ e, Edge AdjList w e →
          colorAt s.VL e ≠ UNVISITED := fun w hw e he => h.closed w (by simp) hw e he
      have hsrcnb : colorAt s.VL src ≠ UNVISITED := ((h.disc_iff src).1 hsrcds).2
      refine ⟨[], ds, rfl, h.disc_eq, h.disc_head, h.disc_nodup, h.disc_reach,
        List.nil_sublist _, Or.inr ⟨rfl, ?_, ?_⟩, h.len, h.ids⟩
      · intro hr
        exact nonblack_reach hcl hsrcnb hr h.dest_unseen
      · intro i hi
        exact (h.disc_iff i).2 ⟨reach_lt hadj hsrc hi, nonblack_reach hcl hsrcnb hi⟩
  · rw [List.concat_eq_append] at hks
    subst hks
    have hmemds : ∀ k ∈ init ++ [t], k ∈ ds := fun k hk => h.sub.subset hk
    have hbound : ∀ k ∈ init ++ [t], k < N := fun k hk => ((h.disc_iff k).1 (hmemds k hk)).1
    have hnb : ∀ k ∈ init ++ [t], colorAt s.VL k ≠ UNVISITED :=
      fun k hk => ((h.disc_iff k).1 (hmemds k hk)).2
    have htN : t < N := hbound t (by simp)
    obtain ⟨row, hrow⟩ : ∃ row, AdjList[t]? = some row := by
      have ht : t < AdjList.length := by rw [hlen]; exact htN
      exact ⟨AdjList[t], List.getElem?_eq_getElem ht⟩
    have hrowb : ∀ p ∈ row, p < N := row_bound hadj hrow
    have hpeek : s.stack.peek = grayV t := by rw [h.stack_eq, stack_peek]
    have hpos : s.stack.stack.length > 0 := by rw [h.stack_eq]; simp
    have hidx : index AdjList s.stack.peek.ID = .ok row := by
      rw [hpeek]; exact index_natCast hrow
    obtain ⟨x, hscan, hle, hor, hmin⟩ :=
      lowestUnvisited_spec h.ids row MaxInt32 (by rw [h.len]; exact hrowb)
    by_cases hx : x = MaxInt32
    · -- no unvisited neighbour: the top is finished and popped, the path shortened
      left
      obtain ⟨VL', hset, hlen', hids', hcol'⟩ :=
        setColor_spec h.ids (k := t) (by rw [h.len]; exact htN) FINISHED
      have hset' : setColor s.VL s.stack.peek.ID FINISHED = .ok VL' := by
        rw [hpeek]; exact hset
      have hnd := h.nodup
      rw [List.nodup_append] at hnd
      have htinit : t ∉ init := fun hm => hnd.2.2 hm (by simp)
      have hrownb : ∀ e ∈ row, colorAt s.VL e ≠ UNVISITED := by
        intro e he hb
        have h1 := hmin e he hb
        have h2 := hrowb e he
        rw [hx] at h1
        omega
      have hpath : dropLastElem s.path = .ok (init.map grayV) := by
        rw [h.path_eq, dropLastElem_concat]
      have hcolnb : ∀ e, colorAt s.VL e ≠ UNVISITED ↔ colorAt VL' e ≠ UNVISITED := by
        intro e
        rw [hcol' e]
        by_cases e' : e = t
        · subst e'
          simp [FINISHED_ne_UNVISITED, hnb e (by simp)]
        · simp [e']
      have htd : t ≠ dest := by
        intro e
        exact hnb t (by simp) (e ▸ h.dest_unseen)
      refine ⟨{ VL := VL', stack := s.stack.pop, discoveredVertex := s.discoveredVertex,
                path := init.map grayV }, ?_, ⟨init, ds, ?_⟩, ?_⟩
      · simp [dfsBody, hpos, hidx, hscan, bind, Except.bind, hx, hset', hpath]
      · constructor
        · show s.stack.pop = _
          rw [h.stack_eq, stack_pop]
        · rfl
        · exact h.disc_eq
        · show VL'.length = N
          rw [hlen', h.len]
        · exact hids'
        · exact hnd.1
        · exact chain_init init t h.chain
        · intro w hw hwc e he
          show colorAt VL' e ≠ UNVISITED
          have hwc' : colorAt VL' w ≠ UNVISITED := hwc
          rw [← hcolnb]
          by_cases hwt : w = t
          · subst hwt
            obtain ⟨row', hrow', hmem⟩ := he
            rw [hrow] at hrow'
            cases hrow'
            exact hrownb e hmem
          · exact h.closed w (by simp [hw, hwt]) ((hcolnb w).2 hwc') e he
        · intro hne
          have := h.head (by simp)
          cases init with
          | nil => exact absurd rfl hne
          | cons a rest => simpa using this
        · show colorAt VL' dest = UNVISITED
          rw [hcol' dest]
          have : dest ≠ t := fun e => htd e.symm
          simp [this, h.dest_unseen]
        · exact h.disc_head
        · exact h.disc_nodup
        · intro i
          show i ∈ ds ↔ i < N ∧ colorAt VL' i ≠ UNVISITED
          rw [← hcolnb]
          exact h.disc_iff i
        · exact h.disc_reach
        · exact (List.sublist_append_left init [t]).trans h.sub
      · show loopMeasure VL' s.stack.pop < loopMeasure s.VL s.stack
        unfold loopMeasure
        rw [numUnvisited_same hlen' hcol' FINISHED_ne_UNVISITED (hnb t (by simp)),
          h.stack_eq, stack_pop]
        simp
    · -- the lowest unvisited neighbour is coloured, pushed and appended
      obtain ⟨p, hp, hxp, hpb⟩ : ∃ p ∈ row, x = (p : Int) ∧ colorAt s.VL p = UNVISITED := by
        rcases hor with h1 | h1
        · exact absurd h1 hx
        · exact h1
      subst hxp
      have hpN : p < N := hrowb p hp
      obtain ⟨VL', hset, hlen', hids', hcol'⟩ :=
        setColor_spec h.ids (k := p) (by rw [h.len]; exact hpN) VISITED
      have hidx' : index VL' (p : Int) = .ok (grayV p) := by
        rw [index_spec hids' (by rw [hlen', h.len]; exact hpN), hcol' p]
        simp [grayV]
      have hidxd : index VL' (dest : Int) =
          .ok { ID := (dest : Int), Color := colorAt VL' dest } :=
        index_spec hids' (by rw [hlen', h.len]; exact hdest)
      have hpds : p ∉ ds := fun hm => ((h.disc_iff p).1 hm).2 hpb
      have hpks : p ∉ init ++ [t] := fun hm => hpds (hmemds p hm)
      have hcolnb : ∀ e, colorAt s.VL e ≠ UNVISITED → colorAt VL' e ≠ UNVISITED := by
        intro e he
        rw [hcol' e]
        by_cases e' : e = p
        · simp [e', VISITED_ne_UNVISITED]
        · simpa [e'] using he
      have hnd' : ((init ++ [t]) ++ [p]).Nodup := by
        rw [List.nodup_append]
        refine ⟨h.nodup, by simp, ?_⟩
        intro a ha hb
        simp at hb
        subst hb
        exact hpks ha
      have hdnd' : (ds ++ [p]).Nodup := by
        rw [List.nodup_append]
        refine ⟨h.disc_nodup, by simp, ?_⟩
        intro a ha hb
        simp at hb
        subst hb
        exact hpds ha
      have hchain' := chain_concat init t p h.chain (edge_of_mem hrow hp)
      have hhead' : ((init ++ [t]) ++ [p]).head? = some src := by
        have := h.head (by simp)
        cases init with
        | nil => simpa using this
        | cons a rest => simpa using this
      have hdhead' : (ds ++ [p]).head? = some src := by
        have := h.disc_head
        cases ds with
        | nil => simp at this
        | cons a rest => simpa using this
      have hreach' : ∀ i ∈ ds ++ [p], Reachable AdjList src i := by
        intro i hi
        rcases List.mem_append.1 hi with h1 | h1
        · exact h.disc_reach i h1
        · simp at h1; subst h1
          exact Relation.ReflTransGen.tail (h.disc_reach t (hmemds t (by simp)))
            (edge_of_mem hrow hp)
      have hsub' : ((init ++ [t]) ++ [p]).Sublist (ds ++ [p]) :=
        List.Sublist.append h.sub (List.Sublist.refl _)
      by_cases hpd : p = dest
      · right
        subst hpd
        refine ⟨{ VL := VL', discoveredVertex := s.discoveredVertex ++ [grayV p],
                  path := s.path ++ [grayV p] }, ?_, ?_⟩
        · simp [dfsBody, hpos, hidx, hscan, bind, Except.bind, hx, hset, hidx', grayV]
        · refine ⟨(init ++ [t]) ++ [p], ds ++ [p], ?_, ?_, hdhead', hdnd', hreach', hsub',
            Or.inl ⟨hhead', ?_, hchain', hnd'⟩, ?_, hids'⟩
          · show s.path ++ [grayV p] = _
            rw [h.path_eq]; simp
          · show s.discoveredVertex ++ [grayV p] = _
            rw [h.disc_eq]; simp
          · simp
          · show VL'.length = N
            rw [hlen', h.len]
      · left
        refine ⟨{ VL := VL', stack := s.stack.add (grayV p),
                  discoveredVertex := s.discoveredVertex ++ [grayV p],
                  path := s.path ++ [grayV p] }, ?_,
          ⟨(init ++ [t]) ++ [p], ds ++ [p], ?_⟩, ?_⟩
        · have hne : ¬ ((p : Int) = (dest : Int)) := by omega
          simp [dfsBody, hpos, hidx, hscan, bind, Except.bind, hx, hset, hidx', hidxd, grayV,
            hne]
        · constructor
          · show s.stack.add (grayV p) = _
            rw [h.stack_eq, stack_add]
          · show s.path ++ [grayV p] = _
            rw [h.path_eq]; simp
          · show s.discoveredVertex ++ [grayV p] = _
            rw [h.disc_eq]; simp
          · show VL'.length = N
            rw [hlen', h.len]
          · exact hids'
          · exact hnd'
          · exact hchain'
          · intro w hw hwc e he
            have hwc' : colorAt VL' w ≠ UNVISITED := hwc
            show colorAt VL' e ≠ UNVISITED
            have hwp : w ≠ p := fun e' => hw (by simp [e'])
            have hw' : w ∉ init ++ [t] := fun hm => hw (List.mem_append_left _ hm)
            have hwc2 : colorAt s.VL w ≠ UNVISITED := by
              rw [hcol' w] at hwc'; simpa [hwp] using hwc'
            exact hcolnb e (h.closed w hw' hwc2 e he)
          · intro _; exact hhead'
          · show colorAt VL' dest = UNVISITED
            rw [hcol' dest]
            have : dest ≠ p := fun e => hpd e.symm
            simp [this, h.dest_unseen]
          · exact hdhead'
          · exact hdnd'
          · intro i
            show i ∈ ds ++ [p] ↔ i < N ∧ colorAt VL' i ≠ UNVISITED
            rw [List.mem_append, h.disc_iff i, hcol' i]
            by_cases e : i = p
            · subst e; simp [hpN, VISITED_ne_UNVISITED]
            · simp [e]
          · exact hreach'
          · exact hsub'
        · show loopMeasure VL' (s.stack.add (grayV p)) < loopMeasure s.VL s.stack
          have := numUnvisited_drop hlen' hcol' VISITED_ne_UNVISITED hpb
            (by rw [h.len]; exact hpN)
          unfold loopMeasure
          rw [h.stack_eq, stack_add]
          simp
          omega

theorem AllUnvisited.color {VL : List Vertex} (h : AllUnvisited VL) {i : Nat}
    (hi : i < VL.length) : colorAt VL i = UNVISITED := by
  have hx : VL[i]? = some VL[i] := List.getElem?_eq_getElem hi
  have := h VL[i] (List.getElem?_mem hx)
  simp [colorAt, hx, this]

/-- The state the loop of `DepthFirstSearch` is entered with satisfies the loop invariant. -/
theorem dfsInv_init {AdjList : List (List Nat)} {N : Nat} (hlen : AdjList.length = N)
    {VL VL1 : List Vertex} (hVL : VL.length = N) (hun : AllUnvisited VL) (hids1 : IdsOk VL1)
    (hlen1 : VL1.length = VL.length) {src dest : Nat} (hsrc : src < N) (hdest : dest < N)
    (hne : src ≠ dest)
    (hcol : ∀ j, colorAt VL1 j = if j = src then VISITED else colorAt VL j) :
    DfsInv AdjList N src dest
      { VL := VL1, stack := (vertexStack.mk []).add (grayV src),
        discoveredVertex := [grayV src], path := [grayV src] } [src] [src] := by
  have hblack : ∀ w, w ≠ src → colorAt VL1 w ≠ UNVISITED → N ≤ w := by
    intro w hw hc
    by_contra hlt
    rw [hcol w] at hc
    simp [hw] at hc
    exact hc (hun.color (by omega))
  constructor
  · simp [vertexStack.add]
  · rfl
  · rfl
  · show VL1.length = N
    rw [hlen1, hVL]
  · exact hids1
  · simp
  · simp
  · intro w hw hwc e he
    have hw' : w ≠ src := by simpa using hw
    have h1 := hblack w hw' hwc
    have h2 := edge_lt he
    omega
  · intro _; simp
  · show colorAt VL1 dest = UNVISITED
    rw [hcol dest]
    have : dest ≠ src := fun e => hne e.symm
    simp [this, hun.color (by omega : dest < VL.length)]
  · simp
  · simp
  · intro i
    show i ∈ [src] ↔ i < N ∧ colorAt VL1 i ≠ UNVISITED
    rw [hcol i]
    by_cases e : i = src
    · subst e; simp [hsrc, VISITED_ne_UNVISITED]
    · simp only [List.mem_singleton, e, if_false, false_iff, not_and, not_not]
      intro hi
      exact hun.color (by omega)
  · intro i hi
    simp at hi; subst hi
    exact Relation.ReflTransGen.refl
  · exact List.Sublist.refl _

/-- On a well-formed graph entered with every vertex `UNVISITED`, `DepthFirstSearch` between
two vertex IDs returns, and what it returns satisfies `DfsPost`. -/
theorem DepthFirstSearch_spec (g : Graph) (hwf : WellFormed g)
    (hun : AllUnvisited g.VertexList) (src dest : Nat)
    (hsrc : src < g.VertexList.length) (hdest : dest < g.VertexList.length) :
    ∃ r, DepthFirstSearch g (src : Int) (dest : Int) = .ok r ∧
      DfsPost g.AdjList g.VertexList.length src dest r := by
  obtain ⟨VL1, hset, hlen1, hids1, hcol1⟩ := setColor_spec hwf.idsOk hsrc VISITED
  have hidx : index VL1 (src : Int) = .ok (grayV src) := by
    rw [index_spec hids1 (by omega), hcol1 src]; simp [grayV]
  by_cases hsd : src = dest
  · subst hsd
    refine ⟨{ VL := VL1, discoveredVertex := [grayV src], path := [grayV src] }, ?_, ?_⟩
    · simp [DepthFirstSearch, hset, hidx, bind, Except.bind]
    · exact ⟨[src], [src], rfl, rfl, rfl, by simp,
        fun i hi => by simp at hi; subst hi; exact Relation.ReflTransGen.refl,
        List.Sublist.refl _, Or.inl ⟨rfl, rfl, by simp, by simp⟩, hlen1, hids1⟩
  · have hinv := dfsInv_init hwf.2.1 rfl hun hids1 hlen1 hsrc hdest
      hsd hcol1
    have hμ : loopMeasure VL1 ((vertexStack.mk []).add (grayV src)) < loopBound VL1.length := by
      have h1 : numUnvisited VL1 + 1 = numUnvisited g.VertexList :=
        numUnvisited_drop hlen1 hcol1 VISITED_ne_UNVISITED (hun.color hsrc) hsrc
      have h2 := numUnvisited_le g.VertexList
      unfold loopMeasure loopBound
      simp [vertexStack.add]
      omega
    obtain ⟨r, hr, hpost⟩ := iterate_spec (dfsBody g.AdjList (dest : Int))
      (fun s => ∃ ks ds, DfsInv g.AdjList g.VertexList.length src dest s ks ds)
      (DfsPost g.AdjList g.VertexList.length src dest)
      (fun s => loopMeasure s.VL s.stack)
      (fun s ⟨ks, ds, hks⟩ =>
        dfsBody_step hwf.2.1 hwf.2.2.1 hwf.lt_max hsrc hdest hks)
      (loopBound VL1.length) _ ⟨[src], [src], hinv⟩ hμ
    refine ⟨r, ?_, hpost⟩
    have hne : ¬ ((src : Int) = (dest : Int)) := by omega
    simp only [DepthFirstSearch, hset, hidx, bind, Except.bind, hne, if_false]
    exact hr

theorem getLast?_mem_of {ks : List Nat} {d : Nat} (h : ks.getLast? = some d) : d ∈ ks := by
  exact List.mem_of_getLast?_eq_some h

/-- A returned path that is not empty witnesses reachability. -/
theorem DfsPost.reachable_of_path {AdjList : List (List Nat)} {N src dest : Nat}
    {r : DfsResult} (h : DfsPost AdjList N src dest r) (hp : r.path ≠ []) :
    Reachable AdjList src dest := by
  obtain ⟨ks, ds, hpath, _, _, _, _, _, hcase, _, _⟩ := h
  rcases hcase with ⟨hh, hl, hch, _⟩ | ⟨hnil, _, _⟩
  · cases ks with
    | nil => simp at hh
    | cons a rest =>
      simp at hh; subst hh
      exact chain_reach_head rest a dest hch (getLast?_mem_of hl)
  · subst hnil; simp at hpath; exact absurd hpath hp

/-! ## Cycle search and depth-first search: results -/

/-- C1: on a well-formed graph, whatever the colours of the vertices on entry, `CycleSearch`
returns, and the boolean it returns is true if and only if the adjacency list contains a
directed cycle (a non-empty edge path from a vertex back to itself, self-loops included). -/
theorem CycleSearch_true_iff_hasCycle (g : Graph) (hwf : WellFormed g) :
    ∃ VL b, CycleSearch g = .ok (VL, b) ∧ (b = true ↔ HasCycle g.AdjList) := by
  obtain ⟨VL', b, hrun, htrue, hfalse, _, _⟩ :=
    cycleRoots_spec hwf.2.1 hwf.2.2.1 hwf.lt_max (List.range g.VertexList.length)
      { VL := g.VertexList, stack := { stack := [] } }
      (fun r hr => List.mem_range.1 hr) rfl rfl hwf.idsOk
  refine ⟨VL', b, hrun, htrue, ?_⟩
  rintro ⟨v, hv⟩
  cases b with
  | true => rfl
  | false =>
    exfalso
    obtain ⟨w, hw, _⟩ := Relation.TransGen.head'_iff.1 hv
    have hlt : v < g.VertexList.length := by
      have := edge_lt hw
      rw [hwf.2.1] at this
      exact this
    exact hfalse rfl v (List.mem_range.2 hlt) hv

/-- Instance of C1 on the triangle `0 -> 1`, `1 -> 2`, `2 -> 0`. -/
theorem CycleSearch_true_iff_hasCycle_witness :
    WellFormed triangleGraph ∧
    ∃ VL b, CycleSearch triangleGraph = .ok (VL, b) ∧
      (b = true ↔ HasCycle triangleGraph.AdjList) :=
  ⟨by decide, CycleSearch_true_iff_hasCycle triangleGraph (by decide)⟩

/-- The two examples of the cycle search: false on the chain, true on the triangle. -/
theorem CycleSearch_examples :
    (CycleSearch chainGraph).map Prod.snd = .ok false ∧
    (CycleSearch triangleGraph).map Prod.snd = .ok true := by
  decide

/-- C2: on a well-formed graph entered with every vertex `UNVISITED`, and for vertex IDs `src`
and `dest` of the graph, `DepthFirstSearch` returns; the returned path is non-empty if and only
if `dest` is reachable from `src` by zero or more adjacency-list edges; and when `dest` is not
reachable the discovered sequence is non-empty and the path is empty. -/
theorem DepthFirstSearch_path_iff_reachable (g : Graph) (hwf : WellFormed g)
    (hun : AllUnvisited g.VertexList) (src dest : Nat)
    (hsrc : src < g.VertexList.length) (hdest : dest < g.VertexList.length) :
    ∃ r, DepthFirstSearch g (src : Int) (dest : Int) = .ok r ∧
      (r.path ≠ [] ↔ Reachable g.AdjList src dest) ∧
      (¬ Reachable g.AdjList src dest → r.discoveredVertex ≠ [] ∧ r.path = []) := by
  obtain ⟨r, hrun, hpost⟩ := DepthFirstSearch_spec g hwf hun src dest hsrc hdest
  refine ⟨r, hrun, ⟨hpost.reachable_of_path, ?_⟩, ?_⟩
  · intro hreach
    obtain ⟨ks, ds, hpath, _, _, _, _, _, hcase, _, _⟩ := hpost
    rcases hcase with ⟨hh, _, _, _⟩ | ⟨_, hnr, _⟩
    · rw [hpath]
      cases ks with
      | nil => simp at hh
      | cons a rest => simp
    · exact absurd hreach hnr
  · intro hnr
    have hp : r.path = [] := by
      by_contra hne
      exact hnr (hpost.reachable_of_path hne)
    refine ⟨?_, hp⟩
    obtain ⟨ks, ds, _, hdisc, hdh, _, _, _, _, _, _⟩ := hpost
    rw [hdisc]
    cases ds with
    | nil => simp at hdh
    | cons a rest => simp

/-- Instance of C2 on the chain `0 -> 1 -> 2`, searching from vertex 1 for vertex 0. -/
theorem DepthFirstSearch_path_iff_reachable_witness :
    WellFormed chainGraph ∧ AllUnvisited chainGraph.VertexList ∧
    ∃ r, DepthFirstSearch chainGraph ((1 : Nat) : Int) ((0 : Nat) : Int) = .ok r ∧
      (r.path ≠ [] ↔ Reachable chainGraph.AdjList 1 0) ∧
      (¬ Reachable chainGraph.AdjList 1 0 → r.discoveredVertex ≠ [] ∧ r.path = []) :=
  ⟨by decide, by decide,
    DepthFirstSearch_path_iff_reachable chainGraph (by decide) (by decide) 1 0
      (by decide) (by decide)⟩

/-- C3: on a well-formed graph entered with every vertex `UNVISITED`, and for vertex IDs `src`
and `dest` of the graph, whenever `DepthFirstSearch` returns a non-empty path, the first vertex
of the path has ID `src`, the last has ID `dest`, each vertex of the path occurs in the
adjacency row of the one before it, and no vertex ID occurs twice. -/
theorem DepthFirstSearch_path_valid (g : Graph) (hwf : WellFormed g)
    (hun : AllUnvisited g.VertexList) (src dest : Nat)
    (hsrc : src < g.VertexList.length) (hdest : dest < g.VertexList.length) :
    ∃ r, DepthFirstSearch g (src : Int) (dest : Int) = .ok r ∧
      (r.path ≠ [] →
        r.path.head?.map Vertex.ID = some (src : Int) ∧
        r.path.getLast?.map Vertex.ID = some (dest : Int) ∧
        List.Chain' (IsEdge g) r.path ∧
        (r.path.map Vertex.ID).Nodup) := by
  obtain ⟨r, hrun, hpost⟩ := DepthFirstSearch_spec g hwf hun src dest hsrc hdest
  refine ⟨r, hrun, ?_⟩
  intro hne
  obtain ⟨ks, ds, hpath, _, _, _, _, _, hcase, _, _⟩ := hpost
  rcases hcase with ⟨hh, hl, hch, hnd⟩ | ⟨hnil, _, _⟩
  · rw [hpath]
    refine ⟨?_, ?_, ?_, ?_⟩
    · simp [List.head?_map, hh, grayV]
    · simp [List.getLast?_map, hl, grayV]
    · rw [List.chain'_map]
      refine List.Chain'.imp ?_ hch
      intro a b hab
      obtain ⟨row, hrow, hmem⟩ := hab
      refine ⟨row, index_natCast hrow, b, hmem, ?_⟩
      exact hwf.1 b (row_bound hwf.2.2.1 hrow b hmem)
    · rw [List.map_map]
      exact hnd.map (fun a b hab => by simpa [grayV] using hab)
  · subst hnil; simp at hpath; exact absurd hpath hne

/-- Instance of C3 on the triangle, searching from vertex 0 for vertex 2. -/
theorem DepthFirstSearch_path_valid_witness :
    WellFormed triangleGraph ∧ AllUnvisited triangleGraph.VertexList ∧
    ∃ r, DepthFirstSearch triangleGraph ((0 : Nat) : Int) ((2 : Nat) : Int) = .ok r ∧
      (r.path ≠ [] →
        r.path.head?.map Vertex.ID = some ((0 : Nat) : Int) ∧
        r.path.getLast?.map Vertex.ID = some ((2 : Nat) : Int) ∧
        List.Chain' (IsEdge triangleGraph) r.path ∧
        (r.path.map Vertex.ID).Nodup) :=
  ⟨by decide, by decide,
    DepthFirstSearch_path_valid triangleGraph (by decide) (by decide) 0 2
      (by decide) (by decide)⟩

/-! ## Matrix reads and writes -/

theorem Square.row {m : List (List Bool)} {N : Nat} (h : Square m N) {r : Nat} (hr : r < N) :
    ∃ row, m[r]? = some row ∧ row.length = N := by
  have hr' : r < m.length := by rw [h.1]; exact hr
  exact ⟨m[r], List.getElem?_eq_getElem hr', h.2 _ (List.getElem_mem hr')⟩

theorem entry_eq {m : List (List Bool)} {r c : Nat} {row : List Bool} {b : Bool}
    (hrow : m[r]? = some row) (hb : row[c]? = some b) : entry m r c = b := by
  simp [entry, hrow, hb]

theorem matGet_spec {m : List (List Bool)} {N : Nat} (h : Square m N) {r c : Nat}
    (hr : r < N) (hc : c < N) : matGet m (r : Int) (c : Int) = .ok (entry m r c) := by
  obtain ⟨row, hrow, hlen⟩ := h.row hr
  have hc' : c < row.length := by rw [hlen]; exact hc
  have hb : row[c]? = some row[c] := List.getElem?_eq_getElem hc'
  simp [matGet, index_natCast hrow, index_natCast hb, bind, Except.bind, entry_eq hrow hb]

theorem entry_of_row_ge {m : List (List Bool)} {N : Nat} (h : Square m N) {r c : Nat}
    (hr : N ≤ r) : entry m r c = false := by
  have : m[r]? = none := List.getElem?_eq_none (by rw [h.1]; exact hr)
  simp [entry, this]

theorem entry_of_col_ge {m : List (List Bool)} {N : Nat} (h : Square m N) {r c : Nat}
    (hc : N ≤ c) : entry m r c = false := by
  unfold entry
  cases hrow : m[r]? with
  | none => simp
  | some row =>
    have hlen : row.length = N := h.2 row (List.getElem?_mem hrow)
    have : row[c]? = none := List.getElem?_eq_none (by rw [hlen]; exact hc)
    simp [this]

theorem matSet_spec {m : List (List Bool)} {N : Nat} (h : Square m N) {r c : Nat}
    (hr : r < N) (hc : c < N) (b : Bool) :
    ∃ m', matSet m (r : Int) (c : Int) b = .ok m' ∧ Square m' N ∧
      ∀ i j, entry m' i j = if i = r ∧ j = c then b else entry m i j := by
  obtain ⟨row, hrow, hlen⟩ := h.row hr
  have hc' : c < row.length := by rw [hlen]; exact hc
  have hr' : r < m.length := by rw [h.1]; exact hr
  have hb : row[c]? = some row[c] := List.getElem?_eq_getElem hc'
  refine ⟨m.set r (row.set c b), ?_, ⟨by simp [h.1], ?_⟩, ?_⟩
  · simp [matSet, index_natCast hrow, modifyAt_natCast _ hb, modifyAt_natCast _ hrow, bind,
      Except.bind]
  · intro x hx
    rcases List.mem_or_eq_of_mem_set hx with h1 | h1
    · exact h.2 x h1
    · subst h1; simp [hlen]
  · intro i j
    unfold entry
    by_cases hi : i = r
    · subst hi
      rw [List.getElem?_set_self hr']
      by_cases hj : j = c
      · subst hj
        simp [List.getElem?_set_self hc']
      · have hj' : c ≠ j := fun e => hj e.symm
        simp [List.getElem?_set_ne hj', hj, hrow]
    · have hi' : r ≠ i := fun e => hi e.symm
      simp [List.getElem?_set_ne hi', hi]

theorem square_ext {a b : List (List Bool)} {N : Nat} (ha : Square a N) (hb : Square b N)
    (h : ∀ i j, i < N → j < N → entry a i j = entry b i j) : a = b := by
  apply List.ext_getElem (by rw [ha.1, hb.1])
  intro i h1 h2
  have hiN : i < N := by rw [← ha.1]; exact h1
  have hla : (a[i]).length = N := ha.2 _ (List.getElem_mem h1)
  have hlb : (b[i]).length = N := hb.2 _ (List.getElem_mem h2)
  apply List.ext_getElem (by rw [hla, hlb])
  intro j h3 h4
  have hjN : j < N := by rw [← hla]; exact h3
  have := h i j hiN hjN
  simpa [entry, List.getElem?_eq_getElem h1, List.getElem?_eq_getElem h2,
    List.getElem?_eq_getElem h3, List.getElem?_eq_getElem h4] using this

/-! ## The loops of the transitive closure -/

theorem flatPairs_append (a b : List (Nat × Nat)) :
    flatPairs (a ++ b) = flatPairs a ++ flatPairs b := by
  simp [flatPairs, List.flatMap_append]

theorem foldlM_range_succ {σ : Type} (f : σ → Nat → Except Fault σ) (s : σ) (j : Nat) :
    (List.range (j + 1)).foldlM f s = ((List.range j).foldlM f s >>= fun s' => f s' j) := by
  rw [List.range_succ, List.foldlM_append]
  simp

/-- The `col` loop of `TransitiveClosure` for one `diag` and `row`, after `j` columns. -/
theorem tcCol_loop {N diag row : Nat} (hd : diag < N) (hr : row < N) (s : TcState)
    (hs : Square s.AdjMatrix N) (rowVal : Bool) :
    ∀ j, j ≤ N → ∃ s', (List.range j).foldlM (tcCol diag row rowVal) s = .ok s' ∧
      Square s'.AdjMatrix N ∧
      (∀ i c, entry s'.AdjMatrix i c = true ↔ (entry s.AdjMatrix i c = true ∨
        (i = row ∧ c < j ∧ rowVal = true ∧ entry s.AdjMatrix diag c = true))) ∧
      s'.newEdges = s.newEdges ++ flatPairs (((List.range j).filter (fun c =>
        rowVal && entry s.AdjMatrix diag c && !entry s.AdjMatrix row c)).map
          (fun c => (row, c))) := by
  intro j
  induction j with
  | zero =>
    intro _
    exact ⟨s, rfl, hs, by simp, by simp [flatPairs]⟩
  | succ j ih =>
    intro hj
    obtain ⟨s1, hrun, hsq, hent, hnew⟩ := ih (by omega)
    have hjN : j < N := by omega
    have hcv : entry s1.AdjMatrix diag j = entry s.AdjMatrix diag j := by
      rw [Bool.eq_iff_iff, hent]; simp
    have hcur : entry s1.AdjMatrix row j = entry s.AdjMatrix row j := by
      rw [Bool.eq_iff_iff, hent]; simp
    rw [foldlM_range_succ, hrun]
    by_cases hcond : (rowVal && entry s.AdjMatrix diag j && !entry s.AdjMatrix row j) = true
    · obtain ⟨m', hset, hsq', hent'⟩ := matSet_spec hsq hr hjN true
      simp only [Bool.and_eq_true, Bool.not_eq_true'] at hcond
      obtain ⟨⟨h1, h2⟩, h3⟩ := hcond
      refine ⟨{ AdjMatrix := m', newEdges := s1.newEdges ++ [(row : Int), (j : Int)] },
        ?_, hsq', ?_, ?_⟩
      · simp [tcCol, matGet_spec hsq hd hjN, matGet_spec hsq hr hjN, hcv, hcur, h1, h2, h3,
          bind, Except.bind, hset]
      · intro i c
        show entry m' i c = true ↔ _
        rw [hent' i c]
        by_cases hic : i = row ∧ c = j
        · obtain ⟨rfl, rfl⟩ := hic
          simp [h1, h2]
        · rw [if_neg hic, hent i c]
          constructor
          · rintro (h | ⟨a, b, c', d⟩)
            · exact Or.inl h
            · exact Or.inr ⟨a, by omega, c', d⟩
          · rintro (h | ⟨a, b, c', d⟩)
            · exact Or.inl h
            · refine Or.inr ⟨a, ?_, c', d⟩
              have : c ≠ j := fun e => hic ⟨a, e⟩
              omega
      · show s1.newEdges ++ [(row : Int), (j : Int)] = _
        rw [hnew, List.range_succ, List.filter_append, List.map_append, flatPairs_append]
        simp [h1, h2, h3, flatPairs]
    · refine ⟨s1, ?_, hsq, ?_, ?_⟩
      · simp only [tcCol, matGet_spec hsq hd hjN, matGet_spec hsq hr hjN, hcv, hcur, bind,
          Except.bind]
        cases hrv : rowVal <;> cases h2 : entry s.AdjMatrix diag j <;>
          cases h3 : entry s.AdjMatrix row j <;> simp_all
      · intro i c
        rw [hent i c]
        constructor
        · rintro (h | ⟨a, b, c', d⟩)
          · exact Or.inl h
          · exact Or.inr ⟨a, by omega, c', d⟩
        · rintro (h | ⟨a, b, c', d⟩)
          · exact Or.inl h
          · by_cases e : c = j
            · subst e; subst a
              left
              simp [c', d] at hcond
              exact hcond
            · exact Or.inr ⟨a, by omega, c', d⟩
      · rw [hnew, List.range_succ, List.filter_append, List.map_append, flatPairs_append]
        simp [hcond, flatPairs]

/-- The `row` loop of `TransitiveClosure` for one `diag`, after `j` rows. -/
theorem tcRow_loop {N diag : Nat} (hd : diag < N) (s : TcState)
    (hs : Square s.AdjMatrix N) :
    ∀ j, j ≤ N → ∃ s', (List.range j).foldlM (tcRow diag) s = .ok s' ∧
      Square s'.AdjMatrix N ∧
      (∀ i c, entry s'.AdjMatrix i c = true ↔ (entry s.AdjMatrix i c = true ∨
        (i < j ∧ c < N ∧ entry s.AdjMatrix i diag = true ∧
          entry s.AdjMatrix diag c = true))) ∧
      s'.newEdges = s.newEdges ++ flatPairs ((List.range j).flatMap (fun row =>
        ((List.range N).filter (fun c => entry s.AdjMatrix row diag &&
          entry s.AdjMatrix diag c && !entry s.AdjMatrix row c)).map (fun c => (row, c)))) := by
  intro j
  induction j with
  | zero =>
    intro _
    exact ⟨s, rfl, hs, by simp, by simp [flatPairs]⟩
  | succ j ih =>
    intro hj
    obtain ⟨s1, hrun, hsq, hent, hnew⟩ := ih (by omega)
    have hjN : j < N := by omega
    have hdiag : ∀ c, entry s1.AdjMatrix diag c = entry s.AdjMatrix diag c := by
      intro c
      rw [Bool.eq_iff_iff, hent]
      constructor
      · rintro (h | ⟨_, _, _, h⟩) <;> exact h
      · intro h; exact Or.inl h
    have hrowj : ∀ c, entry s1.AdjMatrix j c = entry s.AdjMatrix j c := by
      intro c
      rw [Bool.eq_iff_iff, hent]; simp
    obtain ⟨s2, hrun2, hsq2, hent2, hnew2⟩ :=
      tcCol_loop hd hjN s1 hsq (entry s.AdjMatrix j diag) N (le_refl _)
    refine ⟨s2, ?_, hsq2, ?_, ?_⟩
    · rw [foldlM_range_succ, hrun]
      simp only [tcRow, matGet_spec hsq hjN hd, hrowj, bind, Except.bind, hsq.1]
      exact hrun2
    · intro i c
      rw [hent2 i c, hent i c, hdiag c]
      constructor
      · rintro ((h | ⟨a, b, c', d⟩) | ⟨a, b, c', d⟩)
        · exact Or.inl h
        · exact Or.inr ⟨by omega, b, c', d⟩
        · subst a; exact Or.inr ⟨by omega, b, c', d⟩
      · rintro (h | ⟨a, b, c', d⟩)
        · exact Or.inl (Or.inl h)
        · by_cases e : i = j
          · subst e; exact Or.inr ⟨rfl, b, c', d⟩
          · exact Or.inl (Or.inr ⟨by omega, b, c', d⟩)
    · rw [hnew2, hnew, List.range_succ, List.flatMap_append, flatPairs_append]
      simp only [hdiag, hrowj, List.append_assoc]
      simp

/-! ## Paths through inner vertices below a bound -/

theorem viaBelow_succ_of {m : List (List Bool)} {K i c : Nat} (h : viaBelow m K i c = true) :
    viaBelow m (K + 1) i c = true := by
  simp [viaBelow, h]

theorem viaBelow_mono {m : List (List Bool)} {K K' i c : Nat} (hle : K ≤ K')
    (h : viaBelow m K i c = true) : viaBelow m K' i c = true := by
  induction hle with
  | refl => exact h
  | step _ ih => exact viaBelow_succ_of ih

theorem viaBelow_sound {m : List (List Bool)} :
    ∀ (K i c : Nat), viaBelow m K i c = true →
      Relation.TransGen (fun a b => entry m a b = true) i c := by
  intro K
  induction K with
  | zero => intro i c h; exact Relation.TransGen.single h
  | succ K ih =>
    intro i c h
    simp only [viaBelow, Bool.or_eq_true, Bool.and_eq_true] at h
    rcases h with h | ⟨h1, h2⟩
    · exact ih i c h
    · exact Relation.TransGen.trans (ih i K h1) (ih K c h2)

/-- Two paths with inner vertices below `K` that meet in a vertex below `K` join to one. -/
theorem viaBelow_trans {m : List (List Bool)} :
    ∀ (K x a b : Nat), x < K → viaBelow m K a x = true → viaBelow m K x b = true →
      viaBelow m K a b = true := by
  intro K
  induction K with
  | zero => intro x a b hx; omega
  | succ K ih =>
    intro x a b hx h1 h2
    simp only [viaBelow, Bool.or_eq_true, Bool.and_eq_true] at h1 h2 ⊢
    by_cases hxK : x = K
    · subst hxK
      have ha : viaBelow m x a x = true := by
        rcases h1 with h | ⟨h, _⟩ <;> exact h
      have hb : viaBelow m x x b = true := by
        rcases h2 with h | ⟨_, h⟩ <;> exact h
      exact Or.inr ⟨ha, hb⟩
    · have hlt : x < K := by omega
      rcases h1 with h1 | ⟨h1, h1'⟩ <;> rcases h2 with h2 | ⟨h2, h2'⟩
      · exact Or.inl (ih x a b hlt h1 h2)
      · exact Or.inr ⟨ih x a K hlt h1 h2, h2'⟩
      · exact Or.inr ⟨h1, ih x K b hlt h1' h2⟩
      · exact Or.inr ⟨h1, h2'⟩

theorem viaBelow_complete {m : List (List Bool)} {N : Nat} (hsq : Square m N) {i c : Nat}
    (h : Relation.TransGen (fun a b => entry m a b = true) i c) :
    viaBelow m N i c = true := by
  induction h with
  | single h => exact viaBelow_mono (Nat.zero_le N) h
  | @tail b c' _ hbc ih =>
    have hb : b < N := by
      by_contra hge
      rw [entry_of_row_ge hsq (by omega)] at hbc
      exact Bool.false_ne_true hbc
    exact viaBelow_trans N b i c' hb ih (viaBelow_mono (Nat.zero_le N) hbc)

theorem viaBelow_lt {m : List (List Bool)} {N : Nat} (hsq : Square m N) :
    ∀ (K i c : Nat), viaBelow m K i c = true → i < N ∧ c < N := by
  intro K
  induction K with
  | zero =>
    intro i c h
    constructor
    · by_contra hge
      rw [show viaBelow m 0 i c = entry m i c from rfl, entry_of_row_ge hsq (by omega)] at h
      exact Bool.false_ne_true h
    · by_contra hge
      rw [show viaBelow m 0 i c = entry m i c from rfl, entry_of_col_ge hsq (by omega)] at h
      exact Bool.false_ne_true h
  | succ K ih =>
    intro i c h
    simp only [viaBelow, Bool.or_eq_true, Bool.and_eq_true] at h
    rcases h with h | ⟨h1, h2⟩
    · exact ih i c h
    · exact ⟨(ih i K h1).1, (ih K c h2).2⟩

/-- A pair that is not an edge but is joined by a path with inner vertices below `K` first
becomes joined at some stage below `K`. -/
theorem viaBelow_first {m : List (List Bool)} {i c : Nat} :
    ∀ K, viaBelow m 0 i c = false → viaBelow m K i c = true →
      ∃ k, k < K ∧ viaBelow m k i c = false ∧ viaBelow m (k + 1) i c = true := by
  intro K
  induction K with
  | zero => intro h0 h1; rw [h0] at h1; exact absurd h1 Bool.false_ne_true
  | succ K ih =>
    intro h0 h1
    cases hK : viaBelow m K i c with
    | true =>
      obtain ⟨k, hk, h2, h3⟩ := ih h0 hK
      exact ⟨k, by omega, h2, h3⟩
    | false => exact ⟨K, by omega, hK, h1⟩

theorem mem_newPairsAt {m : List (List Bool)} {N k : Nat} {p : Nat × Nat} :
    p ∈ newPairsAt m N k ↔ p.1 < N ∧ p.2 < N ∧ viaBelow m k p.1 k = true ∧
      viaBelow m k k p.2 = true ∧ viaBelow m k p.1 p.2 = false := by
  obtain ⟨r, c⟩ := p
  simp only [newPairsAt, List.mem_flatMap, List.mem_range, List.mem_map, List.mem_filter,
    Bool.and_eq_true, Bool.not_eq_true', Prod.mk.injEq]
  constructor
  · rintro ⟨row, hrow, c', ⟨hc', ⟨h1, h2⟩, h3⟩, rfl, rfl⟩
    exact ⟨hrow, hc', h1, h2, h3⟩
  · rintro ⟨hr, hc, h1, h2, h3⟩
    exact ⟨r, hr, c, ⟨hc, ⟨h1, h2⟩, h3⟩, rfl, rfl⟩

theorem mem_newPairsAt_new {m : List (List Bool)} {N k : Nat} {p : Nat × Nat}
    (h : p ∈ newPairsAt m N k) :
    viaBelow m k p.1 p.2 = false ∧ viaBelow m (k + 1) p.1 p.2 = true := by
  obtain ⟨_, _, h1, h2, h3⟩ := mem_newPairsAt.1 h
  exact ⟨h3, by simp [viaBelow, h1, h2]⟩

theorem mem_newPairs {m : List (List Bool)} {N : Nat} {K : Nat} {p : Nat × Nat} :
    p ∈ newPairs m N K ↔ p.1 < N ∧ p.2 < N ∧ viaBelow m 0 p.1 p.2 = false ∧
      viaBelow m K p.1 p.2 = true := by
  simp only [newPairs, List.mem_flatMap, List.mem_range]
  constructor
  · rintro ⟨k, hk, hp⟩
    obtain ⟨h1, h2, _, _, _⟩ := mem_newPairsAt.1 hp
    obtain ⟨h3, h4⟩ := mem_newPairsAt_new hp
    refine ⟨h1, h2, ?_, viaBelow_mono (by omega) h4⟩
    cases h0 : viaBelow m 0 p.1 p.2 with
    | false => rfl
    | true =>
      rw [viaBelow_mono (Nat.zero_le k) h0] at h3
      exact absurd h3 (by simp)
  · rintro ⟨h1, h2, h3, h4⟩
    obtain ⟨k, hk, h5, h6⟩ := viaBelow_first K h3 h4
    refine ⟨k, hk, mem_newPairsAt.2 ⟨h1, h2, ?_⟩⟩
    simp only [viaBelow, Bool.or_eq_true, Bool.and_eq_true, h5] at h6
    rcases h6 with h6 | ⟨h6, h7⟩
    · exact absurd h6 (by simp)
    · exact ⟨h6, h7, h5⟩

theorem newPairs_succ (m : List (List Bool)) (N K : Nat) :
    newPairs m N (K + 1) = newPairs m N K ++ newPairsAt m N K := by
  simp [newPairs, List.range_succ, List.flatMap_append]

/-- The outermost loop of `TransitiveClosure` after `K` iterations on a square matrix: the
entries are the pairs joined through inner vertices below `K`. -/
theorem closurePrefix_spec {m : List (List Bool)} {N : Nat} (hsq : Square m N) :
    ∀ K, K ≤ N → ∃ s, closurePrefix m K = .ok s ∧ Square s.AdjMatrix N ∧
      (∀ i c, entry s.AdjMatrix i c = viaBelow m K i c) ∧
      s.newEdges = flatPairs (newPairs m N K) := by
  intro K
  induction K with
  | zero =>
    intro _
    exact ⟨{ AdjMatrix := m, newEdges := [] }, rfl, hsq, fun _ _ => rfl, by
      simp [newPairs, flatPairs]⟩
  | succ K ih =>
    intro hK
    obtain ⟨s, hrun, hsqs, hent, hnew⟩ := ih (by omega)
    have hKN : K < N := by omega
    obtain ⟨s', hrun', hsq', hent', hnew'⟩ := tcRow_loop hKN s hsqs N (le_refl _)
    refine ⟨s', ?_, hsq', ?_, ?_⟩
    · unfold closurePrefix at hrun ⊢
      rw [foldlM_range_succ, hrun]
      simp only [bind, Except.bind, tcDiag, hsqs.1]
      exact hrun'
    · intro i c
      rw [Bool.eq_iff_iff, hent' i c, hent i c, hent i K, hent K c]
      simp only [viaBelow, Bool.or_eq_true, Bool.and_eq_true]
      constructor
      · rintro (h | ⟨_, _, h1, h2⟩)
        · exact Or.inl h
        · exact Or.inr ⟨h1, h2⟩
      · rintro (h | ⟨h1, h2⟩)
        · exact Or.inl h
        · exact Or.inr ⟨(viaBelow_lt hsq K i K h1).1, (viaBelow_lt hsq K K c h2).2, h1, h2⟩
    · rw [hnew', hnew, newPairs_succ, flatPairs_append]
      simp only [hent, newPairsAt]

theorem closureLoops_eq (m : List (List Bool)) : closureLoops m = closurePrefix m m.length :=
  rfl

theorem entry_of_matGet {m : List (List Bool)} {a b : Nat} {v : Bool}
    (h : matGet m (a : Int) (b : Int) = .ok v) : entry m a b = v := by
  unfold matGet index at h
  simp only [Int.natCast_nonneg, if_true, Int.toNat_ofNat, bind, Except.bind] at h
  unfold entry
  cases hrow : m[a]? with
  | none => simp [hrow] at h
  | some row =>
    simp only [hrow] at h
    cases hb : row[b]? with
    | none => simp [hb] at h
    | some x =>
      simp only [hb] at h
      cases h
      simp [hb]

theorem matEdge_iff {m : List (List Bool)} {N : Nat} (hsq : Square m N) (a b : Nat) :
    MatEdge m a b ↔ entry m a b = true := by
  constructor
  · intro h; exact entry_of_matGet h
  · intro h
    have ha : a < N := by
      by_contra hge
      rw [entry_of_row_ge hsq (by omega)] at h
      exact Bool.false_ne_true h
    have hb : b < N := by
      by_contra hge
      rw [entry_of_col_ge hsq (by omega)] at h
      exact Bool.false_ne_true h
    unfold MatEdge
    rw [matGet_spec hsq ha hb, h]

theorem transGen_matEdge_iff {m : List (List Bool)} {N : Nat} (hsq : Square m N) (a b : Nat) :
    Relation.TransGen (MatEdge m) a b ↔ viaBelow m N a b = true := by
  constructor
  · intro h
    exact viaBelow_complete hsq (Relation.TransGen.mono (fun x y hxy => (matEdge_iff hsq x y).1 hxy) h)
  · intro h
    exact Relation.TransGen.mono (fun x y hxy => (matEdge_iff hsq x y).2 hxy)
      (viaBelow_sound N a b h)

/-- What `TransitiveClosure` does on a graph with a square matrix, in terms of `viaBelow`. -/
theorem TransitiveClosure_spec (g : Graph) (N : Nat) (hsq : Square g.AdjMatrix N) :
    ∃ m', TransitiveClosure g =
        .ok ({ g with AdjMatrix := m' }, flatPairs (newPairs g.AdjMatrix N N)) ∧
      Square m' N ∧ ∀ i c, entry m' i c = viaBelow g.AdjMatrix N i c := by
  obtain ⟨s, hrun, hsqs, hent, hnew⟩ := closurePrefix_spec hsq N (le_refl _)
  refine ⟨s.AdjMatrix, ?_, hsqs, hent⟩
  unfold TransitiveClosure
  rw [closureLoops_eq, hsq.1, hrun]
  simp [bind, Except.bind, hnew]

/-! ## Transitive closure: results -/

theorem flatPairs_length (ps : List (Nat × Nat)) : (flatPairs ps).length = 2 * ps.length := by
  induction ps with
  | nil => rfl
  | cons p rest ih =>
    have : flatPairs (p :: rest) = [(p.1 : Int), (p.2 : Int)] ++ flatPairs rest := by
      simp [flatPairs]
    rw [this, List.length_append, ih]
    simp
    omega

theorem setAt_of_mem {m : List (List Bool)} {N : Nat} (hsq : Square m N) {K : Nat}
    (hK : K < N) {p : Nat × Nat} (hp : p ∈ newPairsAt m N K) : SetAt m K p := by
  obtain ⟨s, hrun, hsqs, hent, _⟩ := closurePrefix_spec hsq K (by omega)
  obtain ⟨s', hrun', hsqs', hent', _⟩ := closurePrefix_spec hsq (K + 1) (by omega)
  obtain ⟨h1, h2, _, _, _⟩ := mem_newPairsAt.1 hp
  obtain ⟨h3, h4⟩ := mem_newPairsAt_new hp
  refine ⟨s, s', hrun, hrun', ?_, ?_⟩
  · rw [matGet_spec hsqs h1 h2, hent, h3]
  · rw [matGet_spec hsqs' h1 h2, hent', h4]

/-- The pairs recorded by the first `K` iterations are listed in loop order. -/
theorem newPairs_pairwise (m : List (List Bool)) (N K : Nat) :
    (newPairs m N K).Pairwise (fun p q => ∃ k k', k < K ∧ k' < K ∧
      p ∈ newPairsAt m N k ∧ q ∈ newPairsAt m N k' ∧ LoopBefore k p k' q) := by
  unfold newPairs
  rw [List.pairwise_flatMap]
  constructor
  · intro k hk
    have hkK : k < K := List.mem_range.1 hk
    have hmem : ∀ row, row < N → ∀ x ∈ ((List.range N).filter (fun c =>
          viaBelow m k row k && viaBelow m k k c && !viaBelow m k row c)).map
            (fun c => (row, c)), x ∈ newPairsAt m N k ∧ x.1 = row := by
      intro row hrow x hx
      refine ⟨?_, ?_⟩
      · unfold newPairsAt
        exact List.mem_flatMap.2 ⟨row, List.mem_range.2 hrow, hx⟩
      · obtain ⟨c, _, rfl⟩ := List.mem_map.1 hx
        rfl
    show List.Pairwise _ (newPairsAt m N k)
    unfold newPairsAt
    rw [List.pairwise_flatMap]
    constructor
    · intro row hrow
      have hrowN : row < N := List.mem_range.1 hrow
      rw [List.pairwise_map]
      refine List.Pairwise.imp_of_mem ?_ ((List.pairwise_lt_range N).filter _)
      intro c c' hc hc' hlt
      have h1 := (hmem row hrowN (row, c) (List.mem_map.2 ⟨c, hc, rfl⟩)).1
      have h2 := (hmem row hrowN (row, c') (List.mem_map.2 ⟨c', hc', rfl⟩)).1
      exact ⟨k, k, hkK, hkK, h1, h2, Or.inr ⟨rfl, Or.inr ⟨rfl, hlt⟩⟩⟩
    · refine List.Pairwise.imp_of_mem ?_ (List.pairwise_lt_range N)
      intro row row' hrow hrow' hlt x hx y hy
      obtain ⟨h1, e1⟩ := hmem row (List.mem_range.1 hrow) x hx
      obtain ⟨h2, e2⟩ := hmem row' (List.mem_range.1 hrow') y hy
      exact ⟨k, k, hkK, hkK, h1, h2, Or.inr ⟨rfl, Or.inl (by omega)⟩⟩
  · refine List.Pairwise.imp_of_mem ?_ (List.pairwise_lt_range K)
    intro k k' hk hk' hlt x hx y hy
    exact ⟨k, k', List.mem_range.1 hk, List.mem_range.1 hk', hx, hy, Or.inl hlt⟩

theorem newPairs_nodup (m : List (List Bool)) (N K : Nat) : (newPairs m N K).Nodup := by
  refine (newPairs_pairwise m N K).imp ?_
  rintro p q ⟨k, k', _, _, hp, hq, hbefore⟩ rfl
  rcases hbefore with hlt | ⟨_, h | ⟨_, h⟩⟩
  · have h1 := (mem_newPairsAt_new hp).2
    have h2 := (mem_newPairsAt_new hq).1
    rw [viaBelow_mono (by omega : k + 1 ≤ k') h1] at h2
    exact absurd h2 (by simp)
  · omega
  · omega

/-- C4: for every square `N x N` boolean adjacency matrix, `TransitiveClosure` returns and
leaves an `N x N` matrix in which, for all `row`, `col` below `N`, the entry at `(row, col)` is
true if and only if the matrix on entry has a path of at least one edge from `row` to `col`. -/
theorem TransitiveClosure_matrix (g : Graph) (N : Nat) (hsq : Square g.AdjMatrix N) :
    ∃ g' newEdges, TransitiveClosure g = .ok (g', newEdges) ∧ Square g'.AdjMatrix N ∧
      ∀ row col : Nat, row < N → col < N →
        (matGet g'.AdjMatrix (row : Int) (col : Int) = .ok true ↔
          Relation.TransGen (MatEdge g.AdjMatrix) row col) := by
  obtain ⟨m', hrun, hsq', hent⟩ := TransitiveClosure_spec g N hsq
  refine ⟨_, _, hrun, hsq', ?_⟩
  intro row col hr hc
  show matGet m' _ _ = _ ↔ _
  rw [matGet_spec hsq' hr hc, hent, transGen_matEdge_iff hsq]
  simp

/-- Instance of C4 on the matrix of the triangle `0 -> 1`, `1 -> 2`, `2 -> 0`. -/
theorem TransitiveClosure_matrix_witness :
    Square triangleGraph.AdjMatrix 3 ∧
    ∃ g' newEdges, TransitiveClosure triangleGraph = .ok (g', newEdges) ∧
      Square g'.AdjMatrix 3 ∧
      ∀ row col : Nat, row < 3 → col < 3 →
        (matGet g'.AdjMatrix (row : Int) (col : Int) = .ok true ↔
          Relation.TransGen (MatEdge triangleGraph.AdjMatrix) row col) :=
  ⟨by decide, TransitiveClosure_matrix triangleGraph 3 (by decide)⟩

/-- C5: for every square boolean adjacency matrix, the slice returned by `TransitiveClosure`
is a flat list of `(row, col)` pairs of even length; the pairs are exactly the positions whose
entry was false on entry and is true after the call, each listed once; and of two listed pairs
the earlier one was set at an earlier position of the `diag`, `row`, `col` loop nest. -/
theorem TransitiveClosure_newEdges (g : Graph) (N : Nat) (hsq : Square g.AdjMatrix N) :
    ∃ g' newEdges ps, TransitiveClosure g = .ok (g', newEdges) ∧
      newEdges = flatPairs ps ∧ newEdges.length % 2 = 0 ∧ ps.Nodup ∧
      (∀ r c : Nat, (r, c) ∈ ps ↔ (r < N ∧ c < N ∧
        matGet g.AdjMatrix (r : Int) (c : Int) = .ok false ∧
        matGet g'.AdjMatrix (r : Int) (c : Int) = .ok true)) ∧
      ps.Pairwise (fun p q => ∃ K K', SetAt g.AdjMatrix K p ∧ SetAt g.AdjMatrix K' q ∧
        LoopBefore K p K' q) := by
  obtain ⟨m', hrun, hsq', hent⟩ := TransitiveClosure_spec g N hsq
  refine ⟨_, _, newPairs g.AdjMatrix N N, hrun, rfl, ?_, newPairs_nodup _ _ _, ?_, ?_⟩
  · rw [flatPairs_length]; omega
  · intro r c
    rw [mem_newPairs]
    show _ ↔ r < N ∧ c < N ∧ _ ∧ matGet m' _ _ = _
    constructor
    · rintro ⟨hr, hc, h0, hN⟩
      refine ⟨hr, hc, ?_, ?_⟩
      · rw [matGet_spec hsq hr hc]
        exact congrArg Except.ok h0
      · rw [matGet_spec hsq' hr hc, hent]
        exact congrArg Except.ok hN
    · rintro ⟨hr, hc, h0, hN⟩
      refine ⟨hr, hc, entry_of_matGet h0, ?_⟩
      rw [← hent]
      exact entry_of_matGet hN
  · refine (newPairs_pairwise g.AdjMatrix N N).imp ?_
    rintro p q ⟨k, k', hk, hk', hp, hq, hbefore⟩
    exact ⟨k, k', setAt_of_mem hsq hk hp, setAt_of_mem hsq hk' hq, hbefore⟩

/-- Instance of C5 on the matrix of the chain `0 -> 1 -> 2`. -/
theorem TransitiveClosure_newEdges_witness :
    Square chainGraph.AdjMatrix 3 ∧
    ∃ g' newEdges ps, TransitiveClosure chainGraph = .ok (g', newEdges) ∧
      newEdges = flatPairs ps ∧ newEdges.length % 2 = 0 ∧ ps.Nodup ∧
      (∀ r c : Nat, (r, c) ∈ ps ↔ (r < 3 ∧ c < 3 ∧
        matGet chainGraph.AdjMatrix (r : Int) (c : Int) = .ok false ∧
        matGet g'.AdjMatrix (r : Int) (c : Int) = .ok true)) ∧
      ps.Pairwise (fun p q => ∃ K K', SetAt chainGraph.AdjMatrix K p ∧
        SetAt chainGraph.AdjMatrix K' q ∧ LoopBefore K p K' q) :=
  ⟨by decide, TransitiveClosure_newEdges chainGraph 3 (by decide)⟩

/-- On a matrix that is already transitively closed every stage of `viaBelow` is the matrix. -/
theorem viaBelow_of_transitive {m : List (List Bool)}
    (htr : ∀ a x b, entry m a x = true → entry m x b = true → entry m a b = true) :
    ∀ K i c, viaBelow m K i c = entry m i c := by
  intro K
  induction K with
  | zero => intro i c; rfl
  | succ K ih =>
    intro i c
    simp only [viaBelow, ih]
    cases h : entry m i c with
    | true => simp
    | false =>
      cases h1 : entry m i K with
      | false => simp
      | true =>
        cases h2 : entry m K c with
        | false => simp
        | true => rw [htr i K c h1 h2] at h; exact absurd h (by simp)

/-- C6: for every square boolean adjacency matrix, a second call of `TransitiveClosure` right
after a first one returns an empty new-edge list and leaves the matrix (the whole graph) as the
first call left it. -/
theorem TransitiveClosure_idempotent (g : Graph) (N : Nat) (hsq : Square g.AdjMatrix N) :
    ∃ g' newEdges, TransitiveClosure g = .ok (g', newEdges) ∧
      TransitiveClosure g' = .ok (g', []) := by
  obtain ⟨m', hrun, hsq', hent⟩ := TransitiveClosure_spec g N hsq
  refine ⟨_, _, hrun, ?_⟩
  have htr : ∀ a x b, entry m' a x = true → entry m' x b = true → entry m' a b = true := by
    intro a x b h1 h2
    rw [hent] at h1 h2 ⊢
    exact viaBelow_trans N x a b (viaBelow_lt hsq N a x h1).2 h1 h2
  have hvia := viaBelow_of_transitive htr
  obtain ⟨m'', hrun2, hsq'', hent2⟩ :=
    TransitiveClosure_spec { g with AdjMatrix := m' } N hsq'
  have hm : m'' = m' := by
    apply square_ext hsq'' hsq'
    intro i j _ _
    rw [hent2]
    exact hvia N i j
  have hnil : newPairs m' N N = [] := by
    apply List.eq_nil_iff_forall_not_mem.2
    intro p hp
    obtain ⟨_, _, h0, hN⟩ := mem_newPairs.1 hp
    rw [hvia] at h0 hN
    rw [h0] at hN
    exact absurd hN (by simp)
  rw [hrun2]
  show Except.ok _ = Except.ok _
  rw [hm, hnil]
  rfl

/-- Instance of C6 on the matrix of the triangle. -/
theorem TransitiveClosure_idempotent_witness :
    Square triangleGraph.AdjMatrix 3 ∧
    ∃ g' newEdges, TransitiveClosure triangleGraph = .ok (g', newEdges) ∧
      TransitiveClosure g' = .ok (g', []) :=
  ⟨by decide, TransitiveClosure_idempotent triangleGraph 3 (by decide)⟩

/-! ## Graph construction -/

theorem ContainsVertexID_iff (VL : List Vertex) (id : Int) :
    ContainsVertexID VL id = true ↔ id ∈ VL.map Vertex.ID := by
  induction VL with
  | nil => simp [ContainsVertexID]
  | cons e rest ih =>
    unfold ContainsVertexID
    by_cases h : e.ID = id
    · simp [h]
    · have h' : ¬ id = e.ID := fun e' => h e'.symm
      simp [h, h', ih]

theorem addVertices_invalid :
    ∀ (tokens : List String) (VL : List Vertex), (∃ t ∈ tokens, Atoi t = none) →
      (addVertices tokens VL).2 = some GoError.InvalidVertex := by
  intro tokens
  induction tokens with
  | nil => intro VL h; simp at h
  | cons t rest ih =>
    intro VL h
    unfold addVertices
    cases ht : Atoi t with
    | none => rfl
    | some val =>
      have hrest : ∃ t' ∈ rest, Atoi t' = none := by
        obtain ⟨t', hmem, hnone⟩ := h
        rcases List.mem_cons.1 hmem with e | e
        · subst e; rw [ht] at hnone; cases hnone
        · exact ⟨t', e, hnone⟩
      simp only []
      split
      · exact ih _ hrest
      · exact ih _ hrest

theorem addVertices_valid :
    ∀ (tokens : List String) (vals : List Int) (VL : List Vertex),
      tokens.map Atoi = vals.map some → (VL.map Vertex.ID).Nodup →
      (∀ x ∈ VL, x.Color = UNVISITED) →
      ∃ VL', addVertices tokens VL = (VL', none) ∧ (VL'.map Vertex.ID).Nodup ∧
        (∀ x ∈ VL', x.Color = UNVISITED) ∧
        (∀ v, v ∈ VL'.map Vertex.ID ↔ (v ∈ VL.map Vertex.ID ∨ v ∈ vals)) := by
  intro tokens
  induction tokens with
  | nil =>
    intro vals VL hmap hnd hcol
    cases vals with
    | nil => exact ⟨VL, rfl, hnd, hcol, by simp⟩
    | cons a rest => simp at hmap
  | cons t rest ih =>
    intro vals VL hmap hnd hcol
    cases vals with
    | nil => simp at hmap
    | cons a vrest =>
      simp only [List.map_cons, List.cons.injEq] at hmap
      obtain ⟨ht, hrest⟩ := hmap
      by_cases hc : ContainsVertexID VL a = true
      · obtain ⟨VL', hrun, h1, h2, h3⟩ := ih vrest VL hrest hnd hcol
        refine ⟨VL', ?_, h1, h2, ?_⟩
        · simp [addVertices, ht, hc, hrun]
        · intro v
          rw [h3 v]
          have := (ContainsVertexID_iff VL a).1 hc
          constructor
          · rintro (h | h)
            · exact Or.inl h
            · exact Or.inr (List.mem_cons_of_mem _ h)
          · rintro (h | h)
            · exact Or.inl h
            · rcases List.mem_cons.1 h with e | e
              · subst e; exact Or.inl this
              · exact Or.inr e
      · have hna : a ∉ VL.map Vertex.ID := fun h => hc ((ContainsVertexID_iff VL a).2 h)
        obtain ⟨VL', hrun, h1, h2, h3⟩ :=
          ih vrest (VL ++ [{ ID := a, Color := UNVISITED }]) hrest
            (by
              rw [List.map_append, List.nodup_append]
              refine ⟨hnd, by simp, ?_⟩
              intro x hx hx'
              simp at hx'
              subst hx'
              exact hna hx)
            (by
              intro x hx
              rcases List.mem_append.1 hx with e | e
              · exact hcol x e
              · simp at e; subst e; rfl)
        refine ⟨VL', ?_, h1, h2, ?_⟩
        · simp [addVertices, ht, hc, hrun]
        · intro v
          rw [h3 v]
          simp only [List.map_append, List.mem_append, List.map_cons, List.map_nil,
            List.mem_singleton, List.mem_cons]
          tauto

theorem sortByID_fresh {VL : List Vertex} {N : Nat} (hnd : (VL.map Vertex.ID).Nodup)
    (hcol : ∀ x ∈ VL, x.Color = UNVISITED)
    (hmem : ∀ v : Int, v ∈ VL.map Vertex.ID ↔ (0 ≤ v ∧ v < (N : Int))) :
    sortByID VL = freshVertices N := by
  have itot : IsTotal Vertex (fun a b => a.ID ≤ b.ID) := ⟨fun a b => le_total a.ID b.ID⟩
  have itr : IsTrans Vertex (fun a b => a.ID ≤ b.ID) :=
    ⟨fun a b c h1 h2 => le_trans h1 h2⟩
  have hperm : (sortByID VL).Perm VL := List.perm_insertionSort _ VL
  have hsorted : List.Sorted (fun a b : Vertex => a.ID ≤ b.ID) (sortByID VL) :=
    List.sorted_insertionSort _ VL
  have hsorted' : List.Sorted (· ≤ ·) ((sortByID VL).map Vertex.ID) := by
    unfold List.Sorted at hsorted ⊢
    rw [List.pairwise_map]
    exact hsorted
  have hpermid : ((sortByID VL).map Vertex.ID).Perm (VL.map Vertex.ID) := hperm.map _
  have htnd : ((List.range N).map (fun i : Nat => (i : Int))).Nodup :=
    (List.nodup_range N).map (fun a b hab => by simpa using hab)
  have htsorted : List.Sorted (· ≤ ·) ((List.range N).map (fun i : Nat => (i : Int))) := by
    unfold List.Sorted
    rw [List.pairwise_map]
    exact (List.pairwise_lt_range N).imp (fun h => by omega)
  have hp2 : ((sortByID VL).map Vertex.ID).Perm ((List.range N).map (fun i : Nat => (i : Int))) := by
    rw [List.perm_ext_iff_of_nodup (hpermid.nodup_iff.2 hnd) htnd]
    intro v
    rw [hpermid.mem_iff, hmem v]
    simp only [List.mem_map, List.mem_range]
    constructor
    · rintro ⟨h0, h1⟩
      exact ⟨v.toNat, by omega, by omega⟩
    · rintro ⟨i, hi, rfl⟩
      omega
  have heq := List.eq_of_perm_of_sorted hp2 hsorted' htsorted
  have hself : sortByID VL =
      ((sortByID VL).map Vertex.ID).map (fun i => { ID := i, Color := UNVISITED }) := by
    rw [List.map_map]
    conv_lhs => rw [← List.map_id (sortByID VL)]
    apply List.map_congr_left
    intro x hx
    have := hcol x (hperm.mem_iff.1 hx)
    cases x with
    | mk a b => simp at this; simp [this]
  rw [hself, heq, List.map_map]
  rfl

theorem freshVertices_length (N : Nat) : (freshVertices N).length = N := by
  simp [freshVertices]

theorem freshVertices_getElem? {N i : Nat} (hi : i < N) :
    (freshVertices N)[i]? = some { ID := (i : Int), Color := UNVISITED } := by
  simp [freshVertices, List.getElem?_map, List.getElem?_range hi]

theorem freshVertices_ids (N : Nat) : IdsOk (freshVertices N) := by
  intro i v hv
  have hi : i < N := by
    have := (List.getElem?_eq_some.1 hv).1
    rwa [freshVertices_length] at this
  rw [freshVertices_getElem? hi] at hv
  cases hv
  rfl

/-- On valid tokens and a graph without vertices, `SetUpVertices` returns no error and leaves
the vertices `0 .. N-1` in order, all `UNVISITED`. -/
theorem SetUpVertices_valid {tokens : List String} {vals : List Int} {N : Nat}
    (hv : ValidTokens tokens vals N) (g : Graph) (hg : g.VertexList = []) :
    SetUpVertices g tokens = ({ g with VertexList := freshVertices N }, none) := by
  obtain ⟨_, hmap, hrange, hall⟩ := hv
  obtain ⟨VL', hrun, hnd, hcol, hmem⟩ :=
    addVertices_valid tokens vals [] hmap (by simp) (by simp)
  have hfresh : sortByID VL' = freshVertices N := by
    apply sortByID_fresh hnd hcol
    intro v
    rw [hmem v]
    simp only [List.map_nil, List.not_mem_nil, false_or]
    constructor
    · exact hrange v
    · rintro ⟨h0, h1⟩
      have := hall v.toNat (by omega)
      rwa [Int.toNat_of_nonneg h0] at this
  unfold SetUpVertices
  rw [hg, hrun]
  simp [hfresh]

theorem mem_pairsOf : ∀ (n : Nat) (vals : List Int), vals.length ≤ n →
    ∀ p ∈ pairsOf vals, p.1 ∈ vals ∧ p.2 ∈ vals := by
  intro n
  induction n using Nat.strong_induction_on with
  | _ n ih =>
    intro vals hlen p hp
    match vals, hlen, hp with
    | [], _, hp => simp [pairsOf] at hp
    | [_], _, hp => simp [pairsOf] at hp
    | a :: b :: rest, hlen, hp =>
      simp only [pairsOf, List.mem_cons] at hp
      rcases hp with e | e
      · subst e; simp
      · simp only [List.length_cons] at hlen
        have := ih rest.length (by omega) rest (le_refl _) p e
        exact ⟨by simp [this.1], by simp [this.2]⟩

theorem addressOf_fresh {N : Nat} {dest : Int} (h0 : 0 ≤ dest) (h1 : dest < (N : Int)) :
    addressOf (freshVertices N) dest = .ok dest.toNat := by
  unfold addressOf
  rw [freshVertices_length]
  have : dest.toNat < N := by omega
  simp [h0, this]

theorem modifyAt_spec {α : Type} {xs : List α} {i : Int} (h0 : 0 ≤ i)
    (h1 : i.toNat < xs.length) (f : α → α) :
    ∃ xs', modifyAt xs i f = .ok xs' ∧ xs'.length = xs.length ∧
      ∀ u, xs'[u]? = if u = i.toNat then (xs[u]?).map f else xs[u]? := by
  have hx : xs[i.toNat]? = some xs[i.toNat] := List.getElem?_eq_getElem h1
  refine ⟨xs.set i.toNat (f xs[i.toNat]), ?_, by simp, ?_⟩
  · simp [modifyAt, h0, hx]
  · intro u
    by_cases e : u = i.toNat
    · subst e; simp [List.getElem?_set_self h1, hx]
    · have e' : i.toNat ≠ u := fun h => e h.symm
      simp [List.getElem?_set_ne e', e]

/-- The loop of `SetUpAdjacencyList` on an even number of tokens that all parse to vertex
IDs: row `u` grows by the destinations of the pairs with source `u`, in input order. -/
theorem addPairs_valid (N : Nat) : ∀ (n : Nat) (tokens : List String) (vals : List Int)
    (adj : List (List Nat)), tokens.length = 2 * n → tokens.map Atoi = vals.map some →
    (∀ v ∈ vals, 0 ≤ v ∧ v < (N : Int)) → adj.length = N →
    ∃ adj', addPairs (freshVertices N) tokens adj = .ok (adj', none) ∧ adj'.length = N ∧
      ∀ u : Nat, adj'[u]? = (adj[u]?).map (fun row =>
        row ++ ((pairsOf vals).filter (fun p => p.1 = (u : Int))).map (fun p => p.2.toNat)) := by
  intro n
  induction n with
  | zero =>
    intro tokens vals adj hlen hmap _ hadj
    have ht : tokens = [] := List.length_eq_zero.1 (by omega)
    subst ht
    cases vals with
    | nil => exact ⟨adj, rfl, hadj, fun u => by simp [pairsOf]⟩
    | cons a rest => simp at hmap
  | succ n ih =>
    intro tokens vals adj hlen hmap hrange hadj
    match tokens, vals, hlen, hmap, hrange with
    | [], _, hlen, _, _ => simp at hlen
    | [_], _, hlen, _, _ => simp at hlen; omega
    | a :: b :: rest, [], _, hmap, _ => simp at hmap
    | a :: b :: rest, [_], _, hmap, _ => simp at hmap
    | a :: b :: rest, va :: vb :: vrest, hlen, hmap, hrange =>
      simp only [List.map_cons, List.cons.injEq] at hmap
      obtain ⟨ha, hb, hrest⟩ := hmap
      have hva := hrange va (by simp)
      have hvb := hrange vb (by simp)
      have hvaN : va.toNat < adj.length := by omega
      obtain ⟨adj1, hmod, hlen1, hget1⟩ :=
        modifyAt_spec hva.1 hvaN (fun row => row ++ [vb.toNat])
      obtain ⟨adj', hrun, hlen', hget'⟩ := ih rest vrest adj1
        (by simp only [List.length_cons] at hlen; omega) hrest
        (fun v hv => hrange v (by simp [hv])) (by rw [hlen1, hadj])
      refine ⟨adj', ?_, hlen', ?_⟩
      · simp [addPairs, ha, hb, addressOf_fresh hvb.1 hvb.2, hmod, bind, Except.bind, hrun]
      · intro u
        rw [hget' u, hget1 u]
        by_cases e : u = va.toNat
        · have e' : va = (u : Int) := by omega
          simp only [e, if_true, Option.map_map]
          congr 1
          funext row
          simp [pairsOf, e']
        · have e' : ¬ va = (u : Int) := by omega
          simp only [e, if_false]
          congr 1
          funext row
          simp [pairsOf, e']

/-- On valid tokens `SetUpAdjacencyList` after `SetUpVertices` returns no error; row `u` holds
the destinations of the pairs with source `u`, in input order. -/
theorem SetUpAdjacencyList_valid {tokens : List String} {vals : List Int} {N : Nat}
    (hv : ValidTokens tokens vals N) (g : Graph) (hg : g.VertexList = freshVertices N) :
    ∃ adj, SetUpAdjacencyList g tokens = .ok ({ g with AdjList := adj }, none) ∧
      adj.length = N ∧
      ∀ u : Nat, u < N → adj[u]? = some
        (((pairsOf vals).filter (fun p => p.1 = (u : Int))).map (fun p => p.2.toNat)) := by
  obtain ⟨heven, hmap, hrange, _⟩ := hv
  obtain ⟨adj', hrun, hlen', hget'⟩ := addPairs_valid N (tokens.length / 2) tokens vals
    (List.replicate N []) (by omega) hmap hrange (by simp)
  refine ⟨adj', ?_, hlen', ?_⟩
  · unfold SetUpAdjacencyList
    rw [hg, freshVertices_length, hrun]
    rfl
  · intro u hu
    rw [hget' u]
    simp [List.getElem?_replicate, hu]

theorem markRow_spec {VL : List Vertex} {N : Nat} (hids : IdsOk VL) (hVL : VL.length = N)
    {row : Nat} (hrow : row < N) :
    ∀ (ptrs : List Nat) (m : List (List Bool)), (∀ p ∈ ptrs, p < N) → Square m N →
      ∃ m', markRow VL row ptrs m = .ok m' ∧ Square m' N ∧
        ∀ i j, entry m' i j = true ↔ (entry m i j = true ∨ (i = row ∧ j ∈ ptrs)) := by
  intro ptrs
  induction ptrs with
  | nil =>
    intro m _ hsq
    exact ⟨m, rfl, hsq, by simp⟩
  | cons p rest ih =>
    intro m hp hsq
    have hpN : p < N := hp p (by simp)
    obtain ⟨m1, hset, hsq1, hent1⟩ := matSet_spec hsq hrow hpN true
    obtain ⟨m', hrun, hsq', hent'⟩ := ih m1 (fun q hq => hp q (by simp [hq])) hsq1
    refine ⟨m', ?_, hsq', ?_⟩
    · unfold markRow at hrun ⊢
      simp only [List.foldlM_cons, deref_spec hids (by omega : p < VL.length), bind,
        Except.bind, hset]
      exact hrun
    · intro i j
      rw [hent' i j, hent1 i j]
      by_cases e : i = row ∧ j = p
      · simp [e]
      · simp only [e, if_false, List.mem_cons]
        constructor
        · rintro (h | ⟨h1, h2⟩)
          · exact Or.inl h
          · exact Or.inr ⟨h1, Or.inr h2⟩
        · rintro (h | ⟨h1, h2 | h2⟩)
          · exact Or.inl h
          · exact absurd ⟨h1, h2⟩ e
          · exact Or.inr ⟨h1, h2⟩

theorem square_replicate (N : Nat) : Square (List.replicate N (List.replicate N false)) N := by
  refine ⟨by simp, ?_⟩
  intro row hrow
  rw [(List.mem_replicate.1 hrow).2]
  simp

theorem entry_replicate (N i j : Nat) :
    entry (List.replicate N (List.replicate N false)) i j = false := by
  unfold entry
  by_cases hi : i < N
  · by_cases hj : j < N
    · simp [List.getElem?_replicate, hi, hj]
    · simp [List.getElem?_replicate, hi, hj]
  · simp [List.getElem?_replicate, hi]

/-- On a graph with vertices `0 .. N-1` and `N` adjacency rows that point at vertices,
`SetUpAdjacencyMatrix` builds the `N x N` matrix of the adjacency list. -/
theorem SetUpAdjacencyMatrix_spec (g : Graph) (N : Nat) (hids : IdsOk g.VertexList)
    (hVL : g.VertexList.length = N) (hlen : g.AdjList.length = N)
    (hadj : ∀ row ∈ g.AdjList, ∀ p ∈ row, p < N) :
    ∃ m, SetUpAdjacencyMatrix g = .ok { g with AdjMatrix := m } ∧ Square m N ∧
      ∀ i j, entry m i j = true ↔ ∃ row, g.AdjList[i]? = some row ∧ j ∈ row := by
  have hloop : ∀ k, k ≤ N → ∃ m, (List.range k).foldlM (fun m (row : Nat) => do
        let ptrs ← index g.AdjList row
        markRow g.VertexList row ptrs m) (List.replicate N (List.replicate N false)) = .ok m ∧
      Square m N ∧
      ∀ i j, entry m i j = true ↔ (i < k ∧ ∃ row, g.AdjList[i]? = some row ∧ j ∈ row) := by
    intro k
    induction k with
    | zero =>
      intro _
      exact ⟨_, rfl, square_replicate N, fun i j => by simp [entry_replicate]⟩
    | succ k ih =>
      intro hk
      obtain ⟨m1, hrun1, hsq1, hent1⟩ := ih (by omega)
      have hkN : k < g.AdjList.length := by omega
      have hrowk : g.AdjList[k]? = some g.AdjList[k] := List.getElem?_eq_getElem hkN
      obtain ⟨m2, hrun2, hsq2, hent2⟩ := markRow_spec hids hVL (by omega : k < N)
        g.AdjList[k] m1 (hadj _ (List.getElem?_mem hrowk)) hsq1
      refine ⟨m2, ?_, hsq2, ?_⟩
      · rw [foldlM_range_succ, hrun1]
        simp only [bind, Except.bind, index_natCast hrowk]
        exact hrun2
      · intro i j
        rw [hent2 i j, hent1 i j]
        constructor
        · rintro (⟨h1, h2⟩ | ⟨h1, h2⟩)
          · exact ⟨by omega, h2⟩
          · subst h1; exact ⟨by omega, _, hrowk, h2⟩
        · rintro ⟨h1, row, hrow, hj⟩
          by_cases e : i = k
          · subst e
            rw [hrowk] at hrow
            cases hrow
            exact Or.inr ⟨rfl, hj⟩
          · exact Or.inl ⟨by omega, row, hrow, hj⟩
  obtain ⟨m, hrun, hsq, hent⟩ := hloop N (le_refl _)
  refine ⟨m, ?_, hsq, ?_⟩
  · unfold SetUpAdjacencyMatrix
    simp only [hVL, hlen, bind, Except.bind] at hrun ⊢
    rw [hrun]
  · intro i j
    rw [hent i j]
    constructor
    · rintro ⟨_, h⟩; exact h
    · rintro ⟨row, hrow, hj⟩
      refine ⟨?_, row, hrow, hj⟩
      have := (List.getElem?_eq_some.1 hrow).1
      omega

/-- The three construction calls on valid tokens and a graph without vertices. -/
theorem construct_valid {tokens : List String} {vals : List Int} {N : Nat}
    (hv : ValidTokens tokens vals N) (g : Graph) (hg : g.VertexList = []) :
    ∃ adj m, construct g tokens =
        .ok ({ VertexList := freshVertices N, AdjList := adj, AdjMatrix := m }, none) ∧
      SetUpAdjacencyList (SetUpVertices g tokens).1 tokens =
        .ok ({ VertexList := freshVertices N, AdjList := adj, AdjMatrix := g.AdjMatrix },
          none) ∧
      adj.length = N ∧
      (∀ u : Nat, u < N → adj[u]? = some
        (((pairsOf vals).filter (fun p => p.1 = (u : Int))).map (fun p => p.2.toNat))) ∧
      Square m N ∧
      (∀ u v : Nat, u < N → v < N →
        (entry m u v = true ↔ ((u : Int), (v : Int)) ∈ pairsOf vals)) := by
  have h1 := SetUpVertices_valid hv g hg
  obtain ⟨adj, h2, hlen, hget⟩ :=
    SetUpAdjacencyList_valid hv { g with VertexList := freshVertices N } rfl
  have hadj : ∀ row ∈ adj, ∀ p ∈ row, p < N := by
    intro row hrow p hp
    obtain ⟨u, hu⟩ := List.mem_iff_getElem?.1 hrow
    have huN : u < N := by
      have := (List.getElem?_eq_some.1 hu).1
      omega
    rw [hget u huN] at hu
    cases hu
    simp only [List.mem_map, List.mem_filter] at hp
    obtain ⟨q, ⟨hq, _⟩, rfl⟩ := hp
    have := hv.2.2.1 q.2 (mem_pairsOf _ vals (le_refl _) q hq).2
    omega
  obtain ⟨m, h3, hsq, hent⟩ := SetUpAdjacencyMatrix_spec
    { VertexList := freshVertices N, AdjList := adj, AdjMatrix := g.AdjMatrix } N
    (freshVertices_ids N) (freshVertices_length N) hlen hadj
  refine ⟨adj, m, ?_, ?_, hlen, hget, hsq, ?_⟩
  · unfold construct
    rw [h1]
    simp only [h2, bind, Except.bind, h3]
  · rw [h1]; exact h2
  · intro u v hu hvN
    rw [hent u v]
    simp only [hget u hu]
    constructor
    · rintro ⟨row, hrow, hmem⟩
      cases hrow
      simp only [List.mem_map, List.mem_filter] at hmem
      obtain ⟨q, ⟨hq, hq1⟩, hq2⟩ := hmem
      have := hv.2.2.1 q.2 (mem_pairsOf _ vals (le_refl _) q hq).2
      have hq1' : q.1 = (u : Int) := by simpa using hq1
      have hq2' : q.2 = (v : Int) := by omega
      have : q = ((u : Int), (v : Int)) := Prod.ext hq1' hq2'
      rw [← this]; exact hq
    · intro hmem
      refine ⟨_, rfl, ?_⟩
      simp only [List.mem_map, List.mem_filter]
      exact ⟨((u : Int), (v : Int)), ⟨hmem, by simp⟩, by simp⟩

/-! ## Graph construction: results -/

/-- C7: for every even-length token sequence whose tokens all parse as integers and whose
distinct integers are exactly `0 .. N-1`, construction on a graph without vertices
(`SetUpVertices`, `SetUpAdjacencyList`, `SetUpAdjacencyMatrix`) returns no error and leaves an
`N x N` matrix in which, for all `u`, `v` below `N`, the entry at `(u, v)` is true if and only
if `(u, v)` occurs as a `(source, destination)` pair of the token sequence. -/
theorem construct_matrix (tokens : List String) (vals : List Int) (N : Nat)
    (hv : ValidTokens tokens vals N) (g : Graph) (hg : g.VertexList = []) :
    ∃ g', construct g tokens = .ok (g', none) ∧ Square g'.AdjMatrix N ∧
      ∀ u v : Nat, u < N → v < N →
        (matGet g'.AdjMatrix (u : Int) (v : Int) = .ok true ↔
          ((u : Int), (v : Int)) ∈ pairsOf vals) := by
  obtain ⟨adj, m, hrun, _, _, _, hsq, hent⟩ := construct_valid hv g hg
  refine ⟨_, hrun, hsq, ?_⟩
  intro u v hu hvN
  show matGet m _ _ = _ ↔ _
  rw [matGet_spec hsq hu hvN, ← hent u v hu hvN]
  simp

/-- Instance of C7 on the tokens `0 1 1 2 0 1` (a parallel edge `0 -> 1`). -/
theorem construct_matrix_witness :
    ValidTokens ["0", "1", "1", "2", "0", "1"] [0, 1, 1, 2, 0, 1] 3 ∧
    emptyGraph.VertexList = [] ∧
    ∃ g', construct emptyGraph ["0", "1", "1", "2", "0", "1"] = .ok (g', none) ∧
      Square g'.AdjMatrix 3 ∧
      ∀ u v : Nat, u < 3 → v < 3 →
        (matGet g'.AdjMatrix (u : Int) (v : Int) = .ok true ↔
          ((u : Int), (v : Int)) ∈ pairsOf [0, 1, 1, 2, 0, 1]) :=
  ⟨by decide, rfl,
    construct_matrix ["0", "1", "1", "2", "0", "1"] [0, 1, 1, 2, 0, 1] 3 (by decide)
      emptyGraph rfl⟩

/-- C8: for every even-length token sequence whose tokens all parse as integers and whose
distinct integers are exactly `0 .. N-1`, construction on a graph without vertices succeeds
(no error value, no out-of-range index) and leaves a `VertexList` of exactly `N` vertices, in
strictly ascending order of ID, with `VertexList[i].ID == i` and the colour `UNVISITED` at
every position. -/
theorem construct_vertices (tokens : List String) (vals : List Int) (N : Nat)
    (hv : ValidTokens tokens vals N) (g : Graph) (hg : g.VertexList = []) :
    ∃ g', construct g tokens = .ok (g', none) ∧ g'.VertexList.length = N ∧
      (∀ i : Nat, i < N →
        g'.VertexList[i]? = some { ID := (i : Int), Color := UNVISITED }) ∧
      List.Sorted (· < ·) (g'.VertexList.map Vertex.ID) := by
  obtain ⟨adj, m, hrun, _, _, _, _, _⟩ := construct_valid hv g hg
  refine ⟨_, hrun, freshVertices_length N, fun i hi => freshVertices_getElem? hi, ?_⟩
  show List.Sorted (· < ·) ((freshVertices N).map Vertex.ID)
  unfold freshVertices List.Sorted
  rw [List.map_map, List.pairwise_map]
  exact (List.pairwise_lt_range N).imp (fun h => by simpa using h)

/-- Instance of C8 on the tokens `2 0 1 2`. -/
theorem construct_vertices_witness :
    ValidTokens ["2", "0", "1", "2"] [2, 0, 1, 2] 3 ∧ emptyGraph.VertexList = [] ∧
    ∃ g', construct emptyGraph ["2", "0", "1", "2"] = .ok (g', none) ∧
      g'.VertexList.length = 3 ∧
      (∀ i : Nat, i < 3 →
        g'.VertexList[i]? = some { ID := (i : Int), Color := UNVISITED }) ∧
      List.Sorted (· < ·) (g'.VertexList.map Vertex.ID) :=
  ⟨by decide, rfl,
    construct_vertices ["2", "0", "1", "2"] [2, 0, 1, 2] 3 (by decide) emptyGraph rfl⟩

/-- C9: for every valid token sequence and every vertex `u`, after `SetUpVertices` and
`SetUpAdjacencyList` on a graph without vertices the IDs of the vertices that `AdjList[u]`
points at are exactly the destinations of the pairs whose source is `u`, in input order;
duplicates and self-loops are kept, so the row is as long as the number of such pairs. -/
theorem SetUpAdjacencyList_rows (tokens : List String) (vals : List Int) (N : Nat)
    (hv : ValidTokens tokens vals N) (g : Graph) (hg : g.VertexList = []) :
    ∃ g', SetUpAdjacencyList (SetUpVertices g tokens).1 tokens = .ok (g', none) ∧
      ∀ u : Nat, u < N → ∃ row, g'.AdjList[u]? = some row ∧
        row.map (fun p => (g'.VertexList[p]?).map Vertex.ID) =
          ((pairsOf vals).filter (fun p => p.1 = (u : Int))).map (fun p => some p.2) ∧
        row.length = ((pairsOf vals).filter (fun p => p.1 = (u : Int))).length := by
  obtain ⟨adj, m, _, hrun, _, hget, _, _⟩ := construct_valid hv g hg
  refine ⟨_, hrun, ?_⟩
  intro u hu
  refine ⟨_, hget u hu, ?_, by simp⟩
  rw [List.map_map]
  apply List.map_congr_left
  intro q hq
  have hq' := (List.mem_filter.1 hq).1
  have hrange := hv.2.2.1 q.2 (mem_pairsOf _ vals (le_refl _) q hq').2
  show ((freshVertices N)[q.2.toNat]?).map Vertex.ID = some q.2
  rw [freshVertices_getElem? (by omega)]
  simp only [Option.map_some', Option.some.injEq]
  omega

/-- Instance of C9 on the tokens `0 1 0 0 0 1` (a duplicate edge and a self-loop). -/
theorem SetUpAdjacencyList_rows_witness :
    ValidTokens ["0", "1", "0", "0", "0", "1"] [0, 1, 0, 0, 0, 1] 2 ∧
    emptyGraph.VertexList = [] ∧
    ∃ g', SetUpAdjacencyList (SetUpVertices emptyGraph
        ["0", "1", "0", "0", "0", "1"]).1 ["0", "1", "0", "0", "0", "1"] = .ok (g', none) ∧
      ∀ u : Nat, u < 2 → ∃ row, g'.AdjList[u]? = some row ∧
        row.map (fun p => (g'.VertexList[p]?).map Vertex.ID) =
          ((pairsOf [0, 1, 0, 0, 0, 1]).filter (fun p => p.1 = (u : Int))).map
            (fun p => some p.2) ∧
        row.length = ((pairsOf [0, 1, 0, 0, 0, 1]).filter (fun p => p.1 = (u : Int))).length :=
  ⟨by decide, rfl,
    SetUpAdjacencyList_rows ["0", "1", "0", "0", "0", "1"] [0, 1, 0, 0, 0, 1] 2 (by decide)
      emptyGraph rfl⟩

/-- C10: for every token sequence that contains a token that does not parse as an integer,
`SetUpVertices` returns the `InvalidVertex` error and `Run` returns that error without running
any later step: nothing is printed, and the adjacency list and matrix are left as they were. -/
theorem Run_invalid_token (tokens : List String) (h : ∃ t ∈ tokens, Atoi t = none)
    (g : Graph) (src dest : Int) :
    (SetUpVertices g tokens).2 = some GoError.InvalidVertex ∧
    Run g tokens src dest = .ok ((SetUpVertices g tokens).1, some GoError.InvalidVertex, none) ∧
    construct g tokens = .ok ((SetUpVertices g tokens).1, some GoError.InvalidVertex) ∧
    (SetUpVertices g tokens).1.AdjList = g.AdjList ∧
    (SetUpVertices g tokens).1.AdjMatrix = g.AdjMatrix := by
  have hadd := addVertices_invalid tokens g.VertexList h
  have hsv : SetUpVertices g tokens =
      ({ g with VertexList := (addVertices tokens g.VertexList).1 },
        some GoError.InvalidVertex) := by
    unfold SetUpVertices
    cases hr : addVertices tokens g.VertexList with
    | mk VL e =>
      rw [hr] at hadd
      simp only at hadd
      subst hadd
      rfl
  refine ⟨by rw [hsv], ?_, ?_, by rw [hsv], by rw [hsv]⟩
  · unfold Run
    rw [hsv]
  · unfold construct
    rw [hsv]

/-- Instance of C10 on the tokens `0 x`. -/
theorem Run_invalid_token_witness :
    (∃ t ∈ ["0", "x"], Atoi t = none) ∧
    (SetUpVertices emptyGraph ["0", "x"]).2 = some GoError.InvalidVertex ∧
    Run emptyGraph ["0", "x"] 0 1 =
      .ok ((SetUpVertices emptyGraph ["0", "x"]).1, some GoError.InvalidVertex, none) ∧
    construct emptyGraph ["0", "x"] =
      .ok ((SetUpVertices emptyGraph ["0", "x"]).1, some GoError.InvalidVertex) ∧
    (SetUpVertices emptyGraph ["0", "x"]).1.AdjList = emptyGraph.AdjList ∧
    (SetUpVertices emptyGraph ["0", "x"]).1.AdjMatrix = emptyGraph.AdjMatrix :=
  ⟨by decide, Run_invalid_token ["0", "x"] (by decide) emptyGraph 0 1⟩

/-! ## The loop of the depth-first search, whatever the colours -/

theorem iterate_mono {σ ρ : Type} (body : σ → Except Fault (σ ⊕ ρ)) {r : ρ} :
    ∀ (k : Nat) (s : σ), iterate body k s = .ok r → ∀ k', k ≤ k' →
      iterate body k' s = .ok r := by
  intro k
  induction k with
  | zero => intro s h; simp [iterate] at h
  | succ k ih =>
    intro s h k' hk'
    obtain ⟨j, rfl⟩ : ∃ j, k' = j + 1 := ⟨k' - 1, by omega⟩
    unfold iterate at h ⊢
    cases hb : body s with
    | error e => rw [hb] at h; simp at h
    | ok x =>
      rw [hb] at h
      cases x with
      | inl s' => exact ih s' h j (by omega)
      | inr r' => exact h

theorem numUnvisited_le_of_set {VL VL' : List Vertex} {k : Nat} {c : String}
    (hlen : VL'.length = VL.length)
    (hcol : ∀ i, colorAt VL' i = if i = k then c else colorAt VL i)
    (hc : c ≠ UNVISITED) : numUnvisited VL' ≤ numUnvisited VL := by
  unfold numUnvisited
  rw [hlen]
  apply Finset.card_le_card
  intro i hi
  simp only [Finset.mem_filter, Finset.mem_range] at hi ⊢
  refine ⟨hi.1, ?_⟩
  have := hi.2
  rw [hcol i] at this
  by_cases e : i = k
  · simp [e] at this; exact absurd this hc
  · simpa [e] using this

/-- The scan of an adjacency row does not depend on the order of the row. -/
theorem lowestUnvisited_perm {VL : List Vertex} (hid : IdsOk VL) {row row' : List Nat}
    (hrow : ∀ p ∈ row, p < VL.length) (hperm : row'.Perm row)
    (hN : (VL.length : Int) < MaxInt32) :
    lowestUnvisited VL row' MaxInt32 = lowestUnvisited VL row MaxInt32 := by
  have hrow' : ∀ p ∈ row', p < VL.length := fun p hp => hrow p (hperm.mem_iff.1 hp)
  obtain ⟨x, hx, _, hor, hmin⟩ := lowestUnvisited_spec hid row MaxInt32 hrow
  obtain ⟨y, hy, _, hor', hmin'⟩ := lowestUnvisited_spec hid row' MaxInt32 hrow'
  rw [hx, hy]
  congr 1
  rcases hor with h1 | ⟨p, hp, h1, h2⟩ <;> rcases hor' with h3 | ⟨q, hq, h3, h4⟩
  · rw [h1, h3]
  · have := hmin q (hperm.mem_iff.1 hq) h4
    have := hrow' q hq
    omega
  · have := hmin' p (hperm.mem_iff.2 hp) h2
    have := hrow p hp
    omega
  · have := hmin q (hperm.mem_iff.1 hq) h4
    have := hmin' p (hperm.mem_iff.2 hp) h2
    omega

/-- One pass through the loop of `DepthFirstSearch` from a state whose stack is not empty:
with an `UNVISITED` neighbour of the top the one of lowest ID is coloured, pushed and appended;
without one the top is finished and popped. -/
theorem dfsBody_expand {AdjList : List (List Nat)} {N : Nat} (hN : (N : Int) < MaxInt32)
    {dest : Nat} (hdest : dest < N) {s : DfsState} (hids : IdsOk s.VL)
    (hVL : s.VL.length = N) {t : Nat} (ht : t < N) (hstack : s.stack.stack ≠ [])
    (hpeek : s.stack.peek.ID = (t : Int)) (hpath : s.path ≠ []) {row : List Nat}
    (hrow : AdjList[t]? = some row) (hrowb : ∀ p ∈ row, p < N) :
    ((∃ p ∈ row, colorAt s.VL p = UNVISITED) →
      ∃ m ∈ row, colorAt s.VL m = UNVISITED ∧
        (∀ p ∈ row, colorAt s.VL p = UNVISITED → m ≤ p) ∧
        ∃ VL', setColor s.VL (m : Int) VISITED = .ok VL' ∧ VL'.length = N ∧ IdsOk VL' ∧
          (∀ i, colorAt VL' i = if i = m then VISITED else colorAt s.VL i) ∧
          dfsBody AdjList (dest : Int) s = .ok (if m = dest then
            .inr { VL := VL', discoveredVertex := s.discoveredVertex ++ [grayV m],
                   path := s.path ++ [grayV m] }
          else
            .inl { VL := VL', stack := s.stack.add (grayV m),
                   discoveredVertex := s.discoveredVertex ++ [grayV m],
                   path := s.path ++ [grayV m] })) ∧
    ((¬ ∃ p ∈ row, colorAt s.VL p = UNVISITED) →
      ∃ VL', setColor s.VL (t : Int) FINISHED = .ok VL' ∧ VL'.length = N ∧ IdsOk VL' ∧
        (∀ i, colorAt VL' i = if i = t then FINISHED else colorAt s.VL i) ∧
        dfsBody AdjList (dest : Int) s = .ok (.inl
          { VL := VL', stack := s.stack.pop, discoveredVertex := s.discoveredVertex,
            path := s.path.dropLast })) := by
  have hpos : s.stack.stack.length > 0 := List.length_pos.2 hstack
  have hidx : index AdjList s.stack.peek.ID = .ok row := by
    rw [hpeek]; exact index_natCast hrow
  obtain ⟨x, hscan, hle, hor, hmin⟩ :=
    lowestUnvisited_spec hids row MaxInt32 (by rw [hVL]; exact hrowb)
  constructor
  · rintro ⟨p0, hp0, hp0b⟩
    have hx : x ≠ MaxInt32 := by
      intro e
      have h1 := hmin p0 hp0 hp0b
      have h2 := hrowb p0 hp0
      rw [e] at h1
      omega
    obtain ⟨m, hm, hxm, hmb⟩ : ∃ p ∈ row, x = (p : Int) ∧ colorAt s.VL p = UNVISITED := by
      rcases hor with h1 | h1
      · exact absurd h1 hx
      · exact h1
    subst hxm
    have hmN : m < N := hrowb m hm
    obtain ⟨VL', hset, hlen', hids', hcol'⟩ :=
      setColor_spec hids (k := m) (by rw [hVL]; exact hmN) VISITED
    have hidx' : index VL' (m : Int) = .ok (grayV m) := by
      rw [index_spec hids' (by rw [hlen', hVL]; exact hmN), hcol' m]
      simp [grayV]
    have hidxd : index VL' (dest : Int) =
        .ok { ID := (dest : Int), Color := colorAt VL' dest } :=
      index_spec hids' (by rw [hlen', hVL]; exact hdest)
    refine ⟨m, hm, hmb, fun p hp hpb => by have := hmin p hp hpb; omega, VL', hset,
      by rw [hlen', hVL], hids', hcol', ?_⟩
    by_cases hmd : m = dest
    · subst hmd
      simp [dfsBody, hpos, hidx, hscan, bind, Except.bind, hx, hset, hidx', grayV]
    · have hne : ¬ ((m : Int) = (dest : Int)) := by omega
      simp [dfsBody, hpos, hidx, hscan, bind, Except.bind, hx, hset, hidx', hidxd, grayV,
        hne, hmd]
  · intro hnone
    have hx : x = MaxInt32 := by
      rcases hor with h1 | ⟨p, hp, _, hpb⟩
      · exact h1
      · exact absurd ⟨p, hp, hpb⟩ hnone
    obtain ⟨VL', hset, hlen', hids', hcol'⟩ :=
      setColor_spec hids (k := t) (by rw [hVL]; exact ht) FINISHED
    have hset' : setColor s.VL s.stack.peek.ID FINISHED = .ok VL' := by
      rw [hpeek]; exact hset
    have hdrop : dropLastElem s.path = .ok s.path.dropLast := by
      have : s.path.length > 0 := List.length_pos.2 hpath
      simp [dropLastElem, this, List.dropLast_eq_take]
    refine ⟨VL', hset, by rw [hlen', hVL], hids', hcol', ?_⟩
    simp [dfsBody, hpos, hidx, hscan, bind, Except.bind, hx, hset', hdrop]

theorem numUnvisited_lt {VL : List Vertex} {k : Nat} (hk : k < VL.length)
    (hc : colorAt VL k ≠ UNVISITED) : numUnvisited VL < VL.length := by
  unfold numUnvisited
  have hsub : (Finset.range VL.length).filter (fun i => colorAt VL i = UNVISITED) ⊆
      (Finset.range VL.length).erase k := by
    intro i hi
    simp only [Finset.mem_filter, Finset.mem_range] at hi
    simp only [Finset.mem_erase, Finset.mem_range]
    exact ⟨fun e => hc (e ▸ hi.2), hi.1⟩
  have h1 := Finset.card_le_card hsub
  rw [Finset.card_erase_of_mem (Finset.mem_range.2 hk), Finset.card_range] at h1
  omega

/-- Whatever the colours, a pass through the loop of `DepthFirstSearch` keeps the shape of the
state and lowers the measure, or returns. -/
theorem dfsBody_shape_step {AdjList : List (List Nat)} {N : Nat}
    (hlen : AdjList.length = N) (hadj : ∀ row ∈ AdjList, ∀ p ∈ row, p < N)
    (hN : (N : Int) < MaxInt32) {dest : Nat} (hdest : dest < N)
    {s : DfsState} {ks : List Nat} (h : DfsShape N s ks) :
    (∃ s', dfsBody AdjList (dest : Int) s = .ok (.inl s') ∧ (∃ ks', DfsShape N s' ks') ∧
        loopMeasure s'.VL s'.stack < loopMeasure s.VL s.stack) ∨
    (∃ r, dfsBody AdjList (dest : Int) s = .ok (.inr r) ∧ r.VL.length = N ∧ IdsOk r.VL) := by
  rcases List.eq_nil_or_concat ks with hnil | ⟨init, t, hks⟩
  · right
    subst hnil
    refine ⟨{ VL := s.VL, discoveredVertex := s.discoveredVertex, path := [] }, ?_, h.len,
      h.ids⟩
    have := h.stack_eq
    simp [dfsBody, this]
  · rw [List.concat_eq_append] at hks
    subst hks
    have htN : t < N := h.bound t (by simp)
    obtain ⟨row, hrow⟩ : ∃ row, AdjList[t]? = some row := by
      have ht : t < AdjList.length := by rw [hlen]; exact htN
      exact ⟨AdjList[t], List.getElem?_eq_getElem ht⟩
    have hstack : s.stack.stack ≠ [] := by rw [h.stack_eq]; simp
    have hpeek : s.stack.peek.ID = (t : Int) := by rw [h.stack_eq, stack_peek]; rfl
    have hpath : s.path ≠ [] := by rw [h.path_eq]; simp
    obtain ⟨hpush, hpop⟩ :=
      dfsBody_expand hN hdest h.ids h.len htN hstack hpeek hpath hrow (row_bound hadj hrow)
    by_cases hex : ∃ p ∈ row, colorAt s.VL p = UNVISITED
    · obtain ⟨m, hm, hmb, _, VL', _, hlen', hids', hcol', hrun⟩ := hpush hex
      have hmN : m < N := row_bound hadj hrow m hm
      by_cases hmd : m = dest
      · right
        rw [if_pos hmd] at hrun
        exact ⟨_, hrun, hlen', hids'⟩
      · left
        rw [if_neg hmd] at hrun
        refine ⟨_, hrun, ⟨(init ++ [t]) ++ [m], ?_⟩, ?_⟩
        · constructor
          · show s.stack.add (grayV m) = _
            rw [h.stack_eq, stack_add]
          · show s.path ++ [grayV m] = _
            rw [h.path_eq]; simp
          · exact hlen'
          · exact hids'
          · intro k hk
            rcases List.mem_append.1 hk with h1 | h1
            · exact h.bound k h1
            · simp at h1; subst h1; exact hmN
        · show loopMeasure VL' (s.stack.add (grayV m)) < loopMeasure s.VL s.stack
          have := numUnvisited_drop (by rw [hlen', h.len]) hcol' VISITED_ne_UNVISITED hmb
            (by rw [h.len]; exact hmN)
          unfold loopMeasure
          rw [h.stack_eq, stack_add]
          simp
          omega
    · obtain ⟨VL', _, hlen', hids', hcol', hrun⟩ := hpop hex
      left
      refine ⟨_, hrun, ⟨init, ?_⟩, ?_⟩
      · constructor
        · show s.stack.pop = _
          rw [h.stack_eq, stack_pop]
        · show s.path.dropLast = _
          rw [h.path_eq]; simp
        · exact hlen'
        · exact hids'
        · intro k hk; exact h.bound k (by simp [hk])
      · show loopMeasure VL' s.stack.pop < loopMeasure s.VL s.stack
        have := numUnvisited_le_of_set (by rw [hlen', h.len]) hcol' FINISHED_ne_UNVISITED
        unfold loopMeasure
        rw [h.stack_eq, stack_pop]
        simp
        omega

/-- Whatever the colours on entry, the loop of `DepthFirstSearch` on a well-formed graph with
`N` vertices is left within `2 * N` passes, and `DepthFirstSearch` returns what it is left
with; the vertex list it leaves has the same length and IDs. -/
theorem DepthFirstSearch_loop (g : Graph) (hwf : WellFormed g) (src dest : Nat)
    (hsrc : src < g.VertexList.length) (hdest : dest < g.VertexList.length) :
    ∃ r VL v, setColor g.VertexList (src : Int) VISITED = .ok VL ∧
      index VL (src : Int) = .ok v ∧
      DepthFirstSearch g (src : Int) (dest : Int) = .ok r ∧
      r.VL.length = g.VertexList.length ∧ IdsOk r.VL ∧
      (src ≠ dest → ∀ fuel, 2 * g.VertexList.length ≤ fuel →
        iterate (dfsBody g.AdjList (dest : Int)) fuel
          { VL := VL, stack := (vertexStack.mk []).add v, discoveredVertex := [v],
            path := [v] } = .ok r) := by
  obtain ⟨VL1, hset, hlen1, hids1, hcol1⟩ := setColor_spec hwf.idsOk hsrc VISITED
  have hidx : index VL1 (src : Int) = .ok (grayV src) := by
    rw [index_spec hids1 (by omega), hcol1 src]; simp [grayV]
  by_cases hsd : src = dest
  · subst hsd
    refine ⟨{ VL := VL1, discoveredVertex := [grayV src], path := [grayV src] }, VL1,
      grayV src, hset, hidx, ?_, hlen1, hids1, fun h => absurd rfl h⟩
    simp [DepthFirstSearch, hset, hidx, bind, Except.bind]
  · have hshape : DfsShape g.VertexList.length
        { VL := VL1, stack := (vertexStack.mk []).add (grayV src),
          discoveredVertex := [grayV src], path := [grayV src] } [src] :=
      ⟨by simp [vertexStack.add], rfl, hlen1, hids1, fun k hk => by simp at hk; omega⟩
    have hμ : loopMeasure VL1 ((vertexStack.mk []).add (grayV src)) <
        2 * g.VertexList.length := by
      have h1 : numUnvisited VL1 < VL1.length :=
        numUnvisited_lt (k := src) (by omega) (by rw [hcol1 src]; simp [VISITED_ne_UNVISITED])
      unfold loopMeasure
      simp [vertexStack.add]
      omega
    obtain ⟨r, hr, hrl, hri⟩ := iterate_spec (dfsBody g.AdjList (dest : Int))
      (fun s => ∃ ks, DfsShape g.VertexList.length s ks)
      (fun r => r.VL.length = g.VertexList.length ∧ IdsOk r.VL)
      (fun s => loopMeasure s.VL s.stack)
      (fun s ⟨ks, hks⟩ => dfsBody_shape_step hwf.2.1 hwf.2.2.1 hwf.lt_max hdest hks)
      (2 * g.VertexList.length) _ ⟨[src], hshape⟩ hμ
    have hall : ∀ fuel, 2 * g.VertexList.length ≤ fuel →
        iterate (dfsBody g.AdjList (dest : Int)) fuel
          { VL := VL1, stack := (vertexStack.mk []).add (grayV src),
            discoveredVertex := [grayV src], path := [grayV src] } = .ok r :=
      fun fuel hf => iterate_mono _ _ _ hr fuel hf
    refine ⟨r, VL1, grayV src, hset, hidx, ?_, hrl, hri, fun _ => hall⟩
    have hne : ¬ ((src : Int) = (dest : Int)) := by omega
    simp only [DepthFirstSearch, hset, hidx, bind, Except.bind, hne, if_false]
    exact hall _ (by unfold loopBound; omega)

/-! ## Depth-first search: further results -/

theorem idsOk_of_map_eq {VL VL0 : List Vertex} (h0 : IdsOk VL0)
    (h : VL.map Vertex.ID = VL0.map Vertex.ID) : IdsOk VL ∧ VL.length = VL0.length := by
  have hl : VL.length = VL0.length := by
    have := congrArg List.length h
    simpa using this
  refine ⟨?_, hl⟩
  intro i v hv
  have hi : i < VL.length := (List.getElem?_eq_some.1 hv).1
  have h1 : (VL.map Vertex.ID)[i]? = some v.ID := by simp [hv]
  rw [h] at h1
  simp only [List.getElem?_map, Option.map_eq_some'] at h1
  obtain ⟨w, hw, hwid⟩ := h1
  rw [← hwid]
  exact h0 i w hw

theorem eq_freshVertices {VL : List Vertex} (hids : IdsOk VL) (hun : AllUnvisited VL) :
    VL = freshVertices VL.length := by
  apply List.ext_getElem?
  intro n
  by_cases hn : n < VL.length
  · rw [getElem?_spec hids hn, freshVertices_getElem? hn, hun.color hn]
  · rw [List.getElem?_eq_none (by omega),
      List.getElem?_eq_none (by rw [freshVertices_length]; omega)]

theorem ResetColors_allUnvisited (VL : List Vertex) : AllUnvisited (ResetColors VL) := by
  intro v hv
  simp only [ResetColors, List.mem_map] at hv
  obtain ⟨a, _, rfl⟩ := hv
  rfl

theorem ResetColors_map_ID (VL : List Vertex) :
    (ResetColors VL).map Vertex.ID = VL.map Vertex.ID := by
  simp [ResetColors, List.map_map, Function.comp_def]

/-- C13: on a well-formed graph, whatever its edges and colours, `DepthFirstSearch(s, s)` for a
vertex ID `s` returns before its loop: the only write is the colour `VISITED` of `s`, and both
returned sequences hold the single vertex `s`. -/
theorem DepthFirstSearch_same (g : Graph) (hwf : WellFormed g) (s : Nat)
    (hs : s < g.VertexList.length) :
    ∃ VL, setColor g.VertexList (s : Int) VISITED = .ok VL ∧
      DepthFirstSearch g (s : Int) (s : Int) =
        .ok { VL := VL, discoveredVertex := [{ ID := (s : Int), Color := VISITED }],
              path := [{ ID := (s : Int), Color := VISITED }] } := by
  obtain ⟨VL1, hset, _, hids1, hcol1⟩ := setColor_spec hwf.idsOk hs VISITED
  have hidx : index VL1 (s : Int) = .ok (grayV s) := by
    rw [index_spec hids1 (by omega), hcol1 s]; simp [grayV]
  refine ⟨VL1, hset, ?_⟩
  simp [DepthFirstSearch, hset, hidx, bind, Except.bind, grayV]

/-- Instance of C13 on the triangle, at vertex 1. -/
theorem DepthFirstSearch_same_witness :
    WellFormed triangleGraph ∧
    ∃ VL, setColor triangleGraph.VertexList ((1 : Nat) : Int) VISITED = .ok VL ∧
      DepthFirstSearch triangleGraph ((1 : Nat) : Int) ((1 : Nat) : Int) =
        .ok { VL := VL, discoveredVertex := [{ ID := ((1 : Nat) : Int), Color := VISITED }],
              path := [{ ID := ((1 : Nat) : Int), Color := VISITED }] } :=
  ⟨by decide, DepthFirstSearch_same triangleGraph (by decide) 1 (by decide)⟩

/-- C14: on a well-formed graph with every vertex `UNVISITED` and for vertex IDs `src` and
`dest`, running `DepthFirstSearch`, then `ResetColors`, then `DepthFirstSearch` again gives the
same discovered and path sequences as the first call; `ResetColors` leaves every vertex
`UNVISITED` and changes no ID. -/
theorem DepthFirstSearch_repeatable (g : Graph) (hwf : WellFormed g)
    (hun : AllUnvisited g.VertexList) (src dest : Nat)
    (hsrc : src < g.VertexList.length) (hdest : dest < g.VertexList.length) :
    ∃ r1 r2, DepthFirstSearch g (src : Int) (dest : Int) = .ok r1 ∧
      DepthFirstSearch { g with VertexList := ResetColors r1.VL } (src : Int) (dest : Int) =
        .ok r2 ∧
      r2.discoveredVertex = r1.discoveredVertex ∧ r2.path = r1.path ∧
      AllUnvisited (ResetColors r1.VL) ∧
      (ResetColors r1.VL).map Vertex.ID = g.VertexList.map Vertex.ID := by
  obtain ⟨r1, hrun, hpost⟩ := DepthFirstSearch_spec g hwf hun src dest hsrc hdest
  obtain ⟨_, _, _, _, _, _, _, _, _, hlen, hids⟩ := hpost
  have hreset : ResetColors r1.VL = g.VertexList := by
    rw [eq_freshVertices (ResetColors_ids hids) (ResetColors_allUnvisited _),
      ResetColors_length, hlen]
    exact (eq_freshVertices hwf.idsOk hun).symm
  refine ⟨r1, r1, hrun, ?_, rfl, rfl, ResetColors_allUnvisited _, by rw [hreset]⟩
  rw [hreset]
  exact hrun

/-- Instance of C14 on the triangle, searching from vertex 0 for vertex 2. -/
theorem DepthFirstSearch_repeatable_witness :
    WellFormed triangleGraph ∧ AllUnvisited triangleGraph.VertexList ∧
    ∃ r1 r2, DepthFirstSearch triangleGraph ((0 : Nat) : Int) ((2 : Nat) : Int) = .ok r1 ∧
      DepthFirstSearch { triangleGraph with VertexList := ResetColors r1.VL }
        ((0 : Nat) : Int) ((2 : Nat) : Int) = .ok r2 ∧
      r2.discoveredVertex = r1.discoveredVertex ∧ r2.path = r1.path ∧
      AllUnvisited (ResetColors r1.VL) ∧
      (ResetColors r1.VL).map Vertex.ID = triangleGraph.VertexList.map Vertex.ID :=
  ⟨by decide, by decide,
    DepthFirstSearch_repeatable triangleGraph (by decide) (by decide) 0 2 (by decide)
      (by decide)⟩

/-- C16: in a pass through the loop of `DepthFirstSearch` on a well-formed graph, from a state
whose vertex list holds the vertices of the graph (whatever their colours), whose stack has the
vertex `t` on top and whose path is not empty: if row `t` of the adjacency list has an
`UNVISITED` vertex, the one of smallest ID among them is coloured `VISITED`, pushed, and
appended to discovered and path (and returned with when it is `dest`); otherwise `t` is coloured
`FINISHED` and popped from the stack and the path. The pass is the same for every reordering of
row `t`. -/
theorem dfsBody_lowest_first (g : Graph) (hwf : WellFormed g) (dest : Nat)
    (hdest : dest < g.VertexList.length) (s : DfsState)
    (hVL : s.VL.map Vertex.ID = g.VertexList.map Vertex.ID) (t : Nat)
    (ht : t < g.VertexList.length) (hstack : s.stack.stack ≠ [])
    (hpeek : s.stack.peek.ID = (t : Int)) (hpath : s.path ≠ []) :
    ∃ row, g.AdjList[t]? = some row ∧
      ((∃ p ∈ row, colorAt s.VL p = UNVISITED) →
        ∃ m ∈ row, colorAt s.VL m = UNVISITED ∧
          (∀ p ∈ row, colorAt s.VL p = UNVISITED → m ≤ p) ∧
          ∃ VL', setColor s.VL (m : Int) VISITED = .ok VL' ∧
            dfsBody g.AdjList (dest : Int) s = .ok (if m = dest then
              .inr { VL := VL', discoveredVertex := s.discoveredVertex ++ [grayV m],
                     path := s.path ++ [grayV m] }
            else
              .inl { VL := VL', stack := s.stack.add (grayV m),
                     discoveredVertex := s.discoveredVertex ++ [grayV m],
                     path := s.path ++ [grayV m] })) ∧
      ((¬ ∃ p ∈ row, colorAt s.VL p = UNVISITED) →
        ∃ VL', setColor s.VL (t : Int) FINISHED = .ok VL' ∧
          dfsBody g.AdjList (dest : Int) s = .ok (.inl
            { VL := VL', stack := s.stack.pop, discoveredVertex := s.discoveredVertex,
              path := s.path.dropLast })) ∧
      (∀ (AdjList' : List (List Nat)) (row' : List Nat), AdjList'[t]? = some row' →
        row'.Perm row →
        dfsBody AdjList' (dest : Int) s = dfsBody g.AdjList (dest : Int) s) := by
  obtain ⟨hids, hlen⟩ := idsOk_of_map_eq hwf.idsOk hVL
  obtain ⟨row, hrow⟩ : ∃ row, g.AdjList[t]? = some row := by
    have h1 : t < g.AdjList.length := by rw [hwf.2.1]; exact ht
    exact ⟨g.AdjList[t], List.getElem?_eq_getElem h1⟩
  have hrowb : ∀ p ∈ row, p < g.VertexList.length := row_bound hwf.2.2.1 hrow
  obtain ⟨hpush, hpop⟩ :=
    dfsBody_expand hwf.lt_max hdest hids hlen ht hstack hpeek hpath hrow hrowb
  refine ⟨row, hrow, ?_, ?_, ?_⟩
  · intro hex
    obtain ⟨m, hm, hmb, hmin, VL', hset, _, _, _, hrun⟩ := hpush hex
    exact ⟨m, hm, hmb, hmin, VL', hset, hrun⟩
  · intro hex
    obtain ⟨VL', hset, _, _, _, hrun⟩ := hpop hex
    exact ⟨VL', hset, hrun⟩
  · intro AdjList' row' hrow' hperm
    have hrowb' : ∀ p ∈ row', p < g.VertexList.length :=
      fun p hp => hrowb p (hperm.mem_iff.1 hp)
    obtain ⟨hpush', hpop'⟩ :=
      dfsBody_expand hwf.lt_max hdest hids hlen ht hstack hpeek hpath hrow' hrowb'
    by_cases hex : ∃ p ∈ row, colorAt s.VL p = UNVISITED
    · have hex' : ∃ p ∈ row', colorAt s.VL p = UNVISITED := by
        obtain ⟨p, hp, hpb⟩ := hex
        exact ⟨p, hperm.mem_iff.2 hp, hpb⟩
      obtain ⟨m, hm, hmb, hmin, VL1, hset, _, _, _, hrun⟩ := hpush hex
      obtain ⟨m', hm', hmb', hmin', VL2, hset', _, _, _, hrun'⟩ := hpush' hex'
      have hmm : m' = m := by
        have h1 := hmin m' (hperm.mem_iff.1 hm') hmb'
        have h2 := hmin' m (hperm.mem_iff.2 hm) hmb
        omega
      subst hmm
      rw [hset] at hset'
      cases hset'
      rw [hrun, hrun']
    · have hex' : ¬ ∃ p ∈ row', colorAt s.VL p = UNVISITED := by
        rintro ⟨p, hp, hpb⟩
        exact hex ⟨p, hperm.mem_iff.1 hp, hpb⟩
      obtain ⟨VL1, hset, _, _, _, hrun⟩ := hpop hex
      obtain ⟨VL2, hset', _, _, _, hrun'⟩ := hpop' hex'
      rw [hset] at hset'
      cases hset'
      rw [hrun, hrun']

/-- Instance of C16: vertex 0 on top of the stack in a graph whose row 0 is `[2, 1]`. -/
theorem dfsBody_lowest_first_witness :
    WellFormed { triangleGraph with AdjList := [[2, 1], [2], [0]] } ∧
    ∃ row, ([[2, 1], [2], [0]] : List (List Nat))[0]? = some row ∧
      ((∃ p ∈ row, colorAt (ResetColors triangleGraph.VertexList) p = UNVISITED) →
        ∃ m ∈ row, colorAt (ResetColors triangleGraph.VertexList) m = UNVISITED ∧
          (∀ p ∈ row, colorAt (ResetColors triangleGraph.VertexList) p = UNVISITED → m ≤ p) ∧
          ∃ VL', setColor (ResetColors triangleGraph.VertexList) (m : Int) VISITED = .ok VL' ∧
            dfsBody [[2, 1], [2], [0]] ((2 : Nat) : Int)
              { VL := ResetColors triangleGraph.VertexList, stack := { stack := [grayV 0] },
                discoveredVertex := [grayV 0], path := [grayV 0] } = .ok (if m = 2 then
              .inr { VL := VL', discoveredVertex := [grayV 0] ++ [grayV m],
                     path := [grayV 0] ++ [grayV m] }
            else
              .inl { VL := VL', stack := (vertexStack.mk [grayV 0]).add (grayV m),
                     discoveredVertex := [grayV 0] ++ [grayV m],
                     path := [grayV 0] ++ [grayV m] })) ∧
      ((¬ ∃ p ∈ row, colorAt (ResetColors triangleGraph.VertexList) p = UNVISITED) →
        ∃ VL', setColor (ResetColors triangleGraph.VertexList) ((0 : Nat) : Int) FINISHED =
            .ok VL' ∧
          dfsBody [[2, 1], [2], [0]] ((2 : Nat) : Int)
              { VL := ResetColors triangleGraph.VertexList, stack := { stack := [grayV 0] },
                discoveredVertex := [grayV 0], path := [grayV 0] } = .ok (.inl
            { VL := VL', stack := (vertexStack.mk [grayV 0]).pop,
              discoveredVertex := [grayV 0], path := [grayV 0].dropLast })) ∧
      (∀ (AdjList' : List (List Nat)) (row' : List Nat), AdjList'[0]? = some row' →
        row'.Perm row →
        dfsBody AdjList' ((2 : Nat) : Int)
            { VL := ResetColors triangleGraph.VertexList, stack := { stack := [grayV 0] },
              discoveredVertex := [grayV 0], path := [grayV 0] } =
          dfsBody [[2, 1], [2], [0]] ((2 : Nat) : Int)
            { VL := ResetColors triangleGraph.VertexList, stack := { stack := [grayV 0] },
              discoveredVertex := [grayV 0], path := [grayV 0] }) :=
  ⟨by decide,
    dfsBody_lowest_first { triangleGraph with AdjList := [[2, 1], [2], [0]] } (by decide) 2
      (by decide)
      { VL := ResetColors triangleGraph.VertexList, stack := { stack := [grayV 0] },
        discoveredVertex := [grayV 0], path := [grayV 0] }
      (by decide) 0 (by decide) (by decide) (by decide) (by decide)⟩

/-- C18: on a well-formed graph with `N` vertices, for vertex IDs `src` and `dest` and whatever
the colours on entry, `DepthFirstSearch` returns: its loop, entered with `src` coloured and on
the stack, is left within `2 * N` passes (every bound from `2 * N` on gives the same result),
each pass colouring and pushing an `UNVISITED` vertex or popping the stack. -/
theorem DepthFirstSearch_terminates (g : Graph) (hwf : WellFormed g) (src dest : Nat)
    (hsrc : src < g.VertexList.length) (hdest : dest < g.VertexList.length) :
    ∃ r VL v, setColor g.VertexList (src : Int) VISITED = .ok VL ∧
      index VL (src : Int) = .ok v ∧
      DepthFirstSearch g (src : Int) (dest : Int) = .ok r ∧
      (src ≠ dest → ∀ fuel, 2 * g.VertexList.length ≤ fuel →
        iterate (dfsBody g.AdjList (dest : Int)) fuel
          { VL := VL, stack := (vertexStack.mk []).add v, discoveredVertex := [v],
            path := [v] } = .ok r) := by
  obtain ⟨r, VL, v, hset, hidx, hrun, _, _, hloop⟩ :=
    DepthFirstSearch_loop g hwf src dest hsrc hdest
  exact ⟨r, VL, v, hset, hidx, hrun, hloop⟩

/-- Instance of C18 on the triangle entered with vertex 0 `FINISHED` and vertex 1 `VISITED`. -/
theorem DepthFirstSearch_terminates_witness :
    WellFormed { triangleGraph with
      VertexList := [⟨0, FINISHED⟩, ⟨1, VISITED⟩, ⟨2, UNVISITED⟩] } ∧
    ∃ r VL v, setColor [⟨0, FINISHED⟩, ⟨1, VISITED⟩, ⟨2, UNVISITED⟩] ((0 : Nat) : Int)
        VISITED = .ok VL ∧
      index VL ((0 : Nat) : Int) = .ok v ∧
      DepthFirstSearch { triangleGraph with
        VertexList := [⟨0, FINISHED⟩, ⟨1, VISITED⟩, ⟨2, UNVISITED⟩] }
        ((0 : Nat) : Int) ((2 : Nat) : Int) = .ok r ∧
      ((0 : Nat) ≠ 2 → ∀ fuel, 2 * 3 ≤ fuel →
        iterate (dfsBody triangleGraph.AdjList ((2 : Nat) : Int)) fuel
          { VL := VL, stack := (vertexStack.mk []).add v, discoveredVertex := [v],
            path := [v] } = .ok r) :=
  ⟨by decide,
    DepthFirstSearch_terminates
      { triangleGraph with VertexList := [⟨0, FINISHED⟩, ⟨1, VISITED⟩, ⟨2, UNVISITED⟩] }
      (by decide) 0 2 (by decide) (by decide)⟩

/-- C20: on a well-formed graph entered with every vertex `UNVISITED` and for vertex IDs `src`
and `dest`, the discovered sequence returned by `DepthFirstSearch` starts with `src`, holds no
vertex ID twice, holds only vertices reachable from `src`, and has the returned path as a
subsequence; when the search is exhausted (the returned path is empty) the discovered IDs are
exactly the vertices reachable from `src`. -/
theorem DepthFirstSearch_discovered (g : Graph) (hwf : WellFormed g)
    (hun : AllUnvisited g.VertexList) (src dest : Nat)
    (hsrc : src < g.VertexList.length) (hdest : dest < g.VertexList.length) :
    ∃ r, DepthFirstSearch g (src : Int) (dest : Int) = .ok r ∧
      r.discoveredVertex.head?.map Vertex.ID = some (src : Int) ∧
      (r.discoveredVertex.map Vertex.ID).Nodup ∧
      (∀ v ∈ r.discoveredVertex, ∃ i : Nat, v.ID = (i : Int) ∧ Reachable g.AdjList src i) ∧
      r.path.Sublist r.discoveredVertex ∧
      (r.path = [] → ∀ i : Nat,
        (Reachable g.AdjList src i ↔ (i : Int) ∈ r.discoveredVertex.map Vertex.ID)) := by
  obtain ⟨r, hrun, hpost⟩ := DepthFirstSearch_spec g hwf hun src dest hsrc hdest
  obtain ⟨ks, ds, hpath, hdisc, hdh, hdnd, hreach, hsub, hcase, _, _⟩ := hpost
  have hmemid : ∀ i : Nat, (i : Int) ∈ (ds.map grayV).map Vertex.ID ↔ i ∈ ds := by
    intro i
    simp only [List.map_map, List.mem_map, Function.comp_apply, grayV]
    constructor
    · rintro ⟨a, ha, e⟩
      have : a = i := by omega
      exact this ▸ ha
    · intro h; exact ⟨i, h, rfl⟩
  refine ⟨r, hrun, ?_, ?_, ?_, ?_, ?_⟩
  · rw [hdisc]
    simp [List.head?_map, hdh, grayV]
  · rw [hdisc, List.map_map]
    exact hdnd.map (fun a b hab => by simpa [grayV] using hab)
  · intro v hv
    rw [hdisc] at hv
    obtain ⟨i, hi, rfl⟩ := List.mem_map.1 hv
    exact ⟨i, rfl, hreach i hi⟩
  · rw [hpath, hdisc]
    exact hsub.map grayV
  · intro hnil i
    rw [hdisc, hmemid i]
    rcases hcase with ⟨hh, _, _, _⟩ | ⟨_, _, hall⟩
    · rw [hpath] at hnil
      cases ks with
      | nil => simp at hh
      | cons a rest => simp at hnil
    · exact ⟨hall i, hreach i⟩

/-- Instance of C20 on the chain, searching from vertex 1 for vertex 0. -/
theorem DepthFirstSearch_discovered_witness :
    WellFormed chainGraph ∧ AllUnvisited chainGraph.VertexList ∧
    ∃ r, DepthFirstSearch chainGraph ((1 : Nat) : Int) ((0 : Nat) : Int) = .ok r ∧
      r.discoveredVertex.head?.map Vertex.ID = some ((1 : Nat) : Int) ∧
      (r.discoveredVertex.map Vertex.ID).Nodup ∧
      (∀ v ∈ r.discoveredVertex, ∃ i : Nat, v.ID = (i : Int) ∧
        Reachable chainGraph.AdjList 1 i) ∧
      r.path.Sublist r.discoveredVertex ∧
      (r.path = [] → ∀ i : Nat,
        (Reachable chainGraph.AdjList 1 i ↔ (i : Int) ∈ r.discoveredVertex.map Vertex.ID)) :=
  ⟨by decide, by decide,
    DepthFirstSearch_discovered chainGraph (by decide) (by decide) 1 0 (by decide)
      (by decide)⟩

/-! ## Construction on tokens that are not valid -/

theorem addVertices_error (tokens : List String) :
    ∀ (VL : List Vertex) (e : GoError), (addVertices tokens VL).2 = some e →
      e = GoError.InvalidVertex ∧ ∃ t ∈ tokens, Atoi t = none := by
  induction tokens with
  | nil => intro VL e h; simp [addVertices] at h
  | cons t rest ih =>
    intro VL e h
    unfold addVertices at h
    cases ht : Atoi t with
    | none =>
      rw [ht] at h
      simp only [Option.some.injEq] at h
      exact ⟨h.symm, t, by simp, ht⟩
    | some val =>
      rw [ht] at h
      simp only at h
      split at h
      · obtain ⟨h1, t', ht', h2⟩ := ih _ e h
        exact ⟨h1, t', by simp [ht'], h2⟩
      · obtain ⟨h1, t', ht', h2⟩ := ih _ e h
        exact ⟨h1, t', by simp [ht'], h2⟩

theorem addVertices_all_parse {tokens : List String} (h : ∀ t ∈ tokens, Atoi t ≠ none)
    (VL : List Vertex) : (addVertices tokens VL).2 = none := by
  cases hr : (addVertices tokens VL).2 with
  | none => rfl
  | some e =>
    obtain ⟨_, t, ht, hnone⟩ := addVertices_error tokens VL e hr
    exact absurd hnone (h t ht)

/-- What `SetUpVertices` leaves when a token does not parse: the vertex list the loop has
reached, unsorted, and the other fields as they were. -/
theorem SetUpVertices_invalid {tokens : List String} (h : ∃ t ∈ tokens, Atoi t = none)
    (g : Graph) :
    SetUpVertices g tokens =
      ({ g with VertexList := (addVertices tokens g.VertexList).1 },
        some GoError.InvalidVertex) := by
  have hadd := addVertices_invalid tokens g.VertexList h
  unfold SetUpVertices
  cases hr : addVertices tokens g.VertexList with
  | mk VL e =>
    rw [hr] at hadd
    simp only at hadd
    subst hadd
    rfl

theorem SetUpVertices_all_parse {tokens : List String} (h : ∀ t ∈ tokens, Atoi t ≠ none)
    (g : Graph) :
    SetUpVertices g tokens =
      ({ g with VertexList := sortByID (addVertices tokens g.VertexList).1 }, none) := by
  have hadd := addVertices_all_parse h g.VertexList
  unfold SetUpVertices
  cases hr : addVertices tokens g.VertexList with
  | mk VL e =>
    rw [hr] at hadd
    simp only at hadd
    subst hadd
    rfl

theorem addressOf_fault {VL : List Vertex} {dest : Int} {f : Fault}
    (h : addressOf VL dest = .error f) : f = Fault.indexOutOfRange := by
  unfold addressOf at h
  split at h
  · cases h
  · cases h; rfl

theorem modifyAt_fault {α : Type} {xs : List α} {i : Int} {g : α → α} {f : Fault}
    (h : modifyAt xs i g = .error f) : f = Fault.indexOutOfRange := by
  unfold modifyAt at h
  split at h
  · split at h
    · cases h
    · cases h; rfl
  · cases h; rfl

/-- Every fault of the loop of `SetUpAdjacencyList` is an index out of range. -/
theorem addPairs_fault (VL : List Vertex) : ∀ (n : Nat) (tokens : List String)
    (adj : List (List Nat)) (f : Fault), tokens.length ≤ n →
    addPairs VL tokens adj = .error f → f = Fault.indexOutOfRange := by
  intro n
  induction n using Nat.strong_induction_on with
  | _ n ih =>
    intro tokens adj f hlen h
    match tokens, hlen, h with
    | [], _, h => simp [addPairs] at h
    | [a], _, h =>
      unfold addPairs at h
      split at h
      · cases h
      · cases h; rfl
    | a :: b :: rest, hlen, h =>
      unfold addPairs at h
      cases ha : Atoi a with
      | none => rw [ha] at h; cases h
      | some src =>
        cases hb : Atoi b with
        | none => rw [ha, hb] at h; cases h
        | some dest =>
          rw [ha, hb] at h
          simp only [bind, Except.bind] at h
          cases h1 : addressOf VL dest with
          | error e => rw [h1] at h; cases h; exact addressOf_fault h1
          | ok p =>
            rw [h1] at h
            simp only at h
            cases h2 : modifyAt adj src (fun row => row ++ [p]) with
            | error e => rw [h2] at h; cases h; exact modifyAt_fault h2
            | ok adj1 =>
              rw [h2] at h
              simp only [List.length_cons] at hlen
              exact ih rest.length (by omega) rest adj1 f (le_refl _) h

/-- On tokens that all parse the loop of `SetUpAdjacencyList` returns no error value. -/
theorem addPairs_no_error (VL : List Vertex) : ∀ (n : Nat) (tokens : List String)
    (adj adj' : List (List Nat)) (e : Option GoError), tokens.length ≤ n →
    (∀ t ∈ tokens, Atoi t ≠ none) →
    addPairs VL tokens adj = .ok (adj', e) → e = none ∧ tokens.length % 2 = 0 := by
  intro n
  induction n using Nat.strong_induction_on with
  | _ n ih =>
    intro tokens adj adj' e hlen hparse h
    match tokens, hlen, hparse, h with
    | [], _, _, h => simp [addPairs] at h; exact ⟨h.2.symm, rfl⟩
    | [a], _, hparse, h =>
      unfold addPairs at h
      split at h
      · rename_i hn; exact absurd hn (hparse a (by simp))
      · cases h
    | a :: b :: rest, hlen, hparse, h =>
      unfold addPairs at h
      cases ha : Atoi a with
      | none => exact absurd ha (hparse a (by simp))
      | some src =>
        cases hb : Atoi b with
        | none => exact absurd hb (hparse b (by simp))
        | some dest =>
          rw [ha, hb] at h
          simp only [bind, Except.bind] at h
          cases h1 : addressOf VL dest with
          | error f => rw [h1] at h; cases h
          | ok p =>
            rw [h1] at h
            simp only at h
            cases h2 : modifyAt adj src (fun row => row ++ [p]) with
            | error f => rw [h2] at h; cases h
            | ok adj1 =>
              rw [h2] at h
              simp only [List.length_cons] at hlen ⊢
              obtain ⟨h3, h4⟩ := ih rest.length (by omega) rest adj1 adj' e (le_refl _)
                (fun t ht => hparse t (by simp [ht])) h
              exact ⟨h3, by omega⟩

/-- On an odd number of tokens that all parse, the loop of `SetUpAdjacencyList` ends in an
index out of range. -/
theorem addPairs_odd (VL : List Vertex) {tokens : List String} (hodd : tokens.length % 2 = 1)
    (hparse : ∀ t ∈ tokens, Atoi t ≠ none) (adj : List (List Nat)) :
    addPairs VL tokens adj = .error Fault.indexOutOfRange := by
  cases h : addPairs VL tokens adj with
  | error f => rw [addPairs_fault VL _ tokens adj f (le_refl _) h]
  | ok r =>
    obtain ⟨adj', e⟩ := r
    have := (addPairs_no_error VL _ tokens adj adj' e (le_refl _) hparse h).2
    omega

/-- What the loop of `SetUpVertices` adds to the vertex list: one `UNVISITED` vertex for each
new integer parsed before the first token that does not parse. -/
theorem addVertices_grow (tokens : List String) :
    ∀ (VL : List Vertex), ∃ new, (addVertices tokens VL).1 = VL ++ new ∧
      (new.map Vertex.ID).Nodup ∧
      (∀ x ∈ new, x.Color = UNVISITED ∧ x.ID ∉ VL.map Vertex.ID ∧
        ∃ t ∈ tokens.takeWhile (fun t => (Atoi t).isSome), Atoi t = some x.ID) ∧
      (∀ t ∈ tokens.takeWhile (fun t => (Atoi t).isSome), ∀ v, Atoi t = some v →
        v ∈ ((addVertices tokens VL).1).map Vertex.ID) := by
  induction tokens with
  | nil => intro VL; exact ⟨[], by simp [addVertices], by simp, by simp, by simp⟩
  | cons t rest ih =>
    intro VL
    cases ht : Atoi t with
    | none =>
      refine ⟨[], by simp [addVertices, ht], by simp, by simp, ?_⟩
      simp [List.takeWhile_cons, ht]
    | some val =>
      have htake : (t :: rest).takeWhile (fun t => (Atoi t).isSome) =
          t :: rest.takeWhile (fun t => (Atoi t).isSome) := by
        simp [List.takeWhile_cons, ht]
      rw [htake]
      by_cases hc : ContainsVertexID VL val = true
      · obtain ⟨new, h1, h2, h3, h4⟩ := ih VL
        have hrun : addVertices (t :: rest) VL = addVertices rest VL := by
          simp [addVertices, ht, hc]
        rw [hrun]
        refine ⟨new, h1, h2, ?_, ?_⟩
        · intro x hx
          obtain ⟨a, b, t', ht', c⟩ := h3 x hx
          exact ⟨a, b, t', List.mem_cons_of_mem _ ht', c⟩
        · intro t' ht' v hv
          rcases List.mem_cons.1 ht' with e | e
          · subst e
            rw [ht] at hv
            cases hv
            rw [h1, List.map_append]
            exact List.mem_append_left _ ((ContainsVertexID_iff VL val).1 hc)
          · exact h4 t' e v hv
      · have hna : val ∉ VL.map Vertex.ID := fun h => hc ((ContainsVertexID_iff VL val).2 h)
        obtain ⟨new, h1, h2, h3, h4⟩ := ih (VL ++ [{ ID := val, Color := UNVISITED }])
        have hrun : addVertices (t :: rest) VL =
            addVertices rest (VL ++ [{ ID := val, Color := UNVISITED }]) := by
          simp [addVertices, ht, hc]
        rw [hrun]
        refine ⟨{ ID := val, Color := UNVISITED } :: new, by rw [h1]; simp, ?_, ?_, ?_⟩
        · rw [List.map_cons, List.nodup_cons]
          refine ⟨?_, h2⟩
          intro hmem
          obtain ⟨x, hx, hxid⟩ := List.mem_map.1 hmem
          have := (h3 x hx).2.1
          apply this
          rw [hxid]
          simp
        · intro x hx
          rcases List.mem_cons.1 hx with e | e
          · subst e
            exact ⟨rfl, hna, t, by simp, ht⟩
          · obtain ⟨a, b, t', ht', c⟩ := h3 x e
            refine ⟨a, ?_, t', List.mem_cons_of_mem _ ht', c⟩
            intro hmem
            apply b
            rw [List.map_append]
            exact List.mem_append_left _ hmem
        · intro t' ht' v hv
          rcases List.mem_cons.1 ht' with e | e
          · subst e
            rw [ht] at hv
            cases hv
            rw [h1]
            simp
          · exact h4 t' e v hv

/-- A list of integers whose distinct values all lie in `0 .. N-1`, `N` being their number,
holds every value of `0 .. N-1`. -/
theorem exists_out_of_range {vals : List Int}
    (hbad : ¬ ∀ v : Int, v ∈ vals ↔ (0 ≤ v ∧ v < (vals.dedup.length : Int))) :
    ∃ v ∈ vals, ¬ (0 ≤ v ∧ v < (vals.dedup.length : Int)) := by
  by_contra hcon
  push_neg at hcon
  apply hbad
  intro v
  refine ⟨fun hv => hcon v hv, ?_⟩
  rintro ⟨h0, h1⟩
  have hsub : vals.toFinset ⊆ (Finset.range vals.dedup.length).image (fun i : Nat => (i : Int)) := by
    intro x hx
    have hx' := hcon x (List.mem_toFinset.1 hx)
    simp only [Finset.mem_image, Finset.mem_range]
    exact ⟨x.toNat, by omega, by omega⟩
  have hcard : ((Finset.range vals.dedup.length).image (fun i : Nat => (i : Int))).card ≤
      vals.toFinset.card := by
    rw [Finset.card_image_of_injective _ (fun a b hab => by simpa using hab),
      Finset.card_range, List.card_toFinset]
  have heq := Finset.eq_of_subset_of_card_le hsub hcard
  have : v ∈ vals.toFinset := by
    rw [heq]
    simp only [Finset.mem_image, Finset.mem_range]
    exact ⟨v.toNat, by omega, by omega⟩
  exact List.mem_toFinset.1 this

/-- The loop of `SetUpAdjacencyList` on an even number of tokens that all parse, one of them to
a value that is no position of the vertex list: an index out of range. -/
theorem addPairs_out_of_range (VL : List Vertex) : ∀ (n : Nat) (tokens : List String)
    (vals : List Int) (adj : List (List Nat)), tokens.length = 2 * n →
    tokens.map Atoi = vals.map some → adj.length = VL.length →
    (∃ v ∈ vals, ¬ (0 ≤ v ∧ v < (VL.length : Int))) →
    addPairs VL tokens adj = .error Fault.indexOutOfRange := by
  intro n
  induction n with
  | zero =>
    intro tokens vals adj hlen hmap _ hbad
    have ht : tokens = [] := List.length_eq_zero.1 (by omega)
    subst ht
    cases vals with
    | nil => obtain ⟨v, hv, _⟩ := hbad; simp at hv
    | cons a rest => simp at hmap
  | succ n ih =>
    intro tokens vals adj hlen hmap hadj hbad
    match tokens, vals, hlen, hmap, hbad with
    | [], _, hlen, _, _ => simp at hlen
    | [_], _, hlen, _, _ => simp at hlen; omega
    | a :: b :: rest, [], _, hmap, _ => simp at hmap
    | a :: b :: rest, [_], _, hmap, _ => simp at hmap
    | a :: b :: rest, va :: vb :: vrest, hlen, hmap, hbad =>
      simp only [List.map_cons, List.cons.injEq] at hmap
      obtain ⟨ha, hb, hrest⟩ := hmap
      unfold addPairs
      rw [ha, hb]
      simp only [bind, Except.bind]
      cases h1 : addressOf VL vb with
      | error e => rw [addressOf_fault h1]
      | ok p =>
        simp only
        cases h2 : modifyAt adj va (fun row => row ++ [p]) with
        | error e => rw [modifyAt_fault h2]
        | ok adj1 =>
          simp only
          have hvb : 0 ≤ vb ∧ vb < (VL.length : Int) := by
            unfold addressOf at h1
            split at h1
            · rename_i hc; omega
            · cases h1
          have hva : 0 ≤ va ∧ va.toNat < adj.length := by
            unfold modifyAt at h2
            split at h2
            · rename_i hc
              refine ⟨hc, ?_⟩
              by_contra hge
              rw [List.getElem?_eq_none (by omega)] at h2
              cases h2
            · cases h2
          have hlen1 : adj1.length = VL.length := by
            obtain ⟨xs', hm, hl, _⟩ := modifyAt_spec hva.1 hva.2 (fun row => row ++ [p])
            rw [hm] at h2
            cases h2
            rw [hl, hadj]
          apply ih rest vrest adj1 (by simp only [List.length_cons] at hlen; omega) hrest hlen1
          obtain ⟨v, hv, hvbad⟩ := hbad
          rcases List.mem_cons.1 hv with e | e
          · subst e; exact absurd ⟨hva.1, by omega⟩ hvbad
          · rcases List.mem_cons.1 e with e' | e'
            · subst e'; exact absurd hvb hvbad
            · exact ⟨v, e', hvbad⟩

/-- On tokens that all parse and a graph without vertices, `SetUpVertices` leaves as many
vertices as there are distinct integers. -/
theorem addVertices_length {tokens : List String} {vals : List Int}
    (hmap : tokens.map Atoi = vals.map some) :
    (sortByID (addVertices tokens []).1).length = vals.dedup.length := by
  obtain ⟨VL', hrun, hnd, _, hmem⟩ := addVertices_valid tokens vals [] hmap (by simp) (by simp)
  rw [hrun]
  have h1 : (sortByID VL').length = VL'.length := (List.perm_insertionSort _ VL').length_eq
  have h2 : (VL'.map Vertex.ID).Perm vals.dedup := by
    rw [List.perm_ext_iff_of_nodup hnd (List.nodup_dedup vals)]
    intro v
    rw [hmem v, List.mem_dedup]
    simp
  have h3 := h2.length_eq
  rw [List.length_map] at h3
  rw [h1, h3]

/-! ## Construction on tokens that are not valid: results -/

theorem parse_of_map {tokens : List String} {vals : List Int}
    (hmap : tokens.map Atoi = vals.map some) : ∀ t ∈ tokens, Atoi t ≠ none := by
  intro t ht hnone
  have : Atoi t ∈ tokens.map Atoi := List.mem_map.2 ⟨t, ht, rfl⟩
  rw [hmap, hnone] at this
  simp at this

/-- On tokens that all parse, construction returns no error value. -/
theorem construct_no_error {tokens : List String} (hparse : ∀ t ∈ tokens, Atoi t ≠ none)
    (g g' : Graph) (e : Option GoError) (h : construct g tokens = .ok (g', e)) : e = none := by
  unfold construct at h
  rw [SetUpVertices_all_parse hparse g] at h
  simp only [SetUpAdjacencyList, bind, Except.bind] at h
  cases hadd : addPairs (sortByID (addVertices tokens g.VertexList).1) tokens
      (List.replicate (sortByID (addVertices tokens g.VertexList).1).length []) with
  | error f => rw [hadd] at h; cases h
  | ok r =>
    obtain ⟨adj', e2⟩ := r
    have he2 := (addPairs_no_error _ _ tokens _ adj' e2 (le_refl _) hparse hadd).1
    subst he2
    rw [hadd] at h
    simp only at h
    split at h
    · cases h
    · cases h; rfl

/-- C11: for every token sequence of odd length, construction as the program runs it fails
with an error value and does not fault: `readFile` returns the error that a vertex maps to
nowhere, and `main` ends with that error before `Run` is called, so that no construction
function runs and the graph is still the new `Graph{}`. -/
theorem odd_tokens_error (tokens : List String) (hodd : tokens.length % 2 = 1) :
    readFile tokens = (tokens, some GoError.vertexMapsToNowhere) ∧
    ∀ src dest : Int,
      main tokens src dest = .ok (emptyGraph, some GoError.vertexMapsToNowhere, none) := by
  have hread : readFile tokens = (tokens, some GoError.vertexMapsToNowhere) := by
    unfold readFile
    rw [if_pos (by omega)]
  refine ⟨hread, ?_⟩
  intro src dest
  unfold main
  rw [hread]
  rfl

/-- Instance of C11 on the tokens `0 1 2`. -/
theorem odd_tokens_error_witness :
    ["0", "1", "2"].length % 2 = 1 ∧
    readFile ["0", "1", "2"] = (["0", "1", "2"], some GoError.vertexMapsToNowhere) ∧
    ∀ src dest : Int,
      main ["0", "1", "2"] src dest =
        .ok (emptyGraph, some GoError.vertexMapsToNowhere, none) :=
  ⟨by decide, odd_tokens_error ["0", "1", "2"] (by decide)⟩

/-- What the check of `readFile` keeps away from the construction functions, which do not look
at the parity themselves: called on an odd number of tokens they return `InvalidVertex` when
some token does not parse, and otherwise `SetUpAdjacencyList` ends in an index out of range (at
`AdjList[src]`, at `&g.VertexList[dest]`, or at the read of the destination that is not
there). -/
theorem construct_odd_unguarded (tokens : List String) (hodd : tokens.length % 2 = 1)
    (g : Graph) :
    ((∃ t ∈ tokens, Atoi t = none) →
      construct g tokens = .ok ((SetUpVertices g tokens).1, some GoError.InvalidVertex)) ∧
    ((∀ t ∈ tokens, Atoi t ≠ none) →
      construct g tokens = .error Fault.indexOutOfRange ∧
      ∀ src dest : Int, Run g tokens src dest = .error Fault.indexOutOfRange) := by
  constructor
  · intro hbad
    unfold construct
    rw [SetUpVertices_invalid hbad g]
  · intro hparse
    have hlist : SetUpAdjacencyList
        { g with VertexList := sortByID (addVertices tokens g.VertexList).1 } tokens =
        .error Fault.indexOutOfRange := by
      simp only [SetUpAdjacencyList, bind, Except.bind]
      rw [addPairs_odd _ hodd hparse]
    refine ⟨?_, fun src dest => ?_⟩
    · unfold construct
      rw [SetUpVertices_all_parse hparse g]
      simp only [hlist, bind, Except.bind]
    · unfold Run
      rw [SetUpVertices_all_parse hparse g]
      simp only [hlist, bind, Except.bind]

/-- C12, as the code has it: whenever construction returns an error value, the error is
`InvalidVertex`, `AdjList` and `AdjMatrix` are left exactly as they were, and `VertexList` keeps
its elements and has gained, behind them, one `UNVISITED` vertex for each distinct integer that
was no vertex ID yet and was parsed before the first token that does not parse. -/
theorem construct_failure_state (tokens : List String) (g g' : Graph) (e : GoError)
    (h : construct g tokens = .ok (g', some e)) :
    e = GoError.InvalidVertex ∧ g'.AdjList = g.AdjList ∧ g'.AdjMatrix = g.AdjMatrix ∧
    ∃ new, g'.VertexList = g.VertexList ++ new ∧ (new.map Vertex.ID).Nodup ∧
      (∀ x ∈ new, x.Color = UNVISITED ∧ x.ID ∉ g.VertexList.map Vertex.ID ∧
        ∃ t ∈ tokens.takeWhile (fun t => (Atoi t).isSome), Atoi t = some x.ID) ∧
      (∀ t ∈ tokens.takeWhile (fun t => (Atoi t).isSome), ∀ v, Atoi t = some v →
        v ∈ g'.VertexList.map Vertex.ID) := by
  by_cases hbad : ∃ t ∈ tokens, Atoi t = none
  · have hc : construct g tokens =
        .ok ({ g with VertexList := (addVertices tokens g.VertexList).1 },
          some GoError.InvalidVertex) := by
      unfold construct
      rw [SetUpVertices_invalid hbad g]
    rw [hc] at h
    simp only [Except.ok.injEq, Prod.mk.injEq, Option.some.injEq] at h
    obtain ⟨hg, he⟩ := h
    subst hg
    exact ⟨he.symm, rfl, rfl, addVertices_grow tokens g.VertexList⟩
  · have hparse : ∀ t ∈ tokens, Atoi t ≠ none := fun t ht hn => hbad ⟨t, ht, hn⟩
    have := construct_no_error hparse g g' (some e) h
    cases this

/-- Instance of the amended C12 on the tokens `0 x` and a new graph. -/
theorem construct_failure_state_witness :
    construct emptyGraph ["0", "x"] =
      .ok ({ VertexList := [⟨0, UNVISITED⟩], AdjList := [], AdjMatrix := [] },
        some GoError.InvalidVertex) ∧
    GoError.InvalidVertex = GoError.InvalidVertex ∧
    ([] : List (List Nat)) = emptyGraph.AdjList ∧
    ([] : List (List Bool)) = emptyGraph.AdjMatrix ∧
    ∃ new, [(⟨0, UNVISITED⟩ : Vertex)] = emptyGraph.VertexList ++ new ∧
      (new.map Vertex.ID).Nodup ∧
      (∀ x ∈ new, x.Color = UNVISITED ∧ x.ID ∉ emptyGraph.VertexList.map Vertex.ID ∧
        ∃ t ∈ ["0", "x"].takeWhile (fun t => (Atoi t).isSome), Atoi t = some x.ID) ∧
      (∀ t ∈ ["0", "x"].takeWhile (fun t => (Atoi t).isSome), ∀ v, Atoi t = some v →
        v ∈ [(⟨0, UNVISITED⟩ : Vertex)].map Vertex.ID) :=
  ⟨by decide,
    construct_failure_state ["0", "x"] emptyGraph
      { VertexList := [⟨0, UNVISITED⟩], AdjList := [], AdjMatrix := [] }
      GoError.InvalidVertex (by decide)⟩

/-- C12 as stated fails on the tokens `0 x`: construction on a new graph returns
`InvalidVertex` and leaves the vertex 0 in `VertexList`. -/
theorem construct_not_atomic :
    ∃ g', construct emptyGraph ["0", "x"] = .ok (g', some GoError.InvalidVertex) ∧
      g'.VertexList = [⟨0, UNVISITED⟩] ∧ g'.VertexList ≠ emptyGraph.VertexList :=
  ⟨{ VertexList := [⟨0, UNVISITED⟩], AdjList := [], AdjMatrix := [] }, by decide, rfl,
    by decide⟩

/-- C19: for every even-length token sequence whose tokens all parse as integers but whose
distinct integers are not exactly `0 .. N-1` (`N` the number of distinct integers),
construction on a graph without vertices neither produces a graph nor returns an error value:
`SetUpVertices` returns no error, and `SetUpAdjacencyList` indexes `AdjList` or `VertexList` out
of range. -/
theorem construct_invalid_ids (tokens : List String) (vals : List Int)
    (heven : tokens.length % 2 = 0) (hmap : tokens.map Atoi = vals.map some)
    (hbad : ¬ ∀ v : Int, v ∈ vals ↔ (0 ≤ v ∧ v < (vals.dedup.length : Int)))
    (g : Graph) (hg : g.VertexList = []) :
    (SetUpVertices g tokens).2 = none ∧
    SetUpAdjacencyList (SetUpVertices g tokens).1 tokens = .error Fault.indexOutOfRange ∧
    construct g tokens = .error Fault.indexOutOfRange := by
  have hparse := parse_of_map hmap
  have hsv := SetUpVertices_all_parse hparse g
  rw [hg] at hsv
  have hlen := addVertices_length hmap
  obtain ⟨v, hv, hvbad⟩ := exists_out_of_range hbad
  have hlist : SetUpAdjacencyList
      { g with VertexList := sortByID (addVertices tokens []).1 } tokens =
      .error Fault.indexOutOfRange := by
    simp only [SetUpAdjacencyList, bind, Except.bind]
    rw [addPairs_out_of_range _ (tokens.length / 2) tokens vals _ (by omega) hmap (by simp)
      ⟨v, hv, by rw [hlen]; exact hvbad⟩]
  refine ⟨by rw [hsv], by rw [hsv]; exact hlist, ?_⟩
  unfold construct
  rw [hsv]
  simp only [hlist, bind, Except.bind]

/-- Instance of C19 on the tokens `0 5`. -/
theorem construct_invalid_ids_witness :
    ["0", "5"].length % 2 = 0 ∧ ["0", "5"].map Atoi = [0, 5].map some ∧
    (¬ ∀ v : Int, v ∈ [0, 5] ↔ (0 ≤ v ∧ v < (([0, 5] : List Int).dedup.length : Int))) ∧
    emptyGraph.VertexList = [] ∧
    (SetUpVertices emptyGraph ["0", "5"]).2 = none ∧
    SetUpAdjacencyList (SetUpVertices emptyGraph ["0", "5"]).1 ["0", "5"] =
      .error Fault.indexOutOfRange ∧
    construct emptyGraph ["0", "5"] = .error Fault.indexOutOfRange :=
  have hbad : ¬ ∀ v : Int, v ∈ [0, 5] ↔
      (0 ≤ v ∧ v < (([0, 5] : List Int).dedup.length : Int)) := by
    intro h
    have h5 := (h 5).1 (by decide)
    revert h5
    decide
  ⟨by decide, by decide, hbad, rfl,
    construct_invalid_ids ["0", "5"] [0, 5] (by decide) (by decide) hbad emptyGraph rfl⟩

/-! ## Agreement of matrix and list; what the closure leaves alone -/

theorem agree_congr (g g2 : Graph) (hl : g2.VertexList.length = g.VertexList.length)
    (ha : g2.AdjList = g.AdjList) (hm : g2.AdjMatrix = g.AdjMatrix) :
    Agree g2 ↔ Agree g := by
  unfold Agree
  rw [hl, ha, hm]

theorem flatPairs_eq_nil {ps : List (Nat × Nat)} : flatPairs ps = [] ↔ ps = [] := by
  constructor
  · intro h
    have := congrArg List.length h
    rw [flatPairs_length] at this
    exact List.length_eq_zero.1 (by simpa using this)
  · intro h; subst h; rfl

/-- On a well-formed graph whose matrix agrees with its list both have the same edges, also
outside the range of the vertices. -/
theorem matEdge_iff_edge {g : Graph} (hwf : WellFormed g)
    (hsq : Square g.AdjMatrix g.VertexList.length) (hag : Agree g) (a b : Nat) :
    MatEdge g.AdjMatrix a b ↔ Edge g.AdjList a b := by
  by_cases hab : a < g.VertexList.length ∧ b < g.VertexList.length
  · exact hag a hab.1 b hab.2
  · constructor
    · intro h
      have h1 := (matEdge_iff hsq a b).1 h
      have := viaBelow_lt hsq 0 a b h1
      exact absurd this hab
    · intro h
      have h1 := edge_lt h
      rw [hwf.2.1] at h1
      obtain ⟨row, hrow, hmem⟩ := h
      exact absurd ⟨h1, row_bound hwf.2.2.1 hrow b hmem⟩ hab

theorem construct_agree {tokens : List String} {vals : List Int} {N : Nat}
    (hv : ValidTokens tokens vals N) (g : Graph) (hg : g.VertexList = []) :
    ∃ g', construct g tokens = .ok (g', none) ∧ Agree g' := by
  obtain ⟨adj, m, hrun, _, _, hget, hsq, hent⟩ := construct_valid hv g hg
  refine ⟨_, hrun, ?_⟩
  intro u hu v hvN
  rw [freshVertices_length] at hu hvN
  show MatEdge m u v ↔ Edge adj u v
  rw [matEdge_iff hsq, hent u v hu hvN]
  unfold Edge
  rw [hget u hu]
  simp only [Option.some.injEq, exists_eq_left', List.mem_map, List.mem_filter,
    decide_eq_true_eq]
  constructor
  · intro hmem
    exact ⟨((u : Int), (v : Int)), ⟨hmem, rfl⟩, by simp⟩
  · rintro ⟨q, ⟨hq, hq1⟩, hq2⟩
    have := hv.2.2.1 q.2 (mem_pairsOf _ vals (le_refl _) q hq).2
    have hq2' : q.2 = (v : Int) := by omega
    have : q = ((u : Int), (v : Int)) := Prod.ext hq1 hq2'
    rw [← this]; exact hq

/-- C15, as the code has it: matrix and list agree after construction, and
`DepthFirstSearch`, `CycleSearch` and `ResetColors`, which write colours only, keep the
agreement. `TransitiveClosure` adds its new edges to the matrix alone: after it the entry at
`(u, v)` is true exactly when `v` is reachable from `u` by at least one adjacency-list edge,
and matrix and list still agree only when no new edge was returned. -/
theorem agree_kept_except_closure (g : Graph) (hwf : WellFormed g)
    (hsq : Square g.AdjMatrix g.VertexList.length) (hag : Agree g) (src dest : Nat)
    (hsrc : src < g.VertexList.length) (hdest : dest < g.VertexList.length) :
    (∃ r, DepthFirstSearch g (src : Int) (dest : Int) = .ok r ∧
      Agree { g with VertexList := r.VL }) ∧
    (∃ VL b, CycleSearch g = .ok (VL, b) ∧ Agree { g with VertexList := VL }) ∧
    Agree { g with VertexList := ResetColors g.VertexList } ∧
    (∃ g' newEdges, TransitiveClosure g = .ok (g', newEdges) ∧ g'.AdjList = g.AdjList ∧
      g'.VertexList = g.VertexList ∧
      (∀ u v : Nat, u < g.VertexList.length → v < g.VertexList.length →
        (MatEdge g'.AdjMatrix u v ↔ Relation.TransGen (Edge g.AdjList) u v)) ∧
      (Agree g' ↔ newEdges = [])) ∧
    (∀ (tokens : List String) (vals : List Int) (M : Nat) (g0 : Graph),
      ValidTokens tokens vals M → g0.VertexList = [] →
      ∃ g1, construct g0 tokens = .ok (g1, none) ∧ Agree g1) := by
  refine ⟨?_, ?_, ?_, ?_, ?_⟩
  · obtain ⟨r, _, _, _, _, hrun, hrl, _, _⟩ := DepthFirstSearch_loop g hwf src dest hsrc hdest
    exact ⟨r, hrun, (agree_congr g { g with VertexList := r.VL } hrl rfl rfl).2 hag⟩
  · obtain ⟨VL', b, hrun, _, _, hl, _⟩ :=
      cycleRoots_spec hwf.2.1 hwf.2.2.1 hwf.lt_max (List.range g.VertexList.length)
        { VL := g.VertexList, stack := { stack := [] } }
        (fun r hr => List.mem_range.1 hr) rfl rfl hwf.idsOk
    exact ⟨VL', b, hrun, (agree_congr g { g with VertexList := VL' } hl rfl rfl).2 hag⟩
  · exact (agree_congr g { g with VertexList := ResetColors g.VertexList }
      (ResetColors_length _) rfl rfl).2 hag
  · obtain ⟨m', hrun, hsq', hent⟩ := TransitiveClosure_spec g _ hsq
    have hrel : ∀ u v : Nat,
        Relation.TransGen (MatEdge g.AdjMatrix) u v ↔
          Relation.TransGen (Edge g.AdjList) u v := by
      intro u v
      constructor
      · exact Relation.TransGen.mono (fun a b h => (matEdge_iff_edge hwf hsq hag a b).1 h)
      · exact Relation.TransGen.mono (fun a b h => (matEdge_iff_edge hwf hsq hag a b).2 h)
    refine ⟨_, _, hrun, rfl, rfl, ?_, ?_⟩
    · intro u v _ _
      show MatEdge m' u v ↔ _
      rw [matEdge_iff hsq', hent, ← transGen_matEdge_iff hsq, hrel]
    · rw [flatPairs_eq_nil]
      constructor
      · intro hag'
        apply List.eq_nil_iff_forall_not_mem.2
        intro p hp
        obtain ⟨h1, h2, h3, h4⟩ := mem_newPairs.1 hp
        have hnew : MatEdge m' p.1 p.2 := by
          rw [matEdge_iff hsq', hent]; exact h4
        have hedge := (hag' p.1 h1 p.2 h2).1 hnew
        have hold := (hag p.1 h1 p.2 h2).2 hedge
        have := (matEdge_iff hsq p.1 p.2).1 hold
        rw [show viaBelow g.AdjMatrix 0 p.1 p.2 = entry g.AdjMatrix p.1 p.2 from rfl,
          this] at h3
        exact absurd h3 (by simp)
      · intro hnil u hu v hvN
        show MatEdge m' u v ↔ Edge g.AdjList u v
        rw [← hag u hu v hvN, matEdge_iff hsq', matEdge_iff hsq, hent]
        constructor
        · intro h
          by_contra hne
          have : (u, v) ∈ newPairs g.AdjMatrix g.VertexList.length g.VertexList.length :=
            mem_newPairs.2 ⟨hu, hvN, by simpa [viaBelow] using hne, h⟩
          rw [hnil] at this
          simp at this
        · intro h
          exact viaBelow_mono (Nat.zero_le _) h
  · intro tokens vals M g0 hv hg0
    exact construct_agree hv g0 hg0

/-- Instance of the amended C15 on the chain `0 -> 1 -> 2`. -/
theorem agree_kept_except_closure_witness :
    WellFormed chainGraph ∧ Square chainGraph.AdjMatrix chainGraph.VertexList.length ∧
    Agree chainGraph ∧
    (∃ r, DepthFirstSearch chainGraph ((0 : Nat) : Int) ((2 : Nat) : Int) = .ok r ∧
      Agree { chainGraph with VertexList := r.VL }) ∧
    (∃ VL b, CycleSearch chainGraph = .ok (VL, b) ∧
      Agree { chainGraph with VertexList := VL }) ∧
    Agree { chainGraph with VertexList := ResetColors chainGraph.VertexList } ∧
    (∃ g' newEdges, TransitiveClosure chainGraph = .ok (g', newEdges) ∧
      g'.AdjList = chainGraph.AdjList ∧ g'.VertexList = chainGraph.VertexList ∧
      (∀ u v : Nat, u < chainGraph.VertexList.length → v < chainGraph.VertexList.length →
        (MatEdge g'.AdjMatrix u v ↔ Relation.TransGen (Edge chainGraph.AdjList) u v)) ∧
      (Agree g' ↔ newEdges = [])) ∧
    (∀ (tokens : List String) (vals : List Int) (M : Nat) (g0 : Graph),
      ValidTokens tokens vals M → g0.VertexList = [] →
      ∃ g1, construct g0 tokens = .ok (g1, none) ∧ Agree g1) :=
  ⟨by decide, by decide, by decide,
    agree_kept_except_closure chainGraph (by decide) (by decide) (by decide) 0 2 (by decide)
      (by decide)⟩

/-- C15 as stated fails on the chain `0 -> 1 -> 2`: matrix and list agree before
`TransitiveClosure`; the call sets the entry `(0, 2)` and leaves row 0 of the list as it was,
so they no longer agree after it. -/
theorem closure_breaks_agreement :
    Agree chainGraph ∧
    ∃ g' newEdges, TransitiveClosure chainGraph = .ok (g', newEdges) ∧
      MatEdge g'.AdjMatrix 0 2 ∧ ¬ Edge g'.AdjList 0 2 ∧ ¬ Agree g' :=
  ⟨by decide,
    { chainGraph with
      AdjMatrix := [[false, true, true], [false, false, true], [false, false, false]] },
    [0, 2], by decide, by decide, by decide, by decide⟩

/-- C17: on every graph whose matrix is `N x N`, `TransitiveClosure` returns and changes the
matrix only: `VertexList` and `AdjList` are the same lists after the call as before it, and
the matrix is still `N x N`. On no graph does a call that returns change `VertexList` or
`AdjList`. -/
theorem TransitiveClosure_frame (g : Graph) (N : Nat) (hsq : Square g.AdjMatrix N) :
    (∃ g' newEdges, TransitiveClosure g = .ok (g', newEdges) ∧
      g'.VertexList = g.VertexList ∧ g'.AdjList = g.AdjList ∧ Square g'.AdjMatrix N) ∧
    (∀ (h : Graph) (h' : Graph) (newEdges : List Int),
      TransitiveClosure h = .ok (h', newEdges) →
      h'.VertexList = h.VertexList ∧ h'.AdjList = h.AdjList) := by
  constructor
  · obtain ⟨m', hrun, hsq', _⟩ := TransitiveClosure_spec g N hsq
    exact ⟨_, _, hrun, rfl, rfl, hsq'⟩
  · intro h h' newEdges hrun
    unfold TransitiveClosure at hrun
    simp only [bind, Except.bind] at hrun
    cases hc : closureLoops h.AdjMatrix with
    | error f => rw [hc] at hrun; cases hrun
    | ok s =>
      rw [hc] at hrun
      simp only [Except.ok.injEq, Prod.mk.injEq] at hrun
      obtain ⟨h1, _⟩ := hrun
      subst h1
      exact ⟨rfl, rfl⟩

/-- Instance of C17 on the triangle. -/
theorem TransitiveClosure_frame_witness :
    Square triangleGraph.AdjMatrix 3 ∧
    (∃ g' newEdges, TransitiveClosure triangleGraph = .ok (g', newEdges) ∧
      g'.VertexList = triangleGraph.VertexList ∧ g'.AdjList = triangleGraph.AdjList ∧
      Square g'.AdjMatrix 3) ∧
    (∀ (h : Graph) (h' : Graph) (newEdges : List Int),
      TransitiveClosure h = .ok (h', newEdges) →
      h'.VertexList = h.VertexList ∧ h'.AdjList = h.AdjList) :=
  ⟨by decide, TransitiveClosure_frame triangleGraph 3 (by decide)⟩

end DFS
